import Mathlib

/-!
Verification development for the `gemfile-go` repository: a Go library that
parses Ruby Gemfile manifests and Bundler `Gemfile.lock` lockfiles and writes
lockfiles back out.

The Go sources are shallowly embedded here.  Strings are modelled as lists of
characters (`Str`), a file as the list of its lines (what `bufio.Scanner`
yields), and each Go function is translated into a Lean function over that
representation.  The fixed regular expressions of the sources are translated
into equivalent deterministic scanning functions (each regex involved admits
no backtracking ambiguity, so the translation is exact on every input).
Where Go sorts with an unstable comparison sort, the embedding uses a stable
insertion sort with the same comparison key; all properties proved below are
invariant under the choice of order among equal keys.
-/

namespace GemfileGo

/-- Strings are modelled as lists of characters. -/
abbrev Str := List Char

/-- `unicode.IsSpace` restricted to the ASCII range, as used by Go's
`strings.TrimSpace` and `strings.Fields` on the inputs at hand. -/
def goIsSpace (c : Char) : Bool :=
  c = ' ' || c = '\t' || c = '\n' || c = '\x0b' || c = '\x0c' || c = '\r'

/-- Go `strings.TrimSpace`. -/
def trimSpace (s : Str) : Str :=
  ((s.dropWhile goIsSpace).reverse.dropWhile goIsSpace).reverse

/-- Go `strings.HasPrefix p s` (note the argument order: pattern first). -/
def startsWith : Str → Str → Bool
  | [], _ => true
  | _ :: _, [] => false
  | p :: ps, c :: cs => p = c && startsWith ps cs

/-- Go `strings.Contains s sub`: `sub` occurs as a contiguous substring. -/
def infixOf (sub s : Str) : Bool :=
  startsWith sub s ||
    match s with
    | [] => false
    | _ :: rest => infixOf sub rest

/-- Go `strings.Split s (String.singleton sep)`: always returns a nonempty
list of separator-free pieces. -/
def splitOnChar (sep : Char) : Str → List Str
  | [] => [[]]
  | c :: rest =>
    if c = sep then [] :: splitOnChar sep rest
    else
      match splitOnChar sep rest with
      | [] => [[c]]
      | p :: ps => (c :: p) :: ps

/-- Go `strings.Join pieces (String.singleton sep)`. -/
def joinChar (sep : Char) : List Str → Str
  | [] => []
  | [p] => p
  | p :: ps => p ++ sep :: joinChar sep ps

/-- Go `strings.Join pieces sep` for a general separator. -/
def joinSep (sep : Str) : List Str → Str
  | [] => []
  | [p] => p
  | p :: ps => p ++ sep ++ joinSep sep ps

theorem lengthDropWhileLe (p : α → Bool) (l : List α) :
    (l.dropWhile p).length ≤ l.length := by
  induction l with
  | nil => simp [List.dropWhile]
  | cons a l ih =>
    by_cases h : p a
    · simpa [List.dropWhile, h] using Nat.le_succ_of_le ih
    · simp [List.dropWhile, h]

/-- Go `strings.Fields`, with an explicit step budget.  Every step—skipping
one space or consuming one nonempty word—shortens the string, so a budget of
`s.length` can never run out and the function computes exactly the word split
of the Go loop (kernel-reducible, unlike a well-founded recursion). -/
def fieldsF : Nat → Str → List Str
  | 0, _ => []
  | _ + 1, [] => []
  | fuel + 1, c :: rest =>
    if goIsSpace c then fieldsF fuel rest
    else (c :: rest.takeWhile (fun d => !goIsSpace d))
      :: fieldsF fuel (rest.dropWhile (fun d => !goIsSpace d))

def fields (s : Str) : List Str := fieldsF s.length s

/-- The character class `[a-zA-Z0-9\-_]` of the lockfile entry regexes. -/
def isNameChar (c : Char) : Bool :=
  c.isAlpha || c.isDigit || c = '-' || c = '_'

/-! ## Lockfile data model (`src/lockfile/parser.go`)

Only the fields that `Parse` and the writer touch are modelled; the
metadata fields of the Go structs (checksums, install state, …) are never
assigned by either and are dropped. -/

/-- `lockfile.Dependency`: one resolved dependency edge. -/
structure Dependency where
  name : Str
  constraints : List Str
deriving DecidableEq, Repr

/-- `lockfile.GemSpec`: a registry (GEM-section) entry.  `sourceURL` is the
`SourceURL` field used by the writer for grouping; `Parse` never sets it. -/
structure GemSpec where
  name : Str
  version : Str
  platform : Str
  dependencies : List Dependency
  sourceURL : Str
deriving DecidableEq, Repr

/-- `lockfile.GitGemSpec`: a version-control (GIT-section) entry. -/
structure GitGemSpec where
  name : Str
  version : Str
  remote : Str
  revision : Str
  branch : Str
  tag : Str
  dependencies : List Dependency
deriving DecidableEq, Repr

/-- `lockfile.PathGemSpec`: a local-path (PATH-section) entry. -/
structure PathGemSpec where
  name : Str
  version : Str
  remote : Str
  dependencies : List Dependency
deriving DecidableEq, Repr

/-- `lockfile.Lockfile`. -/
structure Lockfile where
  gemSpecs : List GemSpec
  gitSpecs : List GitGemSpec
  pathSpecs : List PathGemSpec
  platforms : List Str
  dependencies : List Dependency
  bundledWith : Str
deriving DecidableEq, Repr

def emptyLockfile : Lockfile := ⟨[], [], [], [], [], []⟩

def emptyGitGem : GitGemSpec := ⟨[], [], [], [], [], [], []⟩

def emptyPathGem : PathGemSpec := ⟨[], [], [], []⟩

/-! ## Lockfile parser (`lockfile.Parse`)

The two entry regexes

    gemSpecRegex = `^    ([a-zA-Z0-9\-_]+) \(([^)]+)\)$`
    depRegex     = `^      ([a-zA-Z0-9\-_]+)(?: \(([^)]+)\))?$`

and the DEPENDENCIES-section regex `^([a-zA-Z0-9\-_]+) \(([^)]+)\)$` are
translated into the scanners below.  In each, the name capture is the maximal
leading run of name characters (the class excludes space and parenthesis) and
the version capture is the maximal run of non-`)` characters, which must be
followed by `)` at end of line — exactly the unique match of the regex. -/

/-- Strip an expected literal run of characters from the front of a string:
`expectChars e s = some r` exactly when `s = e ++ r`. -/
def expectChars : Str → Str → Option Str
  | [], s => some s
  | _ :: _, [] => none
  | e :: es, c :: cs => if c = e then expectChars es cs else none

/-- Matcher for `([a-zA-Z0-9\-_]+) \(([^)]+)\)$` anchored at both ends. -/
def parseNameParen (l : Str) : Option (Str × Str) :=
  let n := l.takeWhile isNameChar
  if n.isEmpty then none else
  match expectChars " (".data (l.drop n.length) with
  | none => none
  | some r =>
    let v := r.takeWhile (fun c => c ≠ ')')
    if v.isEmpty then none else
    if r.drop v.length = [')'] then some (n, v) else none

/-- `gemSpecRegex`: four spaces, then `name (version)`. -/
def parseGemSpecLine (l : Str) : Option (Str × Str) :=
  match expectChars "    ".data l with
  | some rest => parseNameParen rest
  | none => none

/-- `depRegex`: six spaces, a name, optionally ` (constraints)`. -/
def parseDepLine (l : Str) : Option (Str × Option Str) :=
  match expectChars "      ".data l with
  | none => none
  | some rest =>
    let n := rest.takeWhile isNameChar
    if n.isEmpty then none else
    let r := rest.drop n.length
    if r.isEmpty then some (n, none) else
    match expectChars " (".data r with
    | none => none
    | some r2 =>
      let v := r2.takeWhile (fun c => c ≠ ')')
      if v.isEmpty then none else
      if r2.drop v.length = [')'] then some (n, some v) else none

/-- `lockfile.parseConstraints`: split on `,`, trim, drop empties. -/
def parseConstraints (c : Str) : List Str :=
  ((splitOnChar ',' c).map trimSpace).filter (fun x => !x.isEmpty)

/-- The platform-indicator test of the GEM-section branch of `Parse`. -/
def hasPlatformIndicator (vp : Str) : Bool :=
  infixOf "x86".data vp || infixOf "darwin".data vp ||
    infixOf "linux".data vp || infixOf "java".data vp

/-- Version/platform splitting in the GEM-section branch of `Parse`:
split on `-`; with at least three parts and a platform indicator substring,
the first part is the version and the rest (re-joined with `-`) the
platform; otherwise the whole string is the version. -/
def parseVersionPlatform (vp : Str) : Str × Str :=
  match splitOnChar '-' vp with
  | [] => (vp, [])
  | p :: ps =>
    if (p :: ps).length ≥ 3 && hasPlatformIndicator vp then
      (p, joinChar '-' ps)
    else (vp, [])

/-- The mutable locals of `lockfile.Parse`: the current section tag (a string
in Go, compared literally) and the three in-progress accumulators. -/
structure ParseState where
  sec : Str
  gem : Option GemSpec
  git : Option GitGemSpec
  path : Option PathGemSpec
  lock : Lockfile
deriving DecidableEq, Repr

def initState : ParseState := ⟨[], none, none, none, emptyLockfile⟩

/-- Append-and-clear the open registry accumulator (the
`if currentGem != nil { … append … ; currentGem = nil }` idiom). -/
def flushGem (st : ParseState) : ParseState :=
  match st.gem with
  | none => st
  | some g =>
    { st with
      gem := none,
      lock := { st.lock with gemSpecs := st.lock.gemSpecs ++ [g] } }

def flushGit (st : ParseState) : ParseState :=
  match st.git with
  | none => st
  | some g =>
    { st with
      git := none,
      lock := { st.lock with gitSpecs := st.lock.gitSpecs ++ [g] } }

def flushPath (st : ParseState) : ParseState :=
  match st.path with
  | none => st
  | some g =>
    { st with
      path := none,
      lock := { st.lock with pathSpecs := st.lock.pathSpecs ++ [g] } }

/-- One iteration of the scan loop of `lockfile.Parse`, translated branch by
branch from the Go source. -/
def parseStep (st : ParseState) (line : Str) : ParseState :=
  if line = "GEM".data then
    -- Go saves only the pending Git and Path gems here, not the open GemSpec.
    { flushPath (flushGit st) with sec := "GEM".data }
  else if line = "GIT".data then
    { flushPath (flushGit (flushGem st)) with sec := "GIT".data }
  else if line = "PATH".data then
    { flushPath (flushGit (flushGem st)) with sec := "PATH".data }
  else if line = "PLATFORMS".data then
    { flushPath (flushGit (flushGem st)) with sec := "PLATFORMS".data }
  else if line = "DEPENDENCIES".data then
    { flushPath (flushGit (flushGem st)) with sec := "DEPENDENCIES".data }
  else if startsWith "BUNDLED WITH".data line then
    { st with sec := "BUNDLED_WITH".data }
  else if startsWith "  remote:".data line then
    if st.sec = "GIT".data then
      { st with git := some { (st.git.getD emptyGitGem) with
          remote := trimSpace (line.drop 9) } }
    else if st.sec = "PATH".data then
      { st with path := some { (st.path.getD emptyPathGem) with
          remote := trimSpace (line.drop 9) } }
    else st
  else if startsWith "  revision:".data line && st.sec = "GIT".data then
    { st with git := some { (st.git.getD emptyGitGem) with
        revision := trimSpace (line.drop 11) } }
  else if startsWith "  branch:".data line && st.sec = "GIT".data then
    { st with git := some { (st.git.getD emptyGitGem) with
        branch := trimSpace (line.drop 9) } }
  else if startsWith "  tag:".data line && st.sec = "GIT".data then
    { st with git := some { (st.git.getD emptyGitGem) with
        tag := trimSpace (line.drop 6) } }
  else if startsWith "  specs:".data line then st
  else if st.sec = "GEM".data then
    match parseGemSpecLine line with
    | some (n, vp) =>
      let st' := flushGem st
      let v := parseVersionPlatform vp
      { st' with gem := some ⟨n, v.1, v.2, [], []⟩ }
    | none =>
      match parseDepLine line, st.gem with
      | some (n, copt), some g =>
        { st with gem := some { g with dependencies := g.dependencies ++
            [⟨n, match copt with | some c => parseConstraints c | none => []⟩] } }
      | _, _ => st
  else if st.sec = "GIT".data then
    match parseGemSpecLine line with
    | some (n, vp) =>
      -- overwrites the open accumulator in place: no flush, no dep reset
      { st with git := some { (st.git.getD emptyGitGem) with name := n, version := vp } }
    | none =>
      match parseDepLine line, st.git with
      | some (n, copt), some g =>
        { st with git := some { g with dependencies := g.dependencies ++
            [⟨n, match copt with | some c => parseConstraints c | none => []⟩] } }
      | _, _ => st
  else if st.sec = "PATH".data then
    match parseGemSpecLine line with
    | some (n, vp) =>
      { st with path := some { (st.path.getD emptyPathGem) with name := n, version := vp } }
    | none =>
      match parseDepLine line, st.path with
      | some (n, copt), some g =>
        { st with path := some { g with dependencies := g.dependencies ++
            [⟨n, match copt with | some c => parseConstraints c | none => []⟩] } }
      | _, _ => st
  else if st.sec = "PLATFORMS".data then
    if startsWith "  ".data line then
      { st with lock := { st.lock with
          platforms := st.lock.platforms ++ [trimSpace line] } }
    else st
  else if st.sec = "DEPENDENCIES".data then
    if startsWith "  ".data line then
      let d := trimSpace line
      match parseNameParen d with
      | some (n, c) =>
        { st with lock := { st.lock with
            dependencies := st.lock.dependencies ++ [⟨n, parseConstraints c⟩] } }
      | none =>
        match fields d with
        | [] => st
        | n :: _ =>
          { st with lock := { st.lock with
              dependencies := st.lock.dependencies ++ [⟨n, []⟩] } }
    else st
  else if st.sec = "BUNDLED_WITH".data then
    if startsWith "   ".data line then
      { st with lock := { st.lock with bundledWith := trimSpace line } }
    else st
  else st

/-- `lockfile.Parse` on a list of lines: scan every line, then flush the
still-open accumulators (the end-of-input flush of the Go source). -/
def parseLockfileLines (lines : List Str) : Lockfile :=
  (flushPath (flushGit (flushGem (lines.foldl parseStep initState)))).lock

/-- `lockfile.Parse` with its error channel: the only error return of the Go
function is the scanner (reader) error checked after the loop. -/
def parseLockfile (lines : List Str) (readErr : Bool) : Except Str Lockfile :=
  if readErr then Except.error "error reading lockfile".data
  else Except.ok (parseLockfileLines lines)

/-! ## Lockfile writer (`src/lockfile/writer.go`) -/

def defaultGemRemote : Str := "https://rubygems.org/".data

def indent2 : Str := "  ".data
def indent4 : Str := "    ".data
def indent6 : Str := "      ".data

/-- Bytewise-lexicographic `≤` on strings, the order induced by Go's
`strings.Compare`. -/
def leStr : Str → Str → Bool
  | [], _ => true
  | _ :: _, [] => false
  | c :: cs, d :: ds => if c = d then leStr cs ds else decide (c < d)

/-- Stable insertion used by `sortLe`. -/
def insertLe (le : α → α → Bool) (x : α) : List α → List α
  | [] => [x]
  | y :: ys => if le x y then x :: y :: ys else y :: insertLe le x ys

/-- Stable insertion sort; stands in for Go's `slices.SortFunc`
(the properties proved below do not depend on the order of equal keys). -/
def sortLe (le : α → α → Bool) : List α → List α
  | [] => []
  | x :: xs => insertLe le x (sortLe le xs)

/-- Association-list grouping: groups in first-appearance order, each group
collecting its members in order (the deterministic part of Go's
`map[string][]T` accumulation). -/
def addToGroup [DecidableEq κ] (k : κ) (x : α) :
    List (κ × List α) → List (κ × List α)
  | [] => [(k, [x])]
  | (k', xs) :: rest =>
    if k' = k then (k', xs ++ [x]) :: rest else (k', xs) :: addToGroup k x rest

def groupByKey [DecidableEq κ] (key : α → κ) (xs : List α) : List (κ × List α) :=
  xs.foldl (fun acc x => addToGroup (key x) x acc) []

/-- `writeDependency`: one dependency line at the given indentation. -/
def writeDependency (ind : Str) (d : Dependency) : Str :=
  if d.constraints.isEmpty then ind ++ d.name
  else ind ++ d.name ++ " (".data ++ joinSep ", ".data d.constraints ++ [')']

def depLe (a b : Dependency) : Bool := leStr a.name b.name

/-- `writeGemSpec`: the entry line (re-joining version and platform with `-`)
followed by its dependencies sorted by name. -/
def writeGemSpecLines (s : GemSpec) : List Str :=
  (indent4 ++ s.name ++ " (".data ++
      (if s.platform.isEmpty then s.version else s.version ++ '-' :: s.platform) ++
      [')']) ::
    (sortLe depLe s.dependencies).map (writeDependency indent6)

/-- `writeGitGemSpec` / `writePathGemSpec` entry lines (no platform suffix). -/
def writeVcsSpecLines (name version : Str) (deps : List Dependency) : List Str :=
  (indent4 ++ name ++ " (".data ++ version ++ [')']) ::
    (sortLe depLe deps).map (writeDependency indent6)

/-- Concatenate blocks with a blank line before every block after the first
(the `if i > 0 { buf.WriteString "\n" }` of `writeGemSection`). -/
def joinBlocksBlank : List (List Str) → List Str
  | [] => []
  | b :: bs => b ++ bs.flatMap (fun x => [] :: x)

/-- `writeGemSection`: group by source URL (defaulting to the canonical
registry remote), one GEM block per URL sorted by URL, specs sorted by name. -/
def writeGemSection (lf : Lockfile) : List Str :=
  if lf.gemSpecs.isEmpty then [] else
  let groups := groupByKey
    (fun s : GemSpec => if s.sourceURL.isEmpty then defaultGemRemote else s.sourceURL)
    lf.gemSpecs
  let sorted := sortLe (fun a b => leStr a.1 b.1) groups
  joinBlocksBlank (sorted.map (fun g =>
    "GEM".data :: (indent2 ++ "remote: ".data ++ g.1) :: (indent2 ++ "specs:".data) ::
      (sortLe (fun a b : GemSpec => leStr a.name b.name) g.2).flatMap writeGemSpecLines))

/-- The composite grouping key of `writeGitSection`:
`fmt.Sprintf("%s|%s|%s|%s", remote, revision, branch, tag)`. -/
def gitSourceKey (g : GitGemSpec) : Str :=
  g.remote ++ '|' :: g.revision ++ '|' :: g.branch ++ '|' :: g.tag

/-- One GIT block: header metadata from the group's representative spec
(branch/tag lines only when nonempty), then specs sorted by name.  Each block
begins with the blank line of the leading `"\nGIT\n"` write. -/
def writeGitBlock (rep : GitGemSpec) (specs : List GitGemSpec) : List Str :=
  [] :: "GIT".data ::
    (indent2 ++ "remote: ".data ++ rep.remote) ::
    (indent2 ++ "revision: ".data ++ rep.revision) ::
    ((if rep.branch.isEmpty then [] else [indent2 ++ "branch: ".data ++ rep.branch]) ++
     (if rep.tag.isEmpty then [] else [indent2 ++ "tag: ".data ++ rep.tag]) ++
     ((indent2 ++ "specs:".data) ::
       (sortLe (fun a b : GitGemSpec => leStr a.name b.name) specs).flatMap
         (fun s => writeVcsSpecLines s.name s.version s.dependencies)))

/-- `writeGitSection`: group by the composite source key, blocks sorted by
remote. -/
def writeGitSection (lf : Lockfile) : List Str :=
  if lf.gitSpecs.isEmpty then [] else
  let groups := groupByKey gitSourceKey lf.gitSpecs
  let sorted := sortLe
    (fun a b : Str × List GitGemSpec =>
      leStr ((a.2.headD emptyGitGem).remote) ((b.2.headD emptyGitGem).remote))
    groups
  (sorted.map (fun g => writeGitBlock (g.2.headD emptyGitGem) g.2)).flatten

/-- One PATH block. -/
def writePathBlock (remote : Str) (specs : List PathGemSpec) : List Str :=
  [] :: "PATH".data ::
    (indent2 ++ "remote: ".data ++ remote) ::
    (indent2 ++ "specs:".data) ::
    (sortLe (fun a b : PathGemSpec => leStr a.name b.name) specs).flatMap
      (fun s => writeVcsSpecLines s.name s.version s.dependencies)

/-- `writePathSection`: group by remote path, blocks sorted by path. -/
def writePathSection (lf : Lockfile) : List Str :=
  if lf.pathSpecs.isEmpty then [] else
  let groups := groupByKey (fun s : PathGemSpec => s.remote) lf.pathSpecs
  let sorted := sortLe (fun a b : Str × List PathGemSpec => leStr a.1 b.1) groups
  (sorted.map (fun g => writePathBlock g.1 g.2)).flatten

/-- First-occurrence deduplication (the `map[string]bool` set of
`writePlatformsSection`; the subsequent sort makes the order immaterial). -/
def dedupStr : List Str → List Str
  | [] => []
  | x :: xs => x :: (dedupStr xs).filter (fun y => y ≠ x)

/-- `writePlatformsSection`: deduplicate and sort. -/
def writePlatformsSection (lf : Lockfile) : List Str :=
  if lf.platforms.isEmpty then [] else
  [] :: "PLATFORMS".data ::
    (sortLe leStr (dedupStr lf.platforms)).map (fun p => indent2 ++ p)

/-- `writeDependenciesSection`: sorted by name. -/
def writeDependenciesSection (lf : Lockfile) : List Str :=
  if lf.dependencies.isEmpty then [] else
  [] :: "DEPENDENCIES".data ::
    (sortLe depLe lf.dependencies).map (writeDependency indent2)

/-- `writeBundledWithSection`. -/
def writeBundledWithSection (lf : Lockfile) : List Str :=
  if lf.bundledWith.isEmpty then [] else
  [[], "BUNDLED WITH".data, "   ".data ++ lf.bundledWith]

/-- `LockfileWriter.Write` as the list of emitted lines: the six sections in
order, with the loop's separator newline (an empty line) after every section
from the second on. -/
def writeLockfileLines (lf : Lockfile) : List Str :=
  writeGemSection lf ++ writeGitSection lf ++ [[]] ++
    writePathSection lf ++ [[]] ++ writePlatformsSection lf ++ [[]] ++
    writeDependenciesSection lf ++ [[]] ++ writeBundledWithSection lf ++ [[]]

/-! ## Literal reductions

The kernel-level `List Char` form of the string literals used by the parser
and writer, exposed to `simp`. -/

@[simp] theorem dataGEM : "GEM".data = ['G', 'E', 'M'] := rfl
@[simp] theorem dataGIT : "GIT".data = ['G', 'I', 'T'] := rfl
@[simp] theorem dataPATH : "PATH".data = ['P', 'A', 'T', 'H'] := rfl
@[simp] theorem dataPLATFORMS :
    "PLATFORMS".data = ['P', 'L', 'A', 'T', 'F', 'O', 'R', 'M', 'S'] := rfl
@[simp] theorem dataDEPENDENCIES :
    "DEPENDENCIES".data = ['D', 'E', 'P', 'E', 'N', 'D', 'E', 'N', 'C', 'I', 'E', 'S'] := rfl
@[simp] theorem dataBUNDLED :
    "BUNDLED WITH".data = ['B', 'U', 'N', 'D', 'L', 'E', 'D', ' ', 'W', 'I', 'T', 'H'] := rfl
@[simp] theorem dataBUNDLEDU :
    "BUNDLED_WITH".data = ['B', 'U', 'N', 'D', 'L', 'E', 'D', '_', 'W', 'I', 'T', 'H'] := rfl
@[simp] theorem dataRemote :
    "  remote:".data = [' ', ' ', 'r', 'e', 'm', 'o', 't', 'e', ':'] := rfl
@[simp] theorem dataRevision :
    "  revision:".data = [' ', ' ', 'r', 'e', 'v', 'i', 's', 'i', 'o', 'n', ':'] := rfl
@[simp] theorem dataBranch :
    "  branch:".data = [' ', ' ', 'b', 'r', 'a', 'n', 'c', 'h', ':'] := rfl
@[simp] theorem dataTag : "  tag:".data = [' ', ' ', 't', 'a', 'g', ':'] := rfl
@[simp] theorem dataSpecs :
    "  specs:".data = [' ', ' ', 's', 'p', 'e', 'c', 's', ':'] := rfl
@[simp] theorem dataTwoSp : "  ".data = [' ', ' '] := rfl
@[simp] theorem dataThreeSp : "   ".data = [' ', ' ', ' '] := rfl

/-! ## Behaviour of `parseStep` on section-header lines -/

theorem parseStep_hdr_GEM (st : ParseState) :
    parseStep st "GEM".data = { flushPath (flushGit st) with sec := "GEM".data } := by
  simp [parseStep]

theorem parseStep_hdr_GIT (st : ParseState) :
    parseStep st "GIT".data =
      { flushPath (flushGit (flushGem st)) with sec := "GIT".data } := by
  simp [parseStep]

theorem parseStep_hdr_PATH (st : ParseState) :
    parseStep st "PATH".data =
      { flushPath (flushGit (flushGem st)) with sec := "PATH".data } := by
  simp [parseStep]

theorem parseStep_hdr_PLATFORMS (st : ParseState) :
    parseStep st "PLATFORMS".data =
      { flushPath (flushGit (flushGem st)) with sec := "PLATFORMS".data } := by
  simp [parseStep]

theorem parseStep_hdr_DEPENDENCIES (st : ParseState) :
    parseStep st "DEPENDENCIES".data =
      { flushPath (flushGit (flushGem st)) with sec := "DEPENDENCIES".data } := by
  simp [parseStep]

theorem parseStep_hdr_BUNDLED (st : ParseState) :
    parseStep st "BUNDLED WITH".data = { st with sec := "BUNDLED_WITH".data } := by
  simp [parseStep, startsWith]

/-- C4 (amended): flush behaviour at each section-header line.  The four
headers GIT, PATH, PLATFORMS and DEPENDENCIES append-and-clear all three
in-progress accumulators; the GEM header appends-and-clears only the
version-control and local-path accumulators and leaves the registry
accumulator open; the BUNDLED WITH marker flushes nothing. -/
theorem c4_amended_flush_on_transition (st : ParseState) :
    parseStep st "GIT".data =
      { flushPath (flushGit (flushGem st)) with sec := "GIT".data } ∧
    parseStep st "PATH".data =
      { flushPath (flushGit (flushGem st)) with sec := "PATH".data } ∧
    parseStep st "PLATFORMS".data =
      { flushPath (flushGit (flushGem st)) with sec := "PLATFORMS".data } ∧
    parseStep st "DEPENDENCIES".data =
      { flushPath (flushGit (flushGem st)) with sec := "DEPENDENCIES".data } ∧
    parseStep st "GEM".data =
      { flushPath (flushGit st) with sec := "GEM".data } ∧
    parseStep st "BUNDLED WITH".data = { st with sec := "BUNDLED_WITH".data } :=
  ⟨parseStep_hdr_GIT st, parseStep_hdr_PATH st, parseStep_hdr_PLATFORMS st,
   parseStep_hdr_DEPENDENCIES st, parseStep_hdr_GEM st, parseStep_hdr_BUNDLED st⟩

/-- C4 (counterexample): at a `GEM` section-header line the open registry
accumulator is neither appended to its result collection nor cleared, contrary
to the claim; observably, a dependency line right after a second `GEM` header
is attributed to the entry left open from the previous `GEM` section. -/
theorem c4_counterexample :
    (parseStep ⟨"GEM".data, some ⟨"a".data, "1".data, [], [], []⟩, none, none,
        emptyLockfile⟩ "GEM".data).gem = some ⟨"a".data, "1".data, [], [], []⟩ ∧
    (parseStep ⟨"GEM".data, some ⟨"a".data, "1".data, [], [], []⟩, none, none,
        emptyLockfile⟩ "GEM".data).lock.gemSpecs = [] ∧
    (parseLockfileLines (["GEM", "  specs:", "    a (1)",
        "GEM", "  specs:", "      b (>= 1)"].map String.data)).gemSpecs =
      [⟨"a".data, "1".data, [], [⟨"b".data, [">= 1".data]⟩], []⟩] := by
  refine ⟨by decide, by decide, by decide⟩

/-- C5: the platform-suffix inference boundary of the GEM-section entry
branch.  A version string with exactly two hyphen-separated parts is never
split (even when it contains an indicator substring), and one with at least
three parts but no indicator substring is never split either: the platform
stays empty and the version is the whole string. -/
theorem c5_platform_split_boundary (vp : Str) :
    ((splitOnChar '-' vp).length = 2 → parseVersionPlatform vp = (vp, [])) ∧
    (3 ≤ (splitOnChar '-' vp).length → hasPlatformIndicator vp = false →
      parseVersionPlatform vp = (vp, [])) := by
  constructor
  · intro h2
    unfold parseVersionPlatform
    match hs : splitOnChar '-' vp with
    | [] => rfl
    | p :: ps =>
      rw [hs] at h2
      simp [h2]
  · intro _ hind
    unfold parseVersionPlatform
    match hs : splitOnChar '-' vp with
    | [] => rfl
    | p :: ps => simp [hind]

theorem c5_witness :
    ((splitOnChar '-' "1.0-x86".data).length = 2 ∧
      parseVersionPlatform "1.0-x86".data = ("1.0-x86".data, [])) ∧
    (3 ≤ (splitOnChar '-' "1.0-a-b".data).length ∧
      hasPlatformIndicator "1.0-a-b".data = false ∧
      parseVersionPlatform "1.0-a-b".data = ("1.0-a-b".data, [])) :=
  ⟨⟨by decide, (c5_platform_split_boundary _).1 (by decide)⟩,
   ⟨by decide, by decide,
     (c5_platform_split_boundary _).2 (by decide) (by decide)⟩⟩

/-- C9: `lockfile.Parse` has no syntactic-failure path.  On every input it
returns the (non-nil) parsed lockfile with a nil error as long as the
underlying reader did not fail; an `ok` result forces a healthy reader. -/
theorem c9_no_syntactic_failure (lines : List Str) (readErr : Bool) :
    (readErr = false →
      parseLockfile lines readErr = Except.ok (parseLockfileLines lines)) ∧
    ((∃ lf, parseLockfile lines readErr = Except.ok lf) → readErr = false) := by
  constructor
  · intro h; simp [parseLockfile, h]
  · intro ⟨lf, h⟩
    by_contra hc
    rw [Bool.not_eq_false] at hc
    simp [parseLockfile, hc] at h

theorem c9_witness :
    parseLockfile ["totally junk @@@ not a lockfile line".data] false =
      Except.ok (parseLockfileLines ["totally junk @@@ not a lockfile line".data]) :=
  (c9_no_syntactic_failure _ _).1 rfl

/-! ## Inversion and completeness of the line matchers -/

theorem dropLengthTakeWhile (p : α → Bool) (l : List α) :
    l.drop (l.takeWhile p).length = l.dropWhile p := by
  induction l with
  | nil => rfl
  | cons a l ih =>
    by_cases h : p a
    · simpa [List.takeWhile_cons, List.dropWhile_cons, h] using ih
    · simp [List.takeWhile_cons, List.dropWhile_cons, h]

theorem takeWhileAppendCons (p : α → Bool) (xs : List α) (y : α) (rest : List α)
    (hxs : ∀ x ∈ xs, p x) (hy : ¬ p y) :
    (xs ++ y :: rest).takeWhile p = xs ∧ (xs ++ y :: rest).dropWhile p = y :: rest := by
  induction xs with
  | nil => simp [List.takeWhile_cons, List.dropWhile_cons, hy]
  | cons x xs ih =>
    have hx : p x := hxs x (by simp)
    have ih' := ih (fun a ha => hxs a (by simp [ha]))
    simp [List.takeWhile_cons, List.dropWhile_cons, hx, ih'.1, ih'.2]

theorem memTakeWhile {p : α → Bool} {l : List α} {a : α}
    (h : a ∈ l.takeWhile p) : p a := by
  induction l with
  | nil => simp [List.takeWhile] at h
  | cons b l ih =>
    by_cases hb : p b
    · rw [List.takeWhile_cons, if_pos hb] at h
      rcases List.mem_cons.mp h with rfl | h'
      · exact hb
      · exact ih h'
    · rw [List.takeWhile_cons, if_neg hb] at h
      simp at h

/-- Characterisation of `expectChars`. -/
theorem expectChars_eq_some {e s r : Str} :
    expectChars e s = some r ↔ s = e ++ r := by
  induction e generalizing s with
  | nil => simp [expectChars, eq_comm]
  | cons x xs ih =>
    match s with
    | [] => simp [expectChars]
    | c :: cs =>
      by_cases hc : c = x
      · subst hc; simp [expectChars, ih]
      · simp [expectChars, hc]

@[simp] theorem dataSpaceParen : " (".data = [' ', '('] := rfl
@[simp] theorem dataInd4Lit : "    ".data = [' ', ' ', ' ', ' '] := rfl
@[simp] theorem dataInd6Lit : "      ".data = [' ', ' ', ' ', ' ', ' ', ' '] := rfl

/-- Inversion of `parseNameParen`: a match decomposes the line and constrains
both captures. -/
theorem parseNameParen_shape {l n v : Str} (h : parseNameParen l = some (n, v)) :
    l = n ++ (' ' :: '(' :: (v ++ [')'])) ∧ n ≠ [] ∧ (∀ c ∈ n, isNameChar c) ∧
      v ≠ [] ∧ (∀ c ∈ v, c ≠ ')') := by
  unfold parseNameParen at h
  dsimp only at h
  by_cases hn : (l.takeWhile isNameChar).isEmpty = true
  · rw [if_pos hn] at h; cases h
  rw [if_neg hn] at h
  rcases he : expectChars " (".data (l.drop (l.takeWhile isNameChar).length) with _ | r
  · rw [he] at h; cases h
  rw [he] at h
  dsimp only at h
  by_cases hv : (r.takeWhile (fun c => decide (c ≠ ')'))).isEmpty = true
  · rw [if_pos hv] at h; cases h
  rw [if_neg hv] at h
  by_cases hd : r.drop (r.takeWhile (fun c => decide (c ≠ ')'))).length = [')']
  · rw [if_pos hd] at h
    rw [Option.some.injEq, Prod.mk.injEq] at h
    obtain ⟨h1, h2⟩ := h
    have hdrop : l.drop (l.takeWhile isNameChar).length = ' ' :: '(' :: r := by
      simpa using expectChars_eq_some.mp he
    have hdw : l.dropWhile isNameChar = ' ' :: '(' :: r := by
      rw [← dropLengthTakeWhile isNameChar l]; exact hdrop
    have hl : l = (l.takeWhile isNameChar) ++ ' ' :: '(' :: r := by
      conv_lhs => rw [← List.takeWhile_append_dropWhile (p := isNameChar) (l := l)]
      rw [hdw]
    have hdw2 : r.dropWhile (fun c => decide (c ≠ ')')) = [')'] := by
      rw [← dropLengthTakeWhile]; exact hd
    have hr : r = (r.takeWhile (fun c => decide (c ≠ ')'))) ++ [')'] := by
      conv_lhs =>
        rw [← List.takeWhile_append_dropWhile (p := fun c => decide (c ≠ ')')) (l := r)]
      rw [hdw2]
    subst h1; subst h2
    refine ⟨by rw [← hr]; exact hl, ?_, ?_, ?_, ?_⟩
    · intro hemp; rw [hemp] at hn; exact hn rfl
    · intro c hc; exact memTakeWhile hc
    · intro hemp; rw [hemp] at hv; exact hv rfl
    · intro c hc; simpa using memTakeWhile hc
  · rw [if_neg hd] at h; cases h

/-- Completeness of `parseNameParen` on well-formed captures. -/
theorem parseNameParen_complete {n v : Str} (hn : n ≠ [])
    (hnc : ∀ c ∈ n, isNameChar c) (hv : v ≠ []) (hvc : ∀ c ∈ v, c ≠ ')') :
    parseNameParen (n ++ (' ' :: '(' :: (v ++ [')']))) = some (n, v) := by
  have hs : ¬ (isNameChar ' ' = true) := by decide
  have h1 := takeWhileAppendCons isNameChar n ' ' ('(' :: (v ++ [')'])) hnc hs
  have h2 := takeWhileAppendCons (fun c => decide (c ≠ ')')) v ')' []
    (fun x hx => by simpa using hvc x hx) (by simp)
  unfold parseNameParen
  dsimp only
  rw [h1.1]
  rw [if_neg (by simpa using hn)]
  rw [List.drop_left]
  have hexp : expectChars [' ', '('] (' ' :: '(' :: (v ++ [')'])) = some (v ++ [')']) :=
    expectChars_eq_some.mpr rfl
  rw [hexp]
  dsimp only
  rw [h2.1]
  rw [if_neg (by simpa using hv)]
  rw [List.drop_left, if_pos rfl]

/-- A `gemSpecRegex` match forces the four-space head. -/
theorem parseGemSpecLine_shape {l n vp : Str}
    (h : parseGemSpecLine l = some (n, vp)) :
    ∃ rest, l = ' ' :: ' ' :: ' ' :: ' ' :: rest ∧
      parseNameParen rest = some (n, vp) := by
  unfold parseGemSpecLine at h
  rcases he : expectChars "    ".data l with _ | rest
  · rw [he] at h; cases h
  · rw [he] at h
    exact ⟨rest, by simpa using expectChars_eq_some.mp he, h⟩

/-- A `depRegex` match forces the six-space head. -/
theorem parseDepLine_shape {l : Str} {n : Str} {copt : Option Str}
    (h : parseDepLine l = some (n, copt)) :
    ∃ rest, l = ' ' :: ' ' :: ' ' :: ' ' :: ' ' :: ' ' :: rest := by
  unfold parseDepLine at h
  rcases he : expectChars "      ".data l with _ | rest
  · rw [he] at h; cases h
  · exact ⟨rest, by simpa using expectChars_eq_some.mp he⟩

/-- The two entry regexes are mutually exclusive: a `gemSpecRegex` match has a
name character in column 4 where `depRegex` demands a space. -/
theorem parseDepLine_of_gemSpecLine {l n vp : Str}
    (h : parseGemSpecLine l = some (n, vp)) : parseDepLine l = none := by
  obtain ⟨rest, rfl, hnp⟩ := parseGemSpecLine_shape h
  obtain ⟨hdec, hn, hnc, -, -⟩ := parseNameParen_shape hnp
  match n, hn with
  | c :: n', _ =>
    have hc : isNameChar c := hnc c (by simp)
    have hcs : ¬ (c = ' ') := by rintro rfl; simp [isNameChar] at hc
    rw [hdec]
    unfold parseDepLine
    have hnone : expectChars "      ".data
        (' ' :: ' ' :: ' ' :: ' ' :: ((c :: n') ++ (' ' :: '(' :: (vp ++ [')'])))) = none := by
      simp [expectChars, List.cons_append, hcs]
    rw [hnone]

/-- A `depRegex` match excludes a `gemSpecRegex` match (column 4 is a space). -/
theorem parseGemSpecLine_of_depLine {l : Str} {n : Str} {copt : Option Str}
    (h : parseDepLine l = some (n, copt)) : parseGemSpecLine l = none := by
  obtain ⟨rest, rfl⟩ := parseDepLine_shape h
  simp [parseGemSpecLine, parseNameParen, expectChars, isNameChar]

/-! ## Behaviour of `parseStep` on section-content lines -/

theorem parseStep_gem_entry {st : ParseState} {l n vp : Str}
    (hsec : st.sec = "GEM".data) (hl : parseGemSpecLine l = some (n, vp)) :
    parseStep st l =
      { flushGem st with
        gem := some ⟨n, (parseVersionPlatform vp).1, (parseVersionPlatform vp).2, [], []⟩ } := by
  obtain ⟨rest, rfl, -⟩ := parseGemSpecLine_shape hl
  simp [parseStep, startsWith, hsec, hl]

theorem parseStep_gem_dep {st : ParseState} {l : Str} {n : Str} {copt : Option Str}
    {g : GemSpec} (hsec : st.sec = "GEM".data) (hgem : st.gem = some g)
    (hl : parseDepLine l = some (n, copt)) :
    parseStep st l = { st with gem := some { g with dependencies := g.dependencies ++
      [⟨n, match copt with | some c => parseConstraints c | none => []⟩] } } := by
  obtain ⟨rest, rfl⟩ := parseDepLine_shape hl
  simp [parseStep, startsWith, hsec, hgem, hl, parseGemSpecLine_of_depLine hl]
  cases copt <;> rfl

theorem parseStep_git_entry {st : ParseState} {l n vp : Str}
    (hsec : st.sec = "GIT".data) (hl : parseGemSpecLine l = some (n, vp)) :
    parseStep st l =
      { st with git := some { (st.git.getD emptyGitGem) with
          name := n, version := vp } } := by
  obtain ⟨rest, rfl, -⟩ := parseGemSpecLine_shape hl
  simp [parseStep, startsWith, hsec, hl]

theorem parseStep_git_dep {st : ParseState} {l : Str} {n : Str} {copt : Option Str}
    {g : GitGemSpec} (hsec : st.sec = "GIT".data) (hgit : st.git = some g)
    (hl : parseDepLine l = some (n, copt)) :
    parseStep st l = { st with git := some { g with dependencies := g.dependencies ++
      [⟨n, match copt with | some c => parseConstraints c | none => []⟩] } } := by
  obtain ⟨rest, rfl⟩ := parseDepLine_shape hl
  simp [parseStep, startsWith, hsec, hgit, hl, parseGemSpecLine_of_depLine hl]
  cases copt <;> rfl

theorem parseStep_path_entry {st : ParseState} {l n vp : Str}
    (hsec : st.sec = "PATH".data) (hl : parseGemSpecLine l = some (n, vp)) :
    parseStep st l =
      { st with path := some { (st.path.getD emptyPathGem) with
          name := n, version := vp } } := by
  obtain ⟨rest, rfl, -⟩ := parseGemSpecLine_shape hl
  simp [parseStep, startsWith, hsec, hl]

theorem parseStep_path_dep {st : ParseState} {l : Str} {n : Str} {copt : Option Str}
    {g : PathGemSpec} (hsec : st.sec = "PATH".data) (hpath : st.path = some g)
    (hl : parseDepLine l = some (n, copt)) :
    parseStep st l = { st with path := some { g with dependencies := g.dependencies ++
      [⟨n, match copt with | some c => parseConstraints c | none => []⟩] } } := by
  obtain ⟨rest, rfl⟩ := parseDepLine_shape hl
  simp [parseStep, startsWith, hsec, hpath, hl, parseGemSpecLine_of_depLine hl]
  cases copt <;> rfl

/-- The dependency edge contributed by one line (via `depRegex`), as recorded
by the parser. -/
def lockDepEdge (l : Str) : List Dependency :=
  match parseDepLine l with
  | some (n, some c) => [⟨n, parseConstraints c⟩]
  | some (n, none) => [⟨n, []⟩]
  | none => []

/-- C10: inside a GIT (resp. PATH) section, a run of entry-start and
dependency-edge lines never flushes the open accumulator: the result lists
stay untouched (so the block contributes at most one resolved entry, at the
next flush), the block metadata fields are unchanged, and the accumulator's
dependency list is the concatenation of the edges of all lines of the run. -/
theorem c10_vcs_block_single_entry (bs : List Str)
    (hb : ∀ l ∈ bs, (parseGemSpecLine l).isSome ∨ (parseDepLine l).isSome) :
    (∀ st (g : GitGemSpec), st.sec = "GIT".data → st.git = some g →
      (bs.foldl parseStep st).lock = st.lock ∧
      (bs.foldl parseStep st).sec = st.sec ∧
      (bs.foldl parseStep st).gem = st.gem ∧
      (bs.foldl parseStep st).path = st.path ∧
      ∃ g', (bs.foldl parseStep st).git = some g' ∧
        g'.remote = g.remote ∧ g'.revision = g.revision ∧
        g'.branch = g.branch ∧ g'.tag = g.tag ∧
        g'.dependencies = g.dependencies ++ bs.flatMap lockDepEdge) ∧
    (∀ st (p : PathGemSpec), st.sec = "PATH".data → st.path = some p →
      (bs.foldl parseStep st).lock = st.lock ∧
      (bs.foldl parseStep st).sec = st.sec ∧
      (bs.foldl parseStep st).gem = st.gem ∧
      (bs.foldl parseStep st).git = st.git ∧
      ∃ p', (bs.foldl parseStep st).path = some p' ∧
        p'.remote = p.remote ∧
        p'.dependencies = p.dependencies ++ bs.flatMap lockDepEdge) := by
  induction bs with
  | nil =>
    constructor
    · intro st g hsec hgit
      exact ⟨rfl, rfl, rfl, rfl, g, hgit, rfl, rfl, rfl, rfl, by simp⟩
    · intro st p hsec hpath
      exact ⟨rfl, rfl, rfl, rfl, p, hpath, rfl, by simp⟩
  | cons l bs ih =>
    have ihr := ih (fun x hx => hb x (List.mem_cons_of_mem _ hx))
    constructor
    · intro st g hsec hgit
      rcases hgs : parseGemSpecLine l with _ | ⟨n, vp⟩
      · -- not an entry line, so it is a dependency-edge line
        rcases hdl : parseDepLine l with _ | ⟨n, copt⟩
        · rcases hb l (by simp) with h | h
          · rw [hgs] at h; cases h
          · rw [hdl] at h; cases h
        · rw [List.foldl_cons, parseStep_git_dep hsec hgit hdl]
          set d : Dependency :=
            ⟨n, match copt with | some c => parseConstraints c | none => []⟩ with hd
          obtain ⟨h1, h2, h3, h4, g', h5, h6, h7, h8, h9, h10⟩ :=
            ihr.1 { st with git := some { g with
              dependencies := g.dependencies ++ [d] } }
              { g with dependencies := g.dependencies ++ [d] } hsec rfl
          refine ⟨h1, h2, h3, h4, g', h5, h6, h7, h8, h9, ?_⟩
          rw [h10]
          have hedge : lockDepEdge l = [d] := by
            rw [lockDepEdge, hdl]
            cases copt <;> simp [hd]
          simp [hedge, hd]
      · rw [List.foldl_cons, parseStep_git_entry hsec hgs, hgit]
        obtain ⟨h1, h2, h3, h4, g', h5, h6, h7, h8, h9, h10⟩ :=
          ihr.1 { st with git := some { g with name := n, version := vp } }
            { g with name := n, version := vp } hsec rfl
        refine ⟨h1, h2, h3, h4, g', h5, h6, h7, h8, h9, ?_⟩
        rw [h10]
        have hedge : lockDepEdge l = [] := by
          rw [lockDepEdge, parseDepLine_of_gemSpecLine hgs]
        simp [hedge]
    · intro st p hsec hpath
      rcases hgs : parseGemSpecLine l with _ | ⟨n, vp⟩
      · rcases hdl : parseDepLine l with _ | ⟨n, copt⟩
        · rcases hb l (by simp) with h | h
          · rw [hgs] at h; cases h
          · rw [hdl] at h; cases h
        · rw [List.foldl_cons, parseStep_path_dep hsec hpath hdl]
          set d : Dependency :=
            ⟨n, match copt with | some c => parseConstraints c | none => []⟩ with hd
          obtain ⟨h1, h2, h3, h4, p', h5, h6, h7⟩ :=
            ihr.2 { st with path := some { p with
              dependencies := p.dependencies ++ [d] } }
              { p with dependencies := p.dependencies ++ [d] } hsec rfl
          refine ⟨h1, h2, h3, h4, p', h5, h6, ?_⟩
          rw [h7]
          have hedge : lockDepEdge l = [d] := by
            rw [lockDepEdge, hdl]
            cases copt <;> simp [hd]
          simp [hedge, hd]
      · rw [List.foldl_cons, parseStep_path_entry hsec hgs, hpath]
        obtain ⟨h1, h2, h3, h4, p', h5, h6, h7⟩ :=
          ihr.2 { st with path := some { p with name := n, version := vp } }
            { p with name := n, version := vp } hsec rfl
        refine ⟨h1, h2, h3, h4, p', h5, h6, ?_⟩
        rw [h7]
        have hedge : lockDepEdge l = [] := by
          rw [lockDepEdge, parseDepLine_of_gemSpecLine hgs]
        simp [hedge]

theorem c10_witness :
    (∀ l ∈ (["    a (1)", "      d (>= 0)", "    b (2)"].map String.data),
      (parseGemSpecLine l).isSome ∨ (parseDepLine l).isSome) ∧
    ∃ g', (((["    a (1)", "      d (>= 0)", "    b (2)"].map String.data).foldl parseStep
        ⟨"GIT".data, none, some emptyGitGem, none, emptyLockfile⟩).git = some g' ∧
      g'.remote = emptyGitGem.remote ∧ g'.revision = emptyGitGem.revision ∧
      g'.branch = emptyGitGem.branch ∧ g'.tag = emptyGitGem.tag ∧
      g'.dependencies = emptyGitGem.dependencies ++
        (["    a (1)", "      d (>= 0)", "    b (2)"].map String.data).flatMap lockDepEdge) :=
  ⟨by decide,
    ((c10_vcs_block_single_entry _ (by decide)).1 _ emptyGitGem rfl rfl).2.2.2.2⟩

/-- C1 (counterexample): two GIT blocks with identical metadata parse to two
version-control entries, but the writer merges them into one block (grouping
by the composite source key), which the parser then reads back as a single
entry — the entry counts per kind are not preserved by write-then-parse. -/
theorem c1_counterexample :
    (parseLockfileLines (["GIT", "  remote: r", "  revision: v", "  specs:",
        "    a (1)", "GIT", "  remote: r", "  revision: v", "  specs:",
        "    b (1)"].map String.data)).gitSpecs.length = 2 ∧
    (parseLockfileLines (writeLockfileLines (parseLockfileLines
        (["GIT", "  remote: r", "  revision: v", "  specs:",
          "    a (1)", "GIT", "  remote: r", "  revision: v", "  specs:",
          "    b (1)"].map String.data)))).gitSpecs.length = 1 :=
  ⟨by decide, by decide⟩

/-! ## Gemfile (manifest) data model (`src/gemfile/parser.go`)

`gemfile.Source`, `gemfile.GemDependency`, `gemfile.GemspecReference` and
`gemfile.ParsedGemfile`.  The `GitSources` map and `Comment` field are never
populated by either parser and are dropped. -/

/-- `gemfile.Source`. -/
structure Source where
  type : Str
  url : Str
  branch : Str
  tag : Str
  ref : Str
deriving DecidableEq, Repr

/-- `gemfile.GemspecReference`. -/
structure GemspecReference where
  path : Str
  name : Str
  developmentGroup : Str
  glob : Str
deriving DecidableEq, Repr

/-- `gemfile.GemDependency` (with `Source` held as a plain optional value;
the pointer-aliasing of the tree-sitter parser is modelled separately below). -/
structure GemDependency where
  name : Str
  constraints : List Str
  source : Option Source
  groups : List Str
  require : Option Str
  platforms : List Str
deriving DecidableEq, Repr

/-- `gemfile.ParsedGemfile`. -/
structure ParsedGemfile where
  dependencies : List GemDependency
  sources : List Source
  rubyVersion : Str
  gemspecs : List GemspecReference
deriving DecidableEq, Repr

/-! ## Manifest selection policy (`GemfileParser.Parse`, lines 86–111)

The structural (tree-sitter) result and the line-oriented fallback result are
taken as parameters: the former is produced by the external tree-sitter
library, and the policy treats both as opaque.  `Except.error` models a
non-nil Go error. -/

/-- The boolean gate of `Parse`:
`err == nil && (len(Dependencies) > 0 || RubyVersion != "") && len(Gemspecs) == 0`. -/
def useTreeSitter (ts : Except Str ParsedGemfile) : Bool :=
  match ts with
  | .error _ => false
  | .ok g => (decide (0 < g.dependencies.length) || !g.rubyVersion.isEmpty) &&
      g.gemspecs.isEmpty

/-- `GemfileParser.Parse`: return the tree-sitter result when the gate holds,
the fallback result otherwise. -/
def gemfileParse (ts fallback : Except Str ParsedGemfile) :
    Except Str ParsedGemfile :=
  if useTreeSitter ts then ts else fallback

/-- C2: the manifest selection policy returns the structural parser's result
exactly when that parse returned no error, produced at least one dependency or
a non-empty ruby-version string, and produced zero gemspec directives; in
every other case it returns the fallback parser's result. -/
theorem c2_selection_policy (ts fallback : Except Str ParsedGemfile) :
    (∀ g, ts = Except.ok g →
      (((0 < g.dependencies.length ∨ g.rubyVersion ≠ []) ∧ g.gemspecs = []) →
        gemfileParse ts fallback = Except.ok g) ∧
      (¬ ((0 < g.dependencies.length ∨ g.rubyVersion ≠ []) ∧ g.gemspecs = []) →
        gemfileParse ts fallback = fallback)) ∧
    (∀ e, ts = Except.error e → gemfileParse ts fallback = fallback) := by
  have hiff : ∀ g : ParsedGemfile, useTreeSitter (Except.ok g) = true ↔
      ((0 < g.dependencies.length ∨ g.rubyVersion ≠ []) ∧ g.gemspecs = []) := by
    intro g
    simp [useTreeSitter, List.isEmpty_eq_true]
  refine ⟨?_, ?_⟩
  · intro g hg
    subst hg
    refine ⟨fun hc => ?_, fun hc => ?_⟩
    · simp [gemfileParse, (hiff g).mpr hc]
    · have hfalse : useTreeSitter (Except.ok g) = false := by
        cases hgate : useTreeSitter (Except.ok g) with
        | false => rfl
        | true => exact absurd ((hiff g).mp hgate) hc
      simp [gemfileParse, hfalse]
  · intro e he; subst he; simp [gemfileParse, useTreeSitter]

/-- A one-dependency structural result used to witness C2. -/
def c2Gem : ParsedGemfile :=
  ⟨[⟨"rails".data, ["~> 7.0".data], none, ["default".data], none, []⟩], [], [], []⟩

theorem c2_witness :
    ((0 < c2Gem.dependencies.length ∨ c2Gem.rubyVersion ≠ []) ∧ c2Gem.gemspecs = []) ∧
    gemfileParse (Except.ok c2Gem) (Except.error "regex fallback".data) =
      Except.ok c2Gem :=
  ⟨⟨Or.inl (by decide), rfl⟩,
    ((c2_selection_policy _ _).1 c2Gem rfl).1 ⟨Or.inl (by decide), rfl⟩⟩

/-! ## Tree-sitter gem option application (`applyGemOption`, `processGem`)

In Go, `processGem` initialises `dep.Source` with the *pointer* held by the
context stack's current frame, so a later in-place field write through
`dep.Source` would mutate the origin shared with sibling dependencies.
`applyGemOption` is therefore modelled with the aliasing made explicit:
`SrcRef.ctxRef` is a pointer into the shared context cell, `SrcRef.owned s` a
pointer to a freshly allocated `Source`, and the one Go statement that writes
through `dep.Source` (`dep.Source.Branch/Tag/Ref = value`) updates the cell
when the slot aliases it.  The context cell value is threaded through as
explicit state. -/

/-- The value of `dep.Source` as a (possibly aliasing) pointer. -/
inductive SrcRef where
  | null
  | ctxRef
  | owned (s : Source)
deriving DecidableEq, Repr

/-- Pointer dereference: `dep.Source` as a value, given the context cell. -/
def readSrc (cell : Option Source) : SrcRef → Option Source
  | .null => none
  | .ctxRef => cell
  | .owned s => some s

/-- The dependency being built by `processGem`, with the source slot kept as
a reference. -/
structure TSDep where
  name : Str
  constraints : List Str
  srcSlot : SrcRef
  groups : List Str
  platforms : List Str
  require : Option Str
deriving DecidableEq, Repr

/-- Write `dep.Source.Branch = value` (resp. tag/ref) through the pointer:
mutates the owned source, or the shared context cell when aliased. -/
def writeThroughBranch (value : Str) (dep : TSDep) (cell : Option Source) :
    TSDep × Option Source :=
  match dep.srcSlot with
  | .owned s => ({ dep with srcSlot := .owned { s with branch := value } }, cell)
  | .ctxRef => (dep, cell.map (fun c => { c with branch := value }))
  | .null => (dep, cell)

def writeThroughTag (value : Str) (dep : TSDep) (cell : Option Source) :
    TSDep × Option Source :=
  match dep.srcSlot with
  | .owned s => ({ dep with srcSlot := .owned { s with tag := value } }, cell)
  | .ctxRef => (dep, cell.map (fun c => { c with tag := value }))
  | .null => (dep, cell)

def writeThroughRef (value : Str) (dep : TSDep) (cell : Option Source) :
    TSDep × Option Source :=
  match dep.srcSlot with
  | .owned s => ({ dep with srcSlot := .owned { s with ref := value } }, cell)
  | .ctxRef => (dep, cell.map (fun c => { c with ref := value }))
  | .null => (dep, cell)

/-- A freshly allocated `&Source{Type: gitKey}` value. -/
def freshGitSource : Source :=
  { type := "git".data, url := [], branch := [], tag := [], ref := [] }

/-- `applyGemOption` (src/unnamed/part_003, lines 480–528), case by case. -/
def applyGemOption (key value : Str) (dep : TSDep) (cell : Option Source) :
    TSDep × Option Source :=
  if key = "require".data then
    if value = "false".data then ({ dep with require := some [] }, cell)
    else if value ≠ [] then ({ dep with require := some value }, cell)
    else (dep, cell)
  else if key = "platforms".data ∨ key = "platform".data then
    if value ≠ [] then ({ dep with platforms := [value] }, cell) else (dep, cell)
  else if key = "groups".data ∨ key = "group".data then
    if value ≠ [] then ({ dep with groups := [value] }, cell) else (dep, cell)
  else if key = "git".data ∨ key = "github".data then
    -- always a freshly constructed source for explicit git/github options
    let url := if key = "github".data then
        "https://github.com/".data ++ value ++ ".git".data
      else value
    ({ dep with srcSlot := SrcRef.owned { freshGitSource with url := url } }, cell)
  else if key = "path".data then
    ({ dep with srcSlot := SrcRef.owned { type := "path".data, url := value, branch := [], tag := [], ref := [] } }, cell)
  else if key = "branch".data then
    match readSrc cell dep.srcSlot with
    | none => writeThroughBranch value { dep with srcSlot := SrcRef.owned freshGitSource } cell
    | some s =>
      if s.type = "git".data then writeThroughBranch value dep cell
      else writeThroughBranch value { dep with srcSlot := SrcRef.owned freshGitSource } cell
  else if key = "tag".data then
    match readSrc cell dep.srcSlot with
    | none => writeThroughTag value { dep with srcSlot := SrcRef.owned freshGitSource } cell
    | some s =>
      if s.type = "git".data then writeThroughTag value dep cell
      else writeThroughTag value { dep with srcSlot := SrcRef.owned freshGitSource } cell
  else if key = "ref".data then
    match readSrc cell dep.srcSlot with
    | none => writeThroughRef value { dep with srcSlot := SrcRef.owned freshGitSource } cell
    | some s =>
      if s.type = "git".data then writeThroughRef value dep cell
      else writeThroughRef value { dep with srcSlot := SrcRef.owned freshGitSource } cell
  else (dep, cell)

/-- `processGem` restricted to what the claim needs: the dependency starts
with the context's groups/platforms and its source slot aliasing the context
source pointer (nil when no origin block is open), then the extracted
key/value options are applied in order. -/
def processGem (cell : Option Source) (groups platforms : List Str)
    (name : Str) (constraints : List Str) (opts : List (Str × Str)) :
    TSDep × Option Source :=
  let dep : TSDep :=
    { name := name, constraints := constraints,
      srcSlot := match cell with | some _ => SrcRef.ctxRef | none => SrcRef.null,
      groups := groups, platforms := platforms, require := none }
  opts.foldl (fun p kv => applyGemOption kv.1 kv.2 p.1 p.2) (dep, cell)

/-- One gem declaration: name, positional constraints, option pairs. -/
structure GemDecl where
  name : Str
  constraints : List Str
  opts : List (Str × Str)
deriving DecidableEq, Repr

/-- The sibling gems of one origin block, processed in order with the shared
context cell threaded through. -/
def processGemsInBlock (cell : Option Source) (groups platforms : List Str) :
    List GemDecl → List TSDep × Option Source
  | [] => ([], cell)
  | d :: ds =>
    let r := processGem cell groups platforms d.name d.constraints d.opts
    let rest := processGemsInBlock r.2 groups platforms ds
    (r.1 :: rest.1, rest.2)

theorem applyGemOption_cell_const {cellVal : Source}
    (hty : cellVal.type ≠ "git".data) (key value : Str) (dep : TSDep) :
    (applyGemOption key value dep (some cellVal)).2 = some cellVal := by
  unfold applyGemOption
  by_cases h1 : key = "require".data
  · rw [if_pos h1]; split_ifs <;> rfl
  rw [if_neg h1]
  by_cases h2 : key = "platforms".data ∨ key = "platform".data
  · rw [if_pos h2]; split_ifs <;> try rfl
  rw [if_neg h2]
  by_cases h3 : key = "groups".data ∨ key = "group".data
  · rw [if_pos h3]; split_ifs <;> try rfl
  rw [if_neg h3]
  by_cases h4 : key = "git".data ∨ key = "github".data
  · rw [if_pos h4]
  rw [if_neg h4]
  by_cases h5 : key = "path".data
  · rw [if_pos h5]
  rw [if_neg h5]
  by_cases h6 : key = "branch".data
  · rw [if_pos h6]
    rcases hslot : dep.srcSlot with _ | _ | s
    · simp [readSrc, hslot, writeThroughBranch]
    · simp [readSrc, hslot, hty, writeThroughBranch]
    · simp only [readSrc, hslot]
      split_ifs <;> simp [writeThroughBranch, hslot]
  rw [if_neg h6]
  by_cases h7 : key = "tag".data
  · rw [if_pos h7]
    rcases hslot : dep.srcSlot with _ | _ | s
    · simp [readSrc, hslot, writeThroughTag]
    · simp [readSrc, hslot, hty, writeThroughTag]
    · simp only [readSrc, hslot]
      split_ifs <;> simp [writeThroughTag, hslot]
  rw [if_neg h7]
  by_cases h8 : key = "ref".data
  · rw [if_pos h8]
    rcases hslot : dep.srcSlot with _ | _ | s
    · simp [readSrc, hslot, writeThroughRef]
    · simp [readSrc, hslot, hty, writeThroughRef]
    · simp only [readSrc, hslot]
      split_ifs <;> simp [writeThroughRef, hslot]
  rw [if_neg h8]

/-- The six origin-affecting option keys of `applyGemOption`. -/
def originKeys : List Str :=
  ["git".data, "github".data, "path".data, "branch".data, "tag".data, "ref".data]

theorem applyGemOption_origin_owned (key value : Str) (dep : TSDep)
    (cell : Option Source)
    (hk : key = "git".data ∨ key = "github".data ∨ key = "path".data) :
    ∃ s, ((applyGemOption key value dep cell).1).srcSlot = SrcRef.owned s := by
  rcases hk with rfl | rfl | rfl
  · unfold applyGemOption
    rw [if_neg (by decide), if_neg (by decide), if_neg (by decide),
      if_pos (Or.inl rfl)]
    exact ⟨_, rfl⟩
  · unfold applyGemOption
    rw [if_neg (by decide), if_neg (by decide), if_neg (by decide),
      if_pos (Or.inr rfl)]
    exact ⟨_, rfl⟩
  · unfold applyGemOption
    rw [if_neg (by decide), if_neg (by decide), if_neg (by decide),
      if_neg (by decide), if_pos rfl]
    exact ⟨_, rfl⟩

theorem applyGemOption_owned_kept {dep : TSDep} {cell : Option Source}
    (key value : Str) (h : ∃ s, dep.srcSlot = SrcRef.owned s) :
    ∃ s', ((applyGemOption key value dep cell).1).srcSlot = SrcRef.owned s' := by
  obtain ⟨s, hs⟩ := h
  unfold applyGemOption
  by_cases h1 : key = "require".data
  · rw [if_pos h1]; split_ifs <;> exact ⟨s, hs⟩
  rw [if_neg h1]
  by_cases h2 : key = "platforms".data ∨ key = "platform".data
  · rw [if_pos h2]; split_ifs <;> exact ⟨s, hs⟩
  rw [if_neg h2]
  by_cases h3 : key = "groups".data ∨ key = "group".data
  · rw [if_pos h3]; split_ifs <;> exact ⟨s, hs⟩
  rw [if_neg h3]
  by_cases h4 : key = "git".data ∨ key = "github".data
  · rw [if_pos h4]; exact ⟨_, rfl⟩
  rw [if_neg h4]
  by_cases h5 : key = "path".data
  · rw [if_pos h5]; exact ⟨_, rfl⟩
  rw [if_neg h5]
  by_cases h6 : key = "branch".data
  · rw [if_pos h6]
    simp only [readSrc, hs]
    split_ifs
    · simp only [writeThroughBranch, hs]
      exact ⟨_, rfl⟩
    · simp only [writeThroughBranch]
      exact ⟨_, rfl⟩
  rw [if_neg h6]
  by_cases h7 : key = "tag".data
  · rw [if_pos h7]
    simp only [readSrc, hs]
    split_ifs
    · simp only [writeThroughTag, hs]
      exact ⟨_, rfl⟩
    · simp only [writeThroughTag]
      exact ⟨_, rfl⟩
  rw [if_neg h7]
  by_cases h8 : key = "ref".data
  · rw [if_pos h8]
    simp only [readSrc, hs]
    split_ifs
    · simp only [writeThroughRef, hs]
      exact ⟨_, rfl⟩
    · simp only [writeThroughRef]
      exact ⟨_, rfl⟩
  rw [if_neg h8]
  exact ⟨s, hs⟩

theorem applyGemOption_no_origin_key {key : Str} (value : Str) (dep : TSDep)
    (cell : Option Source) (hk : ¬ key ∈ originKeys) :
    ((applyGemOption key value dep cell).1).srcSlot = dep.srcSlot ∧
      (applyGemOption key value dep cell).2 = cell := by
  have hk' : ¬ (key = "git".data) ∧ ¬ (key = "github".data) ∧ ¬ (key = "path".data) ∧
      ¬ (key = "branch".data) ∧ ¬ (key = "tag".data) ∧ ¬ (key = "ref".data) := by
    simp [originKeys] at hk
    tauto
  unfold applyGemOption
  by_cases h1 : key = "require".data
  · rw [if_pos h1]; split_ifs <;> exact ⟨rfl, rfl⟩
  rw [if_neg h1]
  by_cases h2 : key = "platforms".data ∨ key = "platform".data
  · rw [if_pos h2]; split_ifs <;> exact ⟨rfl, rfl⟩
  rw [if_neg h2]
  by_cases h3 : key = "groups".data ∨ key = "group".data
  · rw [if_pos h3]; split_ifs <;> exact ⟨rfl, rfl⟩
  rw [if_neg h3]
  rw [if_neg (by rcases hk' with ⟨a, b, -⟩; rintro (rfl | rfl) <;> simp_all)]
  rw [if_neg hk'.2.2.1, if_neg hk'.2.2.2.1, if_neg hk'.2.2.2.2.1,
    if_neg hk'.2.2.2.2.2]
  exact ⟨rfl, rfl⟩

theorem foldOpts_cell_const {cellVal : Source} (hty : cellVal.type ≠ "git".data)
    (opts : List (Str × Str)) :
    ∀ dep : TSDep,
      (opts.foldl (fun p kv => applyGemOption kv.1 kv.2 p.1 p.2)
        (dep, some cellVal)).2 = some cellVal := by
  induction opts with
  | nil => intro dep; rfl
  | cons kv opts ih =>
    intro dep
    rw [List.foldl_cons]
    have h2 := applyGemOption_cell_const hty kv.1 kv.2 dep
    have hx : applyGemOption kv.1 kv.2 dep (some cellVal) =
        ((applyGemOption kv.1 kv.2 dep (some cellVal)).1, some cellVal) :=
      Prod.ext rfl h2
    rw [hx]
    exact ih _

/-- C3 helper: a block-level origin cell of registry ("rubygems") type is
never mutated by processing a gem's options. -/
theorem processGem_cell_const {cellVal : Source}
    (hty : cellVal.type ≠ "git".data) (gs ps : List Str)
    (n : Str) (cs : List Str) (opts : List (Str × Str)) :
    (processGem (some cellVal) gs ps n cs opts).2 = some cellVal := by
  unfold processGem
  exact foldOpts_cell_const hty opts _

theorem foldOpts_owned_kept (opts : List (Str × Str)) :
    ∀ (dep : TSDep) (cell : Option Source),
      (∃ s, dep.srcSlot = SrcRef.owned s) →
      ∃ s', ((opts.foldl (fun p kv => applyGemOption kv.1 kv.2 p.1 p.2)
        (dep, cell)).1).srcSlot = SrcRef.owned s' := by
  induction opts with
  | nil => intro dep cell h; exact h
  | cons kv opts ih =>
    intro dep cell h
    rw [List.foldl_cons]
    exact ih _ _ (applyGemOption_owned_kept kv.1 kv.2 h)

theorem foldOpts_no_origin (opts : List (Str × Str))
    (h : ∀ kv ∈ opts, ¬ kv.1 ∈ originKeys) :
    ∀ (dep : TSDep) (cell : Option Source),
      ((opts.foldl (fun p kv => applyGemOption kv.1 kv.2 p.1 p.2)
          (dep, cell)).1).srcSlot = dep.srcSlot ∧
        (opts.foldl (fun p kv => applyGemOption kv.1 kv.2 p.1 p.2)
          (dep, cell)).2 = cell := by
  induction opts with
  | nil => intro dep cell; exact ⟨rfl, rfl⟩
  | cons kv opts ih =>
    intro dep cell
    obtain ⟨ha, hb⟩ := applyGemOption_no_origin_key kv.2 dep cell (h kv (by simp))
    obtain ⟨hc, hd⟩ := ih (fun x hx => h x (by simp [hx]))
      (applyGemOption kv.1 kv.2 dep cell).1 (applyGemOption kv.1 kv.2 dep cell).2
    constructor
    · rw [List.foldl_cons]; exact hc.trans ha
    · rw [List.foldl_cons]; exact hd.trans hb

theorem foldOpts_contains_origin (opts : List (Str × Str)) :
    ∀ (dep : TSDep) (cell : Option Source),
      (∃ kv ∈ opts, kv.1 = "git".data ∨ kv.1 = "github".data ∨ kv.1 = "path".data) →
      ∃ s, ((opts.foldl (fun p kv => applyGemOption kv.1 kv.2 p.1 p.2)
        (dep, cell)).1).srcSlot = SrcRef.owned s := by
  induction opts with
  | nil =>
    rintro dep cell ⟨kv, hmem, -⟩
    cases hmem
  | cons kv0 opts ih =>
    rintro dep cell ⟨kv, hmem, hk⟩
    rw [List.foldl_cons]
    rcases List.mem_cons.mp hmem with rfl | hmem'
    · exact foldOpts_owned_kept opts _ _
        (applyGemOption_origin_owned kv.1 kv.2 dep cell hk)
    · exact ih _ _ ⟨kv, hmem', hk⟩

theorem processGemsInBlock_indep {cellVal : Source}
    (hty : cellVal.type ≠ "git".data) (gs ps : List Str) :
    ∀ ds, processGemsInBlock (some cellVal) gs ps ds =
      (ds.map (fun d =>
        (processGem (some cellVal) gs ps d.name d.constraints d.opts).1),
        some cellVal) := by
  intro ds
  induction ds with
  | nil => rfl
  | cons d ds ih =>
    simp only [processGemsInBlock, List.map_cons]
    rw [processGem_cell_const hty, ih]

/-- C3: context copy-on-write in the tree-sitter gem processing.  With an
origin block's shared source cell (always of registry type, as built by
`processSource`): (i) processing any gem declaration leaves the shared cell
unchanged; (ii) a gem with an inline `git`/`github`/`path` override ends up
with a freshly constructed (owned) source value, never the shared pointer;
(iii) the declarations of a block are processed independently, so each
sibling's recorded dependency — and in particular its origin — is exactly
what it would be if the other (overriding) siblings were absent; and (iv) a
gem with no origin-affecting option records precisely the block's origin. -/
theorem c3_context_copy_on_write (cellVal : Source)
    (hty : cellVal.type = "rubygems".data) (gs ps : List Str) :
    (∀ n cs opts, (processGem (some cellVal) gs ps n cs opts).2 = some cellVal) ∧
    (∀ n cs opts,
      (∃ kv ∈ opts, kv.1 = "git".data ∨ kv.1 = "github".data ∨ kv.1 = "path".data) →
      ∃ s, ((processGem (some cellVal) gs ps n cs opts).1).srcSlot =
        SrcRef.owned s) ∧
    (∀ ds, processGemsInBlock (some cellVal) gs ps ds =
      (ds.map (fun d =>
        (processGem (some cellVal) gs ps d.name d.constraints d.opts).1),
        some cellVal)) ∧
    (∀ n cs opts, (∀ kv ∈ opts, ¬ kv.1 ∈ originKeys) →
      readSrc (processGem (some cellVal) gs ps n cs opts).2
        ((processGem (some cellVal) gs ps n cs opts).1).srcSlot =
        some cellVal) := by
  have hne : cellVal.type ≠ "git".data := by rw [hty]; decide
  refine ⟨fun n cs opts => processGem_cell_const hne gs ps n cs opts,
    ?_, processGemsInBlock_indep hne gs ps, ?_⟩
  · intro n cs opts h
    unfold processGem
    exact foldOpts_contains_origin opts _ _ h
  · intro n cs opts h
    unfold processGem
    obtain ⟨hslot, hcell⟩ := foldOpts_no_origin opts h
      { name := n, constraints := cs, srcSlot := SrcRef.ctxRef,
        groups := gs, platforms := ps, require := none } (some cellVal)
    rw [hcell, hslot]
    rfl

/-- Concrete origin cell and block used to witness C3. -/
def c3Cell : Source := ⟨"rubygems".data, "https://gems.example".data, [], [], []⟩

def c3Block : List GemDecl :=
  [⟨"private_gem".data, [],
    [("github".data, "user/private_gem".data), ("branch".data, "develop".data)]⟩,
   ⟨"plain_gem".data, ["~> 1.0".data], []⟩]

theorem c3_witness :
    c3Cell.type = "rubygems".data ∧
    processGemsInBlock (some c3Cell) ["default".data] [] c3Block =
      (c3Block.map (fun d =>
        (processGem (some c3Cell) ["default".data] [] d.name d.constraints d.opts).1),
        some c3Cell) :=
  ⟨rfl, (c3_context_copy_on_write c3Cell rfl _ _).2.2.1 c3Block⟩

/-! ## Manifest version-constraint extraction
(`GemfileParser.extractVersionConstraints`, lines 330–368)

The function first deletes every match of `gem\s+['"][^'"]+['"],?\s*` from
the line, then cuts the remainder at the first-found option keyword — looked
up in the fixed order `require:`, `github:`, `path:`, `groups:`,
`platforms:` — and finally harvests every match of `['"]([^'"]+)['"]` from
the prefix before the cut.  `\s` here is the regexp class `[\t\n\f\r ]`
(which, unlike `unicode.IsSpace`, excludes the vertical tab). -/

def goRegexSpace (c : Char) : Bool :=
  c = ' ' || c = '\t' || c = '\n' || c = '\x0c' || c = '\r'

def isQuote (c : Char) : Bool := c = '\x27' || c = '"'

/-- All matches of `['"]([^'"]+)['"]` (nonempty quote-free bodies), scanning
left to right, with a step budget that the per-step consumption keeps from
running out. -/
def scanQuotedF : Nat → Str → List Str
  | 0, _ => []
  | _ + 1, [] => []
  | fuel + 1, c :: rest =>
    if isQuote c then
      let body := rest.takeWhile (fun d => !isQuote d)
      if body.isEmpty then scanQuotedF fuel rest
      else
        match rest.drop body.length with
        | [] => []
        | _ :: after => body :: scanQuotedF fuel after
    else scanQuotedF fuel rest

def scanQuoted (s : Str) : List Str := scanQuotedF s.length s

/-- One anchored match of `gem\s+['"][^'"]+['"],?\s*`, returning the text
after the match.  Each quantifier is forced (no backtracking ambiguity), so
this is the unique regex match at this position when it exists. -/
def matchGemNameAt (s : Str) : Option Str :=
  match expectChars "gem".data s with
  | none => none
  | some r1 =>
    let sp := r1.takeWhile goRegexSpace
    if sp.isEmpty then none else
    match r1.drop sp.length with
    | [] => none
    | q1 :: r2 =>
      if isQuote q1 then
        let body := r2.takeWhile (fun d => !isQuote d)
        if body.isEmpty then none else
        match r2.drop body.length with
        | [] => none
        | _ :: r3 =>
          let r4 : Str := match r3 with
            | [] => []
            | c :: t => if c = ',' then t else c :: t
          some (r4.dropWhile goRegexSpace)
      else none

/-- `nameRe.ReplaceAllString(line, "")`: delete every match, scanning left to
right (a match consumes at least six characters, so the budget suffices). -/
def removeGemNameAllF : Nat → Str → Str
  | 0, s => s
  | _ + 1, [] => []
  | fuel + 1, c :: rest =>
    match matchGemNameAt (c :: rest) with
    | some after => removeGemNameAllF fuel after
    | none => c :: removeGemNameAllF fuel rest

def removeGemNameAll (s : Str) : Str := removeGemNameAllF s.length s

/-- Go `strings.Index sub`: position of the first occurrence. -/
def indexOfSub (sub : Str) : Str → Option Nat
  | [] => if startsWith sub [] then some 0 else none
  | c :: rest =>
    if startsWith sub (c :: rest) then some 0
    else
      match indexOfSub sub rest with
      | some i => some (i + 1)
      | none => none

/-- The `optionsStart` computation: the five keyword lookups in their source
order, each tried only when all earlier ones found nothing. -/
def optionsStartIdx (remaining : Str) : Option Nat :=
  match indexOfSub "require:".data remaining with
  | some i => some i
  | none =>
    match indexOfSub "github:".data remaining with
    | some i => some i
    | none =>
      match indexOfSub "path:".data remaining with
      | some i => some i
      | none =>
        match indexOfSub "groups:".data remaining with
        | some i => some i
        | none => indexOfSub "platforms:".data remaining

/-- `extractVersionConstraints` of the manifest line parser. -/
def extractVersionConstraints (line : Str) : List Str :=
  let remaining := removeGemNameAll line
  let versionPart :=
    match optionsStartIdx remaining with
    | some i => remaining.take i
    | none => remaining
  scanQuoted versionPart

/-- Modelled from the claim's wording, for comparison with the code: the
textually earliest occurrence among the five recognized option keywords. -/
def specEarliestOptionIdx (s : Str) : Option Nat :=
  match [indexOfSub "require:".data s, indexOfSub "github:".data s,
      indexOfSub "path:".data s, indexOfSub "groups:".data s,
      indexOfSub "platforms:".data s].filterMap id with
  | [] => none
  | i :: is => some (is.foldl min i)

/-- C6 (amended): constraint extraction harvests quoted strings from the
prefix of the name-stripped line before the cut point, where the cut point is
the occurrence of `require:` when that token occurs anywhere, otherwise of
`github:`, otherwise `path:`, otherwise `groups:`, otherwise `platforms:` —
the search order of the source, not the textual order of the claim. -/
theorem c6_amended_priority_cut (line : Str) :
    (∀ i, indexOfSub "require:".data (removeGemNameAll line) = some i →
      extractVersionConstraints line =
        scanQuoted ((removeGemNameAll line).take i)) ∧
    (indexOfSub "require:".data (removeGemNameAll line) = none →
      ∀ i, indexOfSub "github:".data (removeGemNameAll line) = some i →
        extractVersionConstraints line =
          scanQuoted ((removeGemNameAll line).take i)) ∧
    (indexOfSub "require:".data (removeGemNameAll line) = none →
      indexOfSub "github:".data (removeGemNameAll line) = none →
      ∀ i, indexOfSub "path:".data (removeGemNameAll line) = some i →
        extractVersionConstraints line =
          scanQuoted ((removeGemNameAll line).take i)) ∧
    (indexOfSub "require:".data (removeGemNameAll line) = none →
      indexOfSub "github:".data (removeGemNameAll line) = none →
      indexOfSub "path:".data (removeGemNameAll line) = none →
      ∀ i, indexOfSub "groups:".data (removeGemNameAll line) = some i →
        extractVersionConstraints line =
          scanQuoted ((removeGemNameAll line).take i)) ∧
    (indexOfSub "require:".data (removeGemNameAll line) = none →
      indexOfSub "github:".data (removeGemNameAll line) = none →
      indexOfSub "path:".data (removeGemNameAll line) = none →
      indexOfSub "groups:".data (removeGemNameAll line) = none →
      ∀ i, indexOfSub "platforms:".data (removeGemNameAll line) = some i →
        extractVersionConstraints line =
          scanQuoted ((removeGemNameAll line).take i)) ∧
    (indexOfSub "require:".data (removeGemNameAll line) = none →
      indexOfSub "github:".data (removeGemNameAll line) = none →
      indexOfSub "path:".data (removeGemNameAll line) = none →
      indexOfSub "groups:".data (removeGemNameAll line) = none →
      indexOfSub "platforms:".data (removeGemNameAll line) = none →
      extractVersionConstraints line = scanQuoted (removeGemNameAll line)) := by
  refine ⟨?_, ?_, ?_, ?_, ?_, ?_⟩
  · intro i hi
    unfold extractVersionConstraints optionsStartIdx
    dsimp only
    rw [hi]
  · intro h1 i hi
    unfold extractVersionConstraints optionsStartIdx
    dsimp only
    rw [h1, hi]
  · intro h1 h2 i hi
    unfold extractVersionConstraints optionsStartIdx
    dsimp only
    rw [h1, h2, hi]
  · intro h1 h2 h3 i hi
    unfold extractVersionConstraints optionsStartIdx
    dsimp only
    rw [h1, h2, h3, hi]
  · intro h1 h2 h3 h4 i hi
    unfold extractVersionConstraints optionsStartIdx
    dsimp only
    rw [h1, h2, h3, h4, hi]
  · intro h1 h2 h3 h4 h5
    unfold extractVersionConstraints optionsStartIdx
    dsimp only
    rw [h1, h2, h3, h4, h5]

theorem c6_witness :
    indexOfSub "require:".data
      (removeGemNameAll "gem \x27x\x27, \x27>= 1.0\x27, require: false".data) = some 10 ∧
    extractVersionConstraints "gem \x27x\x27, \x27>= 1.0\x27, require: false".data =
      scanQuoted ((removeGemNameAll
        "gem \x27x\x27, \x27>= 1.0\x27, require: false".data).take 10) :=
  ⟨by decide,
    (c6_amended_priority_cut _).1 10 (by decide)⟩

/-- C6 (counterexample): on `gem 'x', github: 'user/repo', require: false`
the textually earliest option keyword in the name-stripped remainder is
`github:` at index 0, so the claim allows no constraint at all; but because
`require:` is looked up first, the cut lands after the github option value,
and `user/repo` is returned as a version constraint. -/
theorem c6_counterexample :
    extractVersionConstraints
      "gem \x27x\x27, github: \x27user/repo\x27, require: false".data =
      ["user/repo".data] ∧
    specEarliestOptionIdx (removeGemNameAll
      "gem \x27x\x27, github: \x27user/repo\x27, require: false".data) = some 0 ∧
    scanQuoted ((removeGemNameAll
      "gem \x27x\x27, github: \x27user/repo\x27, require: false".data).take 0) = [] :=
  ⟨by decide, by decide, by decide⟩

/-! ## Gemspec parser (`src/gemfile/gemspec_parser.go`)

Tier 1 (tree-sitter) is produced by the external grammar library and enters
as a parameter; tier 2 is the external Ruby interpreter, abstracted as an
outcome (`cmd.Run` error — covering a missing tool, the 30-second timeout
kill and a non-zero exit — or undecodable standard output, or a decoded JSON
document); tier 3 is the regex extraction, embedded below. -/

/-- `gemfile.GemspecFile`. -/
structure GemspecFile where
  name : Str
  version : Str
  summary : Str
  description : Str
  authors : List Str
  email : List Str
  homepage : Str
  license : Str
  runtimeDependencies : List GemDependency
  developmentDependencies : List GemDependency
  requiredRubyVersion : Str
  files : List Str
  metadata : List (Str × Str)
deriving DecidableEq, Repr

/-- The zero value plus the empty slices `fallbackParse` preallocates. -/
def emptyGemspecFile : GemspecFile :=
  ⟨[], [], [], [], [], [], [], [], [], [], [], [], []⟩

structure DependencyJSON where
  name : Str
  requirements : List Str
deriving DecidableEq, Repr

/-- The fixed JSON schema of the tier-2 collaborator (`gemspecJSON`). -/
structure GemspecJSON where
  name : Str
  version : Str
  summary : Str
  description : Str
  authors : List Str
  email : List Str
  homepage : Str
  license : Str
  licenses : List Str
  requiredRubyVersion : Str
  files : List Str
  metadata : List (Str × Str)
  runtimeDependencies : List DependencyJSON
  developmentDependencies : List DependencyJSON
deriving DecidableEq, Repr

/-- Outcome of invoking the external Ruby interpreter. -/
inductive RubyOutcome where
  | runFailed
  | badJSON
  | json (j : GemspecJSON)
deriving DecidableEq, Repr

/-- `convertJSONToGemspecFile`. -/
def convertJSONToGemspecFile (j : GemspecJSON) : GemspecFile :=
  { name := j.name, version := j.version, summary := j.summary,
    description := j.description, authors := j.authors, email := j.email,
    homepage := j.homepage, license := j.license,
    runtimeDependencies := j.runtimeDependencies.map
      (fun d => ⟨d.name, d.requirements, none, [], none, []⟩),
    developmentDependencies := j.developmentDependencies.map
      (fun d => ⟨d.name, d.requirements, none, [], none, []⟩),
    requiredRubyVersion := j.requiredRubyVersion, files := j.files,
    metadata := j.metadata }

def lookupAssoc (m : List (Str × Str)) (k : Str) : Option Str :=
  (m.find? (fun p => p.1 = k)).map (fun p => p.2)

/-! ### Tier 3: the regex extraction of `fallbackParse` -/

/-- Leftmost match search: try an anchored matcher at every position. -/
def scanFirstMatch (probe : Str → Option α) : Str → Option α
  | [] => probe []
  | s@(_ :: rest) =>
    match probe s with
    | some a => some a
    | none => scanFirstMatch probe rest

/-- All non-overlapping leftmost matches; every successful probe of the
matchers used below consumes at least one character, so the `s.length` budget
cannot run out. -/
def scanAllMatchesF (probe : Str → Option (α × Str)) : Nat → Str → List α
  | 0, _ => []
  | _ + 1, [] => []
  | fuel + 1, s@(_ :: rest) =>
    match probe s with
    | some (a, r) => a :: scanAllMatchesF probe fuel r
    | none => scanAllMatchesF probe fuel rest

def scanAllMatches (probe : Str → Option (α × Str)) (s : Str) : List α :=
  scanAllMatchesF probe s.length s

def isWordChar (c : Char) : Bool := c.isAlpha || c.isDigit || c = '_'

/-- Anchored `PRE\s*=\s*['"](.*?)['"]` (lazy body: up to the next quote,
possibly empty). -/
def matchAssignQuoted (pre : Str) (s : Str) : Option Str :=
  match expectChars pre s with
  | none => none
  | some r1 =>
    match expectChars "=".data (r1.dropWhile goRegexSpace) with
    | none => none
    | some r3 =>
      match r3.dropWhile goRegexSpace with
      | [] => none
      | q :: r5 =>
        if isQuote q then
          let body := r5.takeWhile (fun d => !isQuote d)
          match r5.drop body.length with
          | [] => none
          | _ :: _ => some body
        else none

/-- Anchored `PRE\s*=\s*\[(.*?)\]`. -/
def matchAssignBracket (pre : Str) (s : Str) : Option Str :=
  match expectChars pre s with
  | none => none
  | some r1 =>
    match expectChars "=".data (r1.dropWhile goRegexSpace) with
    | none => none
    | some r3 =>
      match expectChars "[".data (r3.dropWhile goRegexSpace) with
      | none => none
      | some r5 =>
        let body := r5.takeWhile (fun d => d ≠ ']')
        match r5.drop body.length with
        | [] => none
        | _ :: _ => some body

/-- Anchored `spec\.version\s*=\s*([\w:]+)` (the unquoted fallback). -/
def matchAssignWord (pre : Str) (s : Str) : Option Str :=
  match expectChars pre s with
  | none => none
  | some r1 =>
    match expectChars "=".data (r1.dropWhile goRegexSpace) with
    | none => none
    | some r3 =>
      let w := (r3.dropWhile goRegexSpace).takeWhile
        (fun c => isWordChar c || c = ':')
      if w.isEmpty then none else some w

def findAssignQuoted (pre : Str) (s : Str) : Option Str :=
  scanFirstMatch (matchAssignQuoted pre) s

/-- All matches of `['"](.*?)['"]` (lazy bodies, empties kept). -/
def scanQuotedLazyF : Nat → Str → List Str
  | 0, _ => []
  | _ + 1, [] => []
  | fuel + 1, c :: rest =>
    if isQuote c then
      let body := rest.takeWhile (fun d => !isQuote d)
      match rest.drop body.length with
      | [] => []
      | _ :: after => body :: scanQuotedLazyF fuel after
    else scanQuotedLazyF fuel rest

def scanQuotedLazy (s : Str) : List Str := scanQuotedLazyF s.length s

/-- `parseQuotedArray`. -/
def parseQuotedArray (arrayContent : Str) : List Str := scanQuotedLazy arrayContent

/-- The gemspec-local `extractVersionConstraints` (quoted strings of the raw
trailing-argument remainder, empties dropped). -/
def gemspecExtractConstraints (remainder : Str) : List Str :=
  (scanQuotedLazy remainder).filter (fun x => !x.isEmpty)

/-- `extractSimpleFields`. -/
def extractSimpleFields (content : Str) (g : GemspecFile) : GemspecFile :=
  let g := match findAssignQuoted "spec.name".data content with
    | some v => { g with name := v }
    | none => g
  let g := match findAssignQuoted "spec.version".data content with
    | some v => { g with version := v }
    | none =>
      match scanFirstMatch (matchAssignWord "spec.version".data) content with
      | some v => { g with version := v }
      | none => g
  let g := match findAssignQuoted "spec.summary".data content with
    | some v => { g with summary := v }
    | none => g
  let g := match findAssignQuoted "spec.description".data content with
    | some v => { g with description := v }
    | none => g
  let g := match findAssignQuoted "spec.homepage".data content with
    | some v => { g with homepage := v }
    | none => g
  let g := match scanFirstMatch (fun t =>
      match matchAssignQuoted "spec.licenses".data t with
      | some v => some v
      | none => matchAssignQuoted "spec.license".data t) content with
    | some v => { g with license := v }
    | none => g
  match findAssignQuoted "spec.required_ruby_version".data content with
  | some v => { g with requiredRubyVersion := v }
  | none => g

/-- `extractAuthors`: `spec\.authors?` with an array literal, else a single
quoted scalar. -/
def extractAuthors (content : Str) (g : GemspecFile) : GemspecFile :=
  match scanFirstMatch (fun t =>
      match matchAssignBracket "spec.authors".data t with
      | some v => some v
      | none => matchAssignBracket "spec.author".data t) content with
  | some arr => { g with authors := parseQuotedArray arr }
  | none =>
    match scanFirstMatch (fun t =>
        match matchAssignQuoted "spec.authors".data t with
        | some v => some v
        | none => matchAssignQuoted "spec.author".data t) content with
    | some v => { g with authors := [v] }
    | none => g

/-- `extractEmail`. -/
def extractEmail (content : Str) (g : GemspecFile) : GemspecFile :=
  match scanFirstMatch (matchAssignBracket "spec.email".data) content with
  | some arr => { g with email := parseQuotedArray arr }
  | none =>
    match findAssignQuoted "spec.email".data content with
    | some v => { g with email := [v] }
    | none => g

/-- Anchored match of the dependency pattern
`spec\.add_(?:(runtime|development)_)?dependency\s*\(?\s*['"]([\w\-]+)['"]([^)]*)\)?`,
returning (qualifier, gem name, raw trailing remainder) and the rest of the
input after the match. -/
def matchAddDep (s : Str) : Option ((Str × Str × Str) × Str) :=
  match expectChars "spec.add_".data s with
  | none => none
  | some r1 =>
    let qr : Str × Str :=
      match expectChars "runtime_".data r1 with
      | some r => ("runtime".data, r)
      | none =>
        match expectChars "development_".data r1 with
        | some r => ("development".data, r)
        | none => ([], r1)
    match expectChars "dependency".data qr.2 with
    | none => none
    | some r3 =>
      let r4 := r3.dropWhile goRegexSpace
      let r5 : Str := match r4 with
        | [] => []
        | c :: t => if c = '(' then t else c :: t
      match r5.dropWhile goRegexSpace with
      | [] => none
      | q :: r7 =>
        if isQuote q then
          let nm := r7.takeWhile (fun c => isWordChar c || c = '-')
          if nm.isEmpty then none else
          match r7.drop nm.length with
          | [] => none
          | q2 :: r8 =>
            if isQuote q2 then
              let tl := r8.takeWhile (fun c => c ≠ ')')
              let r9 : Str := match r8.drop tl.length with
                | ')' :: t => t
                | t => t
              some ((qr.1, nm, tl), r9)
            else none
        else none

/-- `extractDependencies`. -/
def extractDependencies (content : Str) (g : GemspecFile) : GemspecFile :=
  (scanAllMatches matchAddDep content).foldl (fun g m =>
    let dep : GemDependency :=
      ⟨m.2.1, gemspecExtractConstraints m.2.2, none, [], none, []⟩
    if m.1 = "development".data then
      { g with developmentDependencies := g.developmentDependencies ++ [dep] }
    else
      { g with runtimeDependencies := g.runtimeDependencies ++ [dep] }) g

/-- Go map assignment `m[k] = v` on the association-list model. -/
def setAssoc (k v : Str) : List (Str × Str) → List (Str × Str)
  | [] => [(k, v)]
  | (k', v') :: rest =>
    if k' = k then (k, v) :: rest else (k', v') :: setAssoc k v rest

/-- Anchored match of
`spec\.metadata\[['"](.*?)['"]\]\s*=\s*['"](.*?)['"]`. -/
def matchMetadataAt (s : Str) : Option ((Str × Str) × Str) :=
  match expectChars "spec.metadata[".data s with
  | none => none
  | some r1 =>
    match r1 with
    | [] => none
    | q :: r2 =>
      if isQuote q then
        let k := r2.takeWhile (fun d => !isQuote d)
        match r2.drop k.length with
        | [] => none
        | _ :: r3 =>
          match expectChars "]".data r3 with
          | none => none
          | some r4 =>
            match expectChars "=".data (r4.dropWhile goRegexSpace) with
            | none => none
            | some r5 =>
              match r5.dropWhile goRegexSpace with
              | [] => none
              | q2 :: r6 =>
                if isQuote q2 then
                  let v := r6.takeWhile (fun d => !isQuote d)
                  match r6.drop v.length with
                  | [] => none
                  | _ :: rest => some ((k, v), rest)
                else none
      else none

/-- `extractMetadata`. -/
def extractMetadata (content : Str) (g : GemspecFile) : GemspecFile :=
  (scanAllMatches matchMetadataAt content).foldl
    (fun g kv => { g with metadata := setAssoc kv.1 kv.2 g.metadata }) g

/-- The whole tier-3 extraction of `fallbackParse`. -/
def fallbackExtract (content : Str) : GemspecFile :=
  extractMetadata content (extractDependencies content (extractEmail content
    (extractAuthors content (extractSimpleFields content emptyGemspecFile))))

/-- `fallbackParse`: re-read the file; the only error is an unreadable file. -/
def fallbackParse (file : Option Str) : Except Str GemspecFile :=
  match file with
  | none => Except.error "failed to read gemspec file".data
  | some content => Except.ok (fallbackExtract content)

/-- `parseWithRuby` (lines 149–167): any interpreter failure falls back to
the regex tier; decoded JSON is converted, unless its metadata carries an
`error` key. -/
def parseWithRuby (ruby : RubyOutcome) (file : Option Str) :
    Except Str GemspecFile :=
  match ruby with
  | .runFailed => fallbackParse file
  | .badJSON => fallbackParse file
  | .json j =>
    if (lookupAssoc j.metadata "error".data).isSome then
      Except.error "ruby parsing error".data
    else Except.ok (convertJSONToGemspecFile j)

/-- `GemspecParser.Parse` (lines 58–87): read the file, try tree-sitter,
accept its result only with a non-empty name, otherwise escalate. -/
def gemspecParserParse (file : Option Str) (ts : Except Str GemspecFile)
    (ruby : RubyOutcome) : Except Str GemspecFile :=
  match file with
  | none => Except.error "failed to read gemspec file".data
  | some _ =>
    match ts with
    | .ok g => if g.name ≠ [] then Except.ok g else parseWithRuby ruby file
    | .error _ => parseWithRuby ruby file

/-- C7: the three-tier escalation of `GemspecParser.Parse` on a readable
file.  The tier-1 structural result is returned exactly when it carries no
error and a non-empty name; otherwise the Ruby tier runs, and every failure
of the interpreter — tool missing, timeout, non-zero exit (all surfaced as a
`cmd.Run` error) or unparseable JSON — degrades to the regex tier, which
returns a (possibly partially empty) `GemspecFile` with no error.
Interpreter unavailability is never a terminal error of the overall call. -/
theorem c7_gemspec_escalation (content : Str) (ts : Except Str GemspecFile)
    (ruby : RubyOutcome) :
    (∀ g, ts = Except.ok g → g.name ≠ [] →
      gemspecParserParse (some content) ts ruby = Except.ok g) ∧
    (∀ g, ts = Except.ok g → g.name = [] →
      gemspecParserParse (some content) ts ruby =
        parseWithRuby ruby (some content)) ∧
    (∀ e, ts = Except.error e →
      gemspecParserParse (some content) ts ruby =
        parseWithRuby ruby (some content)) ∧
    (ruby = RubyOutcome.runFailed ∨ ruby = RubyOutcome.badJSON →
      parseWithRuby ruby (some content) =
        Except.ok (fallbackExtract content)) := by
  refine ⟨?_, ?_, ?_, ?_⟩
  · intro g hg hname
    subst hg
    simp [gemspecParserParse, hname]
  · intro g hg hname
    subst hg
    simp [gemspecParserParse, hname]
  · intro e he
    subst he
    simp [gemspecParserParse]
  · rintro (rfl | rfl) <;> rfl

/-- Tier-1 result used to witness C7. -/
def c7G : GemspecFile :=
  ⟨"my_gem".data, "1.0".data, [], [], [], [], [], [], [], [], [], [], []⟩

theorem c7_witness :
    (c7G.name ≠ [] ∧
      gemspecParserParse (some []) (Except.ok c7G) RubyOutcome.runFailed =
        Except.ok c7G) ∧
    ((RubyOutcome.runFailed = RubyOutcome.runFailed ∨
        RubyOutcome.runFailed = RubyOutcome.badJSON) ∧
      parseWithRuby RubyOutcome.runFailed
          (some "spec.name = interpolated stuff".data) =
        Except.ok (fallbackExtract "spec.name = interpolated stuff".data)) :=
  ⟨⟨by decide,
    (c7_gemspec_escalation [] (Except.ok c7G) RubyOutcome.runFailed).1 c7G rfl
      (by decide)⟩,
    ⟨Or.inl rfl,
      (c7_gemspec_escalation "spec.name = interpolated stuff".data
        (Except.error "no".data) RubyOutcome.runFailed).2.2.2 (Or.inl rfl)⟩⟩

/-! ## Manifest writer (`GemfileWriter`, second half of
`src/gemfile/tree_sitter_common.go`)

The file is modelled by its content string; `Load` splits on newlines and
`save` joins them back.  Returning `Except.error` models the Go error return,
on which `save` is never reached — the file is not rewritten. -/

/-- `isGemLine`: the name-anchored regex
`^\s*gem\s+['"]NAME['"]` (the name is quoted literally via `QuoteMeta`). -/
def isGemLine (gemName line : Str) : Bool :=
  match expectChars "gem".data (line.dropWhile goRegexSpace) with
  | none => false
  | some r1 =>
    let sp := r1.takeWhile goRegexSpace
    if sp.isEmpty then false else
    match r1.drop sp.length with
    | [] => false
    | q :: r2 =>
      if isQuote q then
        match expectChars gemName r2 with
        | some (q2 :: _) => isQuote q2
        | _ => false
      else false

/-- `hasGem`. -/
def hasGem (lines : List Str) (gemName : Str) : Bool :=
  lines.any (fun l => isGemLine gemName l)

/-- Whether the rest of a `github.com` URL satisfies
`(?:\.git)?(?:/.*)?$`. -/
def ghTailOK (r : Str) : Bool :=
  r.isEmpty || startsWith "/".data r ||
    (startsWith ".git".data r &&
      ((r.drop 4).isEmpty || startsWith "/".data (r.drop 4)))

/-- The lazy `[^/]+?` search of `extractGitHubPath`: the shortest nonempty
slash-free prefix of `t` whose remainder satisfies `ghTailOK`. -/
def ghFindBFrom (t : Str) : Nat → Nat → Option Str
  | _, 0 => none
  | k, fuel + 1 =>
    if ghTailOK (t.drop k) then some (t.take k)
    else ghFindBFrom t (k + 1) fuel

/-- Anchored match of `github\.com[/:]([^/]+/[^/]+?)(?:\.git)?(?:/.*)?$`. -/
def ghMatchAt (s : Str) : Option Str :=
  match expectChars "github.com".data s with
  | none => none
  | some r0 =>
    match r0 with
    | [] => none
    | sep :: r1 =>
      if sep = '/' ∨ sep = ':' then
        let a := r1.takeWhile (fun c => c ≠ '/')
        if a.isEmpty then none else
        match r1.drop a.length with
        | [] => none
        | _ :: tail =>
          match ghFindBFrom tail 1 ((tail.takeWhile (fun c => c ≠ '/')).length) with
          | some b => some (a ++ '/' :: b)
          | none => none
      else none

/-- `extractGitHubPath`: owner/repo of the leftmost matching position, or the
empty string. -/
def extractGitHubPath (url : Str) : Str :=
  match scanFirstMatch ghMatchAt url with
  | some p => p
  | none => []

/-- `isDefaultGroup`. -/
def isDefaultGroup (groups : List Str) : Bool := groups = ["default".data]

/-- `formatGemLine`. -/
def formatGemLine (dep : GemDependency) : Str :=
  let parts : List Str := ["gem \x27".data ++ dep.name ++ ['\x27']]
  let parts := parts ++ dep.constraints.map (fun c => '\x27' :: c ++ ['\x27'])
  let parts := parts ++
    (match dep.source with
     | none => []
     | some src =>
       if src.type = "git".data then
         (if infixOf "github.com".data src.url then
            (let gh := extractGitHubPath src.url
             if !gh.isEmpty then ["github: \x27".data ++ gh ++ ['\x27']]
             else ["git: \x27".data ++ src.url ++ ['\x27']])
          else ["git: \x27".data ++ src.url ++ ['\x27']]) ++
         (if !src.branch.isEmpty then
            ["branch: \x27".data ++ src.branch ++ ['\x27']] else []) ++
         (if !src.tag.isEmpty then
            ["tag: \x27".data ++ src.tag ++ ['\x27']] else []) ++
         (if !src.ref.isEmpty then
            ["ref: \x27".data ++ src.ref ++ ['\x27']] else [])
       else if src.type = "path".data then
         ["path: \x27".data ++ src.url ++ ['\x27']]
       else if src.type = "rubygems".data then
         (if src.url ≠ "https://rubygems.org".data then
            ["source: \x27".data ++ src.url ++ ['\x27']]
          else [])
       else [])
  let parts := parts ++
    (if !dep.groups.isEmpty && !isDefaultGroup dep.groups then
       (if dep.groups.length = 1 then
          ["group: :".data ++ dep.groups.headD []]
        else
          ["groups: [".data ++
            joinSep ", ".data (dep.groups.map (fun g => ':' :: g)) ++ [']']])
     else [])
  let parts := parts ++
    (match dep.require with
     | none => []
     | some r =>
       if r = [] ∨ r = "false".data then ["require: false".data]
       else ["require: \x27".data ++ r ++ ['\x27']])
  joinSep ", ".data parts

/-- The scan of `findInsertionPoint`: the last `gem `-prefixed line outside
any `group` block. -/
def lastTopLevelGemIdx : List Str → Nat → Bool → Option Nat → Option Nat
  | [], _, _, acc => acc
  | l :: ls, i, inGroup, acc =>
    let t := trimSpace l
    if startsWith "group ".data t then lastTopLevelGemIdx ls (i + 1) true acc
    else if t = "end".data then lastTopLevelGemIdx ls (i + 1) false acc
    else if !inGroup && startsWith "gem ".data t then
      lastTopLevelGemIdx ls (i + 1) inGroup (some i)
    else lastTopLevelGemIdx ls (i + 1) inGroup acc

/-- `findInsertionPoint`. -/
def findInsertionPoint (content : List Str) (groups : List Str) : Nat :=
  if isDefaultGroup groups then
    match lastTopLevelGemIdx content 0 false none with
    | some i => i + 1
    | none => content.length
  else content.length

/-- `AddGem` on the file content (error: duplicate declaration; the file is
only rewritten on the `ok` path). -/
def addGem (content : Str) (dep : GemDependency) : Except Str Str :=
  let lines := splitOnChar '\n' content
  if hasGem lines dep.name then
    Except.error "gem already exists in Gemfile".data
  else
    let gemLine := formatGemLine dep
    let idx := findInsertionPoint lines dep.groups
    Except.ok (joinChar '\n' (lines.take idx ++ gemLine :: lines.drop idx))

/-- `RemoveGem` on the file content (error: no matching line; the file is
only rewritten on the `ok` path, with every matching line deleted). -/
def removeGem (content : Str) (gemName : Str) : Except Str Str :=
  let lines := splitOnChar '\n' content
  if hasGem lines gemName then
    Except.ok (joinChar '\n' (lines.filter (fun l => !isGemLine gemName l)))
  else Except.error "gem not found in Gemfile".data

/-- C8: `AddGem` fails exactly when some line of the current file matches the
name-anchored gem regex for the new dependency's name, and `RemoveGem` fails
exactly when no line matches it for the given name; a successful `RemoveGem`
deletes precisely the matching lines.  On either error path no new content is
produced (`save` is never called), so the file stays as it was. -/
theorem c8_manifest_writer_contracts (content : Str) (dep : GemDependency)
    (gemName : Str) :
    ((∃ l ∈ splitOnChar '\n' content, isGemLine dep.name l) ↔
      (∃ e, addGem content dep = Except.error e)) ∧
    ((∀ l ∈ splitOnChar '\n' content, ¬ isGemLine gemName l) ↔
      (∃ e, removeGem content gemName = Except.error e)) ∧
    (∀ out, removeGem content gemName = Except.ok out →
      out = joinChar '\n'
        ((splitOnChar '\n' content).filter (fun l => !isGemLine gemName l))) := by
  refine ⟨?_, ?_, ?_⟩
  · constructor
    · intro ⟨l, hl, hgem⟩
      have hh : hasGem (splitOnChar '\n' content) dep.name = true :=
        List.any_eq_true.mpr ⟨l, hl, hgem⟩
      exact ⟨"gem already exists in Gemfile".data, by simp [addGem, hh]⟩
    · rintro ⟨e, he⟩
      by_cases hh : hasGem (splitOnChar '\n' content) dep.name = true
      · obtain ⟨l, hl, hgem⟩ := List.any_eq_true.mp hh
        exact ⟨l, hl, hgem⟩
      · simp [addGem, hh] at he
  · constructor
    · intro hnone
      have hh : hasGem (splitOnChar '\n' content) gemName = false := by
        rw [← Bool.not_eq_true]
        intro hc
        obtain ⟨l, hl, hgem⟩ := List.any_eq_true.mp hc
        exact hnone l hl (by simpa using hgem)
      exact ⟨"gem not found in Gemfile".data, by simp [removeGem, hh]⟩
    · rintro ⟨e, he⟩ l hl hgem
      have hh : hasGem (splitOnChar '\n' content) gemName = true :=
        List.any_eq_true.mpr ⟨l, hl, by simpa using hgem⟩
      simp [removeGem, hh] at he
  · intro out hout
    by_cases hh : hasGem (splitOnChar '\n' content) gemName = true
    · simp [removeGem, hh] at hout
      exact hout.symm
    · simp [removeGem, hh] at hout

theorem c8_witness :
    (∃ l ∈ splitOnChar '\n' "source \x27https://rubygems.org\x27\ngem \x27rake\x27\n".data,
      isGemLine "rake".data l) ∧
    (∃ e, addGem "source \x27https://rubygems.org\x27\ngem \x27rake\x27\n".data
      ⟨"rake".data, [], none, ["default".data], none, []⟩ = Except.error e) :=
  ⟨⟨"gem \x27rake\x27".data, by decide, by decide⟩,
    (c8_manifest_writer_contracts _ _ "rake".data).1.mp
      ⟨"gem \x27rake\x27".data, by decide, by decide⟩⟩

/-! ## Utility lemmas for the round-trip development -/

theorem head_dropWhile {p : α → Bool} {l : List α} {c : α} {t : List α}
    (h : l.dropWhile p = c :: t) : ¬ p c := by
  induction l with
  | nil => cases h
  | cons a l ih =>
    by_cases ha : p a
    · rw [List.dropWhile_cons, if_pos ha] at h; exact ih h
    · rw [List.dropWhile_cons, if_neg ha] at h
      cases h; exact ha

theorem dropWhile_eq_self_of_head {p : α → Bool} {l : List α}
    (h : ∀ c t, l = c :: t → ¬ p c) : l.dropWhile p = l := by
  cases l with
  | nil => rfl
  | cons a l => rw [List.dropWhile_cons, if_neg (h a l rfl)]

theorem dropWhile_dropWhile (p : α → Bool) (l : List α) :
    (l.dropWhile p).dropWhile p = l.dropWhile p := by
  rcases h : l.dropWhile p with _ | ⟨c, t⟩
  · rfl
  · rw [List.dropWhile_cons, if_neg (head_dropWhile h)]

theorem dropWhile_eq_drop (p : α → Bool) (l : List α) :
    ∃ n, l.dropWhile p = l.drop n := by
  induction l with
  | nil => exact ⟨0, rfl⟩
  | cons a l ih =>
    by_cases ha : p a
    · obtain ⟨n, hn⟩ := ih
      exact ⟨n + 1, by rw [List.dropWhile_cons, if_pos ha]; exact hn⟩
    · exact ⟨0, by rw [List.dropWhile_cons, if_neg ha, List.drop_zero]⟩

theorem trim_head_clean {s : Str} {c : Char} {t : Str}
    (h : trimSpace s = c :: t) : ¬ goIsSpace c := by
  unfold trimSpace at h
  obtain ⟨n, hn⟩ := dropWhile_eq_drop goIsSpace (s.dropWhile goIsSpace).reverse
  rw [hn] at h
  rcases hu : s.dropWhile goIsSpace with _ | ⟨u0, us⟩
  · rw [hu] at h; simp at h
  · rw [hu] at h
    have hpre : ((u0 :: us : Str).reverse.drop n).reverse <+: (u0 :: us : Str) := by
      have h5 : ((u0 :: us : Str).reverse.drop n) <:+ (u0 :: us : Str).reverse :=
        List.drop_suffix n _
      have h6 := h5.reverse
      rwa [List.reverse_reverse] at h6
    obtain ⟨tail2, htail⟩ := hpre
    rw [h] at htail
    have : u0 = c := by
      have := congrArg (fun l => l.head?) htail
      simpa using this.symm
    subst this
    exact head_dropWhile hu

theorem trimSpace_trimSpace (s : Str) : trimSpace (trimSpace s) = trimSpace s := by
  have h1 : (trimSpace s).dropWhile goIsSpace = trimSpace s :=
    dropWhile_eq_self_of_head (fun c t h => trim_head_clean h)
  show ((((trimSpace s).dropWhile goIsSpace).reverse).dropWhile goIsSpace).reverse
      = trimSpace s
  rw [h1]
  have h2 : (trimSpace s).reverse = (s.dropWhile goIsSpace).reverse.dropWhile goIsSpace := by
    unfold trimSpace
    rw [List.reverse_reverse]
  rw [h2, dropWhile_dropWhile]
  show trimSpace s = trimSpace s
  rfl

theorem trimSpace_cons_space (s : Str) : trimSpace (' ' :: s) = trimSpace s := by
  unfold trimSpace
  rw [List.dropWhile_cons, if_pos (by decide)]

/-- `trimSpace` never loses non-space ends: what it keeps is a sub-collection
of the original characters. -/
theorem mem_trimSpace {s : Str} {c : Char} (h : c ∈ trimSpace s) : c ∈ s := by
  unfold trimSpace at h
  rw [List.mem_reverse] at h
  have h2 := List.dropWhile_sublist (l := (s.dropWhile goIsSpace).reverse)
    (p := goIsSpace)
  have h3 := h2.mem h
  rw [List.mem_reverse] at h3
  exact (List.dropWhile_sublist (l := s) (p := goIsSpace)).mem h3

theorem splitOnChar_ne_nil (sep : Char) (s : Str) : splitOnChar sep s ≠ [] := by
  cases s with
  | nil => simp [splitOnChar]
  | cons c rest =>
    unfold splitOnChar
    by_cases hc : c = sep
    · simp [hc]
    · rw [if_neg hc]
      rcases h : splitOnChar sep rest with _ | ⟨p, ps⟩ <;> simp

theorem joinChar_splitOnChar (sep : Char) (s : Str) :
    joinChar sep (splitOnChar sep s) = s := by
  induction s with
  | nil => rfl
  | cons c rest ih =>
    unfold splitOnChar
    by_cases hc : c = sep
    · rw [if_pos hc]
      rcases h : splitOnChar sep rest with _ | ⟨p, ps⟩
      · exact absurd h (splitOnChar_ne_nil sep rest)
      · rw [h] at ih
        show joinChar sep ([] :: p :: ps) = c :: rest
        rw [show joinChar sep ([] :: p :: ps) = [] ++ sep :: joinChar sep (p :: ps) from rfl]
        rw [ih, hc]
        rfl
    · rw [if_neg hc]
      rcases h : splitOnChar sep rest with _ | ⟨p, ps⟩
      · exact absurd h (splitOnChar_ne_nil sep rest)
      · rw [h] at ih
        rcases ps with _ | ⟨q, qs⟩
        · show joinChar sep [c :: p] = c :: rest
          show c :: p = c :: rest
          rw [show joinChar sep [p] = p from rfl] at ih
          rw [ih]
        · show joinChar sep ((c :: p) :: q :: qs) = c :: rest
          show (c :: p) ++ sep :: joinChar sep (q :: qs) = c :: rest
          rw [List.cons_append]
          show c :: joinChar sep (p :: q :: qs) = c :: rest
          rw [ih]

theorem mem_splitOnChar {sep : Char} {s : Str} {piece : Str}
    (h : piece ∈ splitOnChar sep s) : (∀ c ∈ piece, c ≠ sep) ∧ ∀ c ∈ piece, c ∈ s := by
  induction s generalizing piece with
  | nil =>
    simp [splitOnChar] at h
    subst h; exact ⟨by simp, by simp⟩
  | cons c rest ih =>
    unfold splitOnChar at h
    by_cases hc : c = sep
    · rw [if_pos hc] at h
      rcases List.mem_cons.mp h with rfl | h'
      · exact ⟨by simp, by simp⟩
      · obtain ⟨h1, h2⟩ := ih h'
        exact ⟨h1, fun x hx => List.mem_cons_of_mem _ (h2 x hx)⟩
    · rw [if_neg hc] at h
      rcases hsp : splitOnChar sep rest with _ | ⟨p, ps⟩
      · exact absurd hsp (splitOnChar_ne_nil sep rest)
      · rw [hsp] at h
        rcases List.mem_cons.mp h with rfl | h'
        · have hp : p ∈ splitOnChar sep rest := by rw [hsp]; simp
          obtain ⟨h1, h2⟩ := ih hp
          constructor
          · intro x hx
            rcases List.mem_cons.mp hx with rfl | hx'
            · exact hc
            · exact h1 x hx'
          · intro x hx
            rcases List.mem_cons.mp hx with rfl | hx'
            · simp
            · exact List.mem_cons_of_mem _ (h2 x hx')
        · have hp : piece ∈ splitOnChar sep rest := by rw [hsp]; exact List.mem_cons_of_mem _ h'
          obtain ⟨h1, h2⟩ := ih hp
          exact ⟨h1, fun x hx => List.mem_cons_of_mem _ (h2 x hx)⟩

theorem splitOnChar_no_sep {sep : Char} {s : Str} (h : ∀ c ∈ s, c ≠ sep) :
    splitOnChar sep s = [s] := by
  induction s with
  | nil => rfl
  | cons c rest ih =>
    unfold splitOnChar
    rw [if_neg (h c (by simp))]
    rw [ih (fun x hx => h x (by simp [hx]))]

theorem splitOnChar_append_sep {sep : Char} {a b : Str} (h : ∀ c ∈ a, c ≠ sep) :
    splitOnChar sep (a ++ sep :: b) = a :: splitOnChar sep b := by
  induction a with
  | nil => simp [splitOnChar]
  | cons c arest ih =>
    rw [List.cons_append]
    have hx := ih (fun x hx => h x (by simp [hx]))
    rcases hb : splitOnChar sep b with _ | ⟨q, qs⟩
    · exact absurd hb (splitOnChar_ne_nil sep b)
    · unfold splitOnChar
      rw [if_neg (h c (by simp)), hx, hb]

/-! ## Field behaviour of the flush operations -/

@[simp] theorem flushGem_sec (st : ParseState) : (flushGem st).sec = st.sec := by
  unfold flushGem; rcases hg : st.gem with _ | g <;> rfl

@[simp] theorem flushGem_git (st : ParseState) : (flushGem st).git = st.git := by
  unfold flushGem; rcases hg : st.gem with _ | g <;> rfl

@[simp] theorem flushGem_path (st : ParseState) : (flushGem st).path = st.path := by
  unfold flushGem; rcases hg : st.gem with _ | g <;> rfl

@[simp] theorem flushGem_gem (st : ParseState) : (flushGem st).gem = none := by
  unfold flushGem; rcases hg : st.gem with _ | g <;> simp [hg]

@[simp] theorem flushGem_gemSpecs (st : ParseState) :
    (flushGem st).lock.gemSpecs = st.lock.gemSpecs ++ st.gem.toList := by
  unfold flushGem; rcases hg : st.gem with _ | g <;> simp [hg]

@[simp] theorem flushGem_gitSpecs (st : ParseState) :
    (flushGem st).lock.gitSpecs = st.lock.gitSpecs := by
  unfold flushGem; rcases hg : st.gem with _ | g <;> rfl

@[simp] theorem flushGem_pathSpecs (st : ParseState) :
    (flushGem st).lock.pathSpecs = st.lock.pathSpecs := by
  unfold flushGem; rcases hg : st.gem with _ | g <;> rfl

@[simp] theorem flushGem_platforms (st : ParseState) :
    (flushGem st).lock.platforms = st.lock.platforms := by
  unfold flushGem; rcases hg : st.gem with _ | g <;> rfl

@[simp] theorem flushGem_dependencies (st : ParseState) :
    (flushGem st).lock.dependencies = st.lock.dependencies := by
  unfold flushGem; rcases hg : st.gem with _ | g <;> rfl

@[simp] theorem flushGem_bundledWith (st : ParseState) :
    (flushGem st).lock.bundledWith = st.lock.bundledWith := by
  unfold flushGem; rcases hg : st.gem with _ | g <;> rfl

@[simp] theorem flushGit_sec (st : ParseState) : (flushGit st).sec = st.sec := by
  unfold flushGit; rcases hg : st.git with _ | g <;> rfl

@[simp] theorem flushGit_gem (st : ParseState) : (flushGit st).gem = st.gem := by
  unfold flushGit; rcases hg : st.git with _ | g <;> rfl

@[simp] theorem flushGit_path (st : ParseState) : (flushGit st).path = st.path := by
  unfold flushGit; rcases hg : st.git with _ | g <;> rfl

@[simp] theorem flushGit_git (st : ParseState) : (flushGit st).git = none := by
  unfold flushGit; rcases hg : st.git with _ | g <;> simp [hg]

@[simp] theorem flushGit_gitSpecs (st : ParseState) :
    (flushGit st).lock.gitSpecs = st.lock.gitSpecs ++ st.git.toList := by
  unfold flushGit; rcases hg : st.git with _ | g <;> simp [hg]

@[simp] theorem flushGit_gemSpecs (st : ParseState) :
    (flushGit st).lock.gemSpecs = st.lock.gemSpecs := by
  unfold flushGit; rcases hg : st.git with _ | g <;> rfl

@[simp] theorem flushGit_pathSpecs (st : ParseState) :
    (flushGit st).lock.pathSpecs = st.lock.pathSpecs := by
  unfold flushGit; rcases hg : st.git with _ | g <;> rfl

@[simp] theorem flushGit_platforms (st : ParseState) :
    (flushGit st).lock.platforms = st.lock.platforms := by
  unfold flushGit; rcases hg : st.git with _ | g <;> rfl

@[simp] theorem flushGit_dependencies (st : ParseState) :
    (flushGit st).lock.dependencies = st.lock.dependencies := by
  unfold flushGit; rcases hg : st.git with _ | g <;> rfl

@[simp] theorem flushGit_bundledWith (st : ParseState) :
    (flushGit st).lock.bundledWith = st.lock.bundledWith := by
  unfold flushGit; rcases hg : st.git with _ | g <;> rfl

@[simp] theorem flushPath_sec (st : ParseState) : (flushPath st).sec = st.sec := by
  unfold flushPath; rcases hg : st.path with _ | g <;> rfl

@[simp] theorem flushPath_gem (st : ParseState) : (flushPath st).gem = st.gem := by
  unfold flushPath; rcases hg : st.path with _ | g <;> rfl

@[simp] theorem flushPath_git (st : ParseState) : (flushPath st).git = st.git := by
  unfold flushPath; rcases hg : st.path with _ | g <;> rfl

@[simp] theorem flushPath_path (st : ParseState) : (flushPath st).path = none := by
  unfold flushPath; rcases hg : st.path with _ | g <;> simp [hg]

@[simp] theorem flushPath_pathSpecs (st : ParseState) :
    (flushPath st).lock.pathSpecs = st.lock.pathSpecs ++ st.path.toList := by
  unfold flushPath; rcases hg : st.path with _ | g <;> simp [hg]

@[simp] theorem flushPath_gemSpecs (st : ParseState) :
    (flushPath st).lock.gemSpecs = st.lock.gemSpecs := by
  unfold flushPath; rcases hg : st.path with _ | g <;> rfl

@[simp] theorem flushPath_gitSpecs (st : ParseState) :
    (flushPath st).lock.gitSpecs = st.lock.gitSpecs := by
  unfold flushPath; rcases hg : st.path with _ | g <;> rfl

@[simp] theorem flushPath_platforms (st : ParseState) :
    (flushPath st).lock.platforms = st.lock.platforms := by
  unfold flushPath; rcases hg : st.path with _ | g <;> rfl

@[simp] theorem flushPath_dependencies (st : ParseState) :
    (flushPath st).lock.dependencies = st.lock.dependencies := by
  unfold flushPath; rcases hg : st.path with _ | g <;> rfl

@[simp] theorem flushPath_bundledWith (st : ParseState) :
    (flushPath st).lock.bundledWith = st.lock.bundledWith := by
  unfold flushPath; rcases hg : st.path with _ | g <;> rfl

/-! ## Sorting and grouping lemmas -/

theorem insertLe_perm (le : α → α → Bool) (x : α) (l : List α) :
    List.Perm (insertLe le x l) (x :: l) := by
  induction l with
  | nil => exact List.Perm.refl _
  | cons y ys ih =>
    unfold insertLe
    by_cases h : le x y
    · rw [if_pos h]
    · rw [if_neg h]
      exact (ih.cons y).trans (List.Perm.swap x y ys)

theorem sortLe_perm (le : α → α → Bool) (l : List α) :
    List.Perm (sortLe le l) l := by
  induction l with
  | nil => exact List.Perm.refl _
  | cons x xs ih =>
    exact (insertLe_perm le x (sortLe le xs)).trans (ih.cons x)

theorem sortLe_length (le : α → α → Bool) (l : List α) :
    (sortLe le l).length = l.length :=
  (sortLe_perm le l).length_eq

theorem mem_sortLe {le : α → α → Bool} {l : List α} {a : α} :
    a ∈ sortLe le l ↔ a ∈ l :=
  (sortLe_perm le l).mem_iff

@[simp] theorem sortLe_singleton (le : α → α → Bool) (x : α) :
    sortLe le [x] = [x] := rfl

theorem addToGroup_notmem [DecidableEq κ] {k : κ} (x : α) :
    ∀ {acc : List (κ × List α)}, (∀ p ∈ acc, p.1 ≠ k) →
    addToGroup k x acc = acc ++ [(k, [x])] := by
  intro acc
  induction acc with
  | nil => intro _; rfl
  | cons p rest ih =>
    intro h
    obtain ⟨k2, xs⟩ := p
    unfold addToGroup
    rw [if_neg (h (k2, xs) (by simp))]
    rw [ih (fun q hq => h q (by simp [hq]))]
    rfl

theorem foldl_addToGroup_const [DecidableEq κ] (key : α → κ) (k : κ) :
    ∀ (xs : List α) (acc : List α), (∀ x ∈ xs, key x = k) →
      xs.foldl (fun a x => addToGroup (key x) x a) [(k, acc)] = [(k, acc ++ xs)] := by
  intro xs
  induction xs with
  | nil => intro acc _; simp
  | cons x xs ih =>
    intro acc h
    rw [List.foldl_cons]
    have hk : key x = k := h x (by simp)
    have h1 : addToGroup (key x) x [(k, acc)] = [(k, acc ++ [x])] := by
      unfold addToGroup
      rw [if_pos hk.symm]
    rw [h1, ih (acc ++ [x]) (fun y hy => h y (by simp [hy]))]
    simp

theorem groupByKey_const [DecidableEq κ] (key : α → κ) (k : κ) (xs : List α)
    (hne : xs ≠ []) (h : ∀ x ∈ xs, key x = k) :
    groupByKey key xs = [(k, xs)] := by
  match xs, hne with
  | x :: rest, _ =>
    unfold groupByKey
    rw [List.foldl_cons]
    have h1 : addToGroup (key x) x [] = [(key x, [x])] := rfl
    rw [h1, h x (by simp)]
    rw [foldl_addToGroup_const key k rest [x] (fun y hy => h y (by simp [hy]))]
    simp

theorem foldl_addToGroup_nodup [DecidableEq κ] (key : α → κ) :
    ∀ (xs : List α) (acc : List (κ × List α)),
      (∀ x ∈ xs, ∀ p ∈ acc, p.1 ≠ key x) → (xs.map key).Nodup →
      xs.foldl (fun a x => addToGroup (key x) x a) acc =
        acc ++ xs.map (fun x => (key x, [x])) := by
  intro xs
  induction xs with
  | nil => intro acc _ _; simp
  | cons x xs ih =>
    intro acc h hnd
    rw [List.foldl_cons]
    rw [addToGroup_notmem x (fun p hp => h x (by simp) p hp)]
    rw [List.map_cons] at hnd
    have hx : key x ∉ xs.map key := (List.nodup_cons.mp hnd).1
    rw [ih (acc ++ [(key x, [x])])
      (fun y hy p hp => by
        rcases List.mem_append.mp hp with hp1 | hp2
        · exact h y (by simp [hy]) p hp1
        · have : p = (key x, [x]) := by simpa using hp2
          subst this
          intro hkk
          exact hx (by
            rw [show key x = key y from hkk]
            exact List.mem_map_of_mem key hy))
      (List.nodup_cons.mp hnd).2]
    simp

theorem groupByKey_nodup [DecidableEq κ] (key : α → κ) (xs : List α)
    (hnd : (xs.map key).Nodup) :
    groupByKey key xs = xs.map (fun x => (key x, [x])) := by
  unfold groupByKey
  rw [foldl_addToGroup_nodup key xs [] (by simp) hnd]
  simp

@[simp] theorem joinBlocksBlank_single (b : List Str) :
    joinBlocksBlank [b] = b := by
  simp [joinBlocksBlank]

/-! ## Literal reductions for the writer-emitted line shapes -/

@[simp] theorem indent2_eq : indent2 = [' ', ' '] := rfl
@[simp] theorem indent4_eq : indent4 = [' ', ' ', ' ', ' '] := rfl
@[simp] theorem indent6_eq : indent6 = [' ', ' ', ' ', ' ', ' ', ' '] := rfl
@[simp] theorem dataRemoteWord :
    "remote: ".data = ['r', 'e', 'm', 'o', 't', 'e', ':', ' '] := rfl
@[simp] theorem dataRevisionWord :
    "revision: ".data = ['r', 'e', 'v', 'i', 's', 'i', 'o', 'n', ':', ' '] := rfl
@[simp] theorem dataBranchWord :
    "branch: ".data = ['b', 'r', 'a', 'n', 'c', 'h', ':', ' '] := rfl
@[simp] theorem dataTagWord : "tag: ".data = ['t', 'a', 'g', ':', ' '] := rfl
@[simp] theorem dataSpecsWord : "specs:".data = ['s', 'p', 'e', 'c', 's', ':'] := rfl

@[simp] theorem drop9_remote (r : Str) :
    List.drop 9 (' ' :: ' ' :: 'r' :: 'e' :: 'm' :: 'o' :: 't' :: 'e' :: ':' :: ' ' :: r) =
      ' ' :: r := rfl

@[simp] theorem drop11_revision (r : Str) :
    List.drop 11 (' ' :: ' ' :: 'r' :: 'e' :: 'v' :: 'i' :: 's' :: 'i' :: 'o' :: 'n' ::
      ':' :: ' ' :: r) = ' ' :: r := rfl

@[simp] theorem drop9_branch (r : Str) :
    List.drop 9 (' ' :: ' ' :: 'b' :: 'r' :: 'a' :: 'n' :: 'c' :: 'h' :: ':' :: ' ' :: r) =
      ' ' :: r := rfl

@[simp] theorem drop6_tag (r : Str) :
    List.drop 6 (' ' :: ' ' :: 't' :: 'a' :: 'g' :: ':' :: ' ' :: r) = ' ' :: r := rfl

/-! ## Behaviour of `parseStep` on the remaining writer-emitted line shapes -/

theorem parseStep_blank (st : ParseState) : parseStep st [] = st := by
  unfold parseStep
  simp only [dataGEM, dataGIT, dataPATH, dataPLATFORMS, dataDEPENDENCIES]
  simp [startsWith, parseGemSpecLine, parseDepLine, expectChars]

theorem parseStep_specs_line (st : ParseState) :
    parseStep st ("  specs:".data) = st := by
  simp [parseStep, startsWith]

theorem parseStep_remote_other (st : ParseState) (h1 : st.sec ≠ "GIT".data)
    (h2 : st.sec ≠ "PATH".data) (r : Str) :
    parseStep st ("  remote: ".data ++ r) = st := by
  simp [parseStep, startsWith, h1, h2]

theorem parseStep_git_remote_line (st : ParseState) (hsec : st.sec = "GIT".data)
    (r : Str) :
    parseStep st ("  remote: ".data ++ r) =
      { st with git := some { (st.git.getD emptyGitGem) with
          remote := trimSpace r } } := by
  simp [parseStep, startsWith, hsec, trimSpace_cons_space]

theorem parseStep_git_revision_line (st : ParseState) (hsec : st.sec = "GIT".data)
    (r : Str) :
    parseStep st ("  revision: ".data ++ r) =
      { st with git := some { (st.git.getD emptyGitGem) with
          revision := trimSpace r } } := by
  simp [parseStep, startsWith, hsec, trimSpace_cons_space]

theorem parseStep_git_branch_line (st : ParseState) (hsec : st.sec = "GIT".data)
    (r : Str) :
    parseStep st ("  branch: ".data ++ r) =
      { st with git := some { (st.git.getD emptyGitGem) with
          branch := trimSpace r } } := by
  simp [parseStep, startsWith, hsec, trimSpace_cons_space]

theorem parseStep_git_tag_line (st : ParseState) (hsec : st.sec = "GIT".data)
    (r : Str) :
    parseStep st ("  tag: ".data ++ r) =
      { st with git := some { (st.git.getD emptyGitGem) with
          tag := trimSpace r } } := by
  simp [parseStep, startsWith, hsec, trimSpace_cons_space]

theorem parseStep_path_remote_line (st : ParseState) (hsec : st.sec = "PATH".data)
    (r : Str) :
    parseStep st ("  remote: ".data ++ r) =
      { st with path := some { (st.path.getD emptyPathGem) with
          remote := trimSpace r } } := by
  simp [parseStep, startsWith, hsec, trimSpace_cons_space]

theorem parseStep_bundled_val (st : ParseState) (hsec : st.sec = "BUNDLED_WITH".data)
    (r : Str) :
    parseStep st (' ' :: ' ' :: ' ' :: r) =
      { st with lock := { st.lock with bundledWith := trimSpace r } } := by
  simp [parseStep, startsWith, hsec, trimSpace_cons_space]

theorem parseStep_platforms_line (st : ParseState)
    (hsec : st.sec = "PLATFORMS".data) (rest : Str) :
    ∃ pl, parseStep st (' ' :: ' ' :: rest) =
      { st with lock := { st.lock with platforms := pl } } := by
  unfold parseStep
  rw [if_neg (by simp), if_neg (by simp), if_neg (by simp), if_neg (by simp),
      if_neg (by simp), if_neg (by simp [startsWith])]
  by_cases hrem : startsWith "  remote:".data (' ' :: ' ' :: rest) = true
  · rw [if_pos hrem, if_neg (by rw [hsec]; decide), if_neg (by rw [hsec]; decide)]
    exact ⟨st.lock.platforms, rfl⟩
  · rw [if_neg hrem]
    rw [if_neg (by simp [hsec]), if_neg (by simp [hsec]), if_neg (by simp [hsec])]
    by_cases hsp : startsWith "  specs:".data (' ' :: ' ' :: rest) = true
    · rw [if_pos hsp]
      exact ⟨st.lock.platforms, rfl⟩
    · rw [if_neg hsp]
      rw [if_neg (by rw [hsec]; decide), if_neg (by rw [hsec]; decide),
          if_neg (by rw [hsec]; decide), if_pos hsec]
      rw [if_pos (show startsWith "  ".data (' ' :: ' ' :: rest) = true by
        simp [startsWith])]
      exact ⟨st.lock.platforms ++ [trimSpace (' ' :: ' ' :: rest)], rfl⟩

theorem parseStep_dependencies_line (st : ParseState)
    (hsec : st.sec = "DEPENDENCIES".data) (rest : Str) :
    ∃ ds, parseStep st (' ' :: ' ' :: rest) =
      { st with lock := { st.lock with dependencies := ds } } := by
  unfold parseStep
  rw [if_neg (by simp), if_neg (by simp), if_neg (by simp), if_neg (by simp),
      if_neg (by simp), if_neg (by simp [startsWith])]
  by_cases hrem : startsWith "  remote:".data (' ' :: ' ' :: rest) = true
  · rw [if_pos hrem, if_neg (by rw [hsec]; decide), if_neg (by rw [hsec]; decide)]
    exact ⟨st.lock.dependencies, rfl⟩
  · rw [if_neg hrem]
    rw [if_neg (by simp [hsec]), if_neg (by simp [hsec]), if_neg (by simp [hsec])]
    by_cases hsp : startsWith "  specs:".data (' ' :: ' ' :: rest) = true
    · rw [if_pos hsp]
      exact ⟨st.lock.dependencies, rfl⟩
    · rw [if_neg hsp]
      rw [if_neg (by rw [hsec]; decide), if_neg (by rw [hsec]; decide),
          if_neg (by rw [hsec]; decide), if_neg (by rw [hsec]; decide), if_pos hsec]
      rw [if_pos (show startsWith "  ".data (' ' :: ' ' :: rest) = true by
        simp [startsWith])]
      dsimp only
      rcases hnp : parseNameParen (trimSpace (' ' :: ' ' :: rest)) with _ | ⟨n, c⟩
      · rcases hf : fields (trimSpace (' ' :: ' ' :: rest)) with _ | ⟨m, ms⟩
        · exact ⟨st.lock.dependencies, rfl⟩
        · exact ⟨st.lock.dependencies ++ [⟨m, []⟩], rfl⟩
      · exact ⟨st.lock.dependencies ++ [⟨n, parseConstraints c⟩], rfl⟩

/-! ## Well-formedness of parse output

Every value the parser ever stores in an accumulator or result list has its
captures shaped by the regex scanners and `strings.TrimSpace`; the writer-side
round-trip argument depends only on these shape facts. -/

def wfName (n : Str) : Prop := n ≠ [] ∧ ∀ c ∈ n, isNameChar c

def wfVer (v : Str) : Prop := v ≠ [] ∧ ∀ c ∈ v, c ≠ ')'

def wfConstraint (c : Str) : Prop :=
  c ≠ [] ∧ trimSpace c = c ∧ ∀ ch ∈ c, ch ≠ ',' ∧ ch ≠ ')'

def wfDep (d : Dependency) : Prop :=
  wfName d.name ∧ ∀ c ∈ d.constraints, wfConstraint c

/-- The writer re-joins a split version/platform pair with a hyphen. -/
def joinVP (v p : Str) : Str := if p.isEmpty then v else v ++ '-' :: p

def wfGem (g : GemSpec) : Prop :=
  wfName g.name ∧ wfVer (joinVP g.version g.platform) ∧
    parseVersionPlatform (joinVP g.version g.platform) = (g.version, g.platform) ∧
    (∀ d ∈ g.dependencies, wfDep d) ∧ g.sourceURL = []

def wfGit (g : GitGemSpec) : Prop :=
  ((g.name = [] ∧ g.version = []) ∨ (wfName g.name ∧ wfVer g.version)) ∧
    trimSpace g.remote = g.remote ∧ trimSpace g.revision = g.revision ∧
    trimSpace g.branch = g.branch ∧ trimSpace g.tag = g.tag ∧
    ∀ d ∈ g.dependencies, wfDep d

def wfPath (g : PathGemSpec) : Prop :=
  ((g.name = [] ∧ g.version = []) ∨ (wfName g.name ∧ wfVer g.version)) ∧
    trimSpace g.remote = g.remote ∧ ∀ d ∈ g.dependencies, wfDep d

def wfLockfile (lf : Lockfile) : Prop :=
  (∀ g ∈ lf.gemSpecs, wfGem g) ∧ (∀ g ∈ lf.gitSpecs, wfGit g) ∧
    (∀ g ∈ lf.pathSpecs, wfPath g) ∧ trimSpace lf.bundledWith = lf.bundledWith

def wfParseState (st : ParseState) : Prop :=
  wfLockfile st.lock ∧ (∀ g, st.gem = some g → wfGem g) ∧
    (∀ g, st.git = some g → wfGit g) ∧ (∀ g, st.path = some g → wfPath g)

theorem wfGit_empty : wfGit emptyGitGem := by
  refine ⟨Or.inl ⟨rfl, rfl⟩, rfl, rfl, rfl, rfl, ?_⟩
  intro d hd
  simp [emptyGitGem] at hd

theorem wfPath_empty : wfPath emptyPathGem := by
  refine ⟨Or.inl ⟨rfl, rfl⟩, rfl, ?_⟩
  intro d hd
  simp [emptyPathGem] at hd

theorem wf_initState : wfParseState initState := by
  refine ⟨⟨?_, ?_, ?_, rfl⟩, ?_, ?_, ?_⟩ <;>
    first
      | (intro g hg; simp [initState, emptyLockfile] at hg)
      | (intro g hg; cases hg)

theorem wf_flushGem {st : ParseState} (h : wfParseState st) :
    wfParseState (flushGem st) := by
  obtain ⟨⟨h1, h2, h3, h4⟩, hgem, hgit, hpath⟩ := h
  refine ⟨⟨?_, ?_, ?_, ?_⟩, ?_, ?_, ?_⟩
  · intro g hg
    rw [flushGem_gemSpecs] at hg
    rcases List.mem_append.mp hg with hg1 | hg2
    · exact h1 g hg1
    · exact hgem g (by rcases hs : st.gem with _ | g2 <;> simp [hs] at hg2 <;> simp [hg2])
  · intro g hg; rw [flushGem_gitSpecs] at hg; exact h2 g hg
  · intro g hg; rw [flushGem_pathSpecs] at hg; exact h3 g hg
  · rw [flushGem_bundledWith]; exact h4
  · intro g hg; rw [flushGem_gem] at hg; cases hg
  · intro g hg; rw [flushGem_git] at hg; exact hgit g hg
  · intro g hg; rw [flushGem_path] at hg; exact hpath g hg

theorem wf_flushGit {st : ParseState} (h : wfParseState st) :
    wfParseState (flushGit st) := by
  obtain ⟨⟨h1, h2, h3, h4⟩, hgem, hgit, hpath⟩ := h
  refine ⟨⟨?_, ?_, ?_, ?_⟩, ?_, ?_, ?_⟩
  · intro g hg; rw [flushGit_gemSpecs] at hg; exact h1 g hg
  · intro g hg
    rw [flushGit_gitSpecs] at hg
    rcases List.mem_append.mp hg with hg1 | hg2
    · exact h2 g hg1
    · exact hgit g (by rcases hs : st.git with _ | g2 <;> simp [hs] at hg2 <;> simp [hg2])
  · intro g hg; rw [flushGit_pathSpecs] at hg; exact h3 g hg
  · rw [flushGit_bundledWith]; exact h4
  · intro g hg; rw [flushGit_gem] at hg; exact hgem g hg
  · intro g hg; rw [flushGit_git] at hg; cases hg
  · intro g hg; rw [flushGit_path] at hg; exact hpath g hg

theorem wf_flushPath {st : ParseState} (h : wfParseState st) :
    wfParseState (flushPath st) := by
  obtain ⟨⟨h1, h2, h3, h4⟩, hgem, hgit, hpath⟩ := h
  refine ⟨⟨?_, ?_, ?_, ?_⟩, ?_, ?_, ?_⟩
  · intro g hg; rw [flushPath_gemSpecs] at hg; exact h1 g hg
  · intro g hg; rw [flushPath_gitSpecs] at hg; exact h2 g hg
  · intro g hg
    rw [flushPath_pathSpecs] at hg
    rcases List.mem_append.mp hg with hg1 | hg2
    · exact h3 g hg1
    · exact hpath g (by rcases hs : st.path with _ | g2 <;> simp [hs] at hg2 <;> simp [hg2])
  · rw [flushPath_bundledWith]; exact h4
  · intro g hg; rw [flushPath_gem] at hg; exact hgem g hg
  · intro g hg; rw [flushPath_git] at hg; exact hgit g hg
  · intro g hg; rw [flushPath_path] at hg; cases hg

/-- Richer inversion of `parseDepLine`: both captures have the shapes imposed
by `depRegex`. -/
theorem parseDepLine_caps {l : Str} {n : Str} {copt : Option Str}
    (h : parseDepLine l = some (n, copt)) :
    (n ≠ [] ∧ ∀ c ∈ n, isNameChar c) ∧
      ∀ v, copt = some v → v ≠ [] ∧ ∀ c ∈ v, c ≠ ')' := by
  unfold parseDepLine at h
  rcases he : expectChars "      ".data l with _ | rest
  · rw [he] at h; cases h
  rw [he] at h
  dsimp only at h
  by_cases hn : (rest.takeWhile isNameChar).isEmpty = true
  · rw [if_pos hn] at h; cases h
  rw [if_neg hn] at h
  by_cases hr : (rest.drop (rest.takeWhile isNameChar).length).isEmpty = true
  · rw [if_pos hr] at h
    rw [Option.some.injEq, Prod.mk.injEq] at h
    obtain ⟨h1, h2⟩ := h
    subst h1
    refine ⟨⟨fun hemp => hn (by rw [hemp]; rfl), fun c hc => memTakeWhile hc⟩, ?_⟩
    intro v hv
    rw [← h2] at hv
    cases hv
  · rw [if_neg hr] at h
    rcases he2 : expectChars " (".data (rest.drop (rest.takeWhile isNameChar).length)
      with _ | r2
    · rw [he2] at h; cases h
    rw [he2] at h
    dsimp only at h
    by_cases hv : (r2.takeWhile (fun c => decide (c ≠ ')'))).isEmpty = true
    · rw [if_pos hv] at h; cases h
    rw [if_neg hv] at h
    by_cases hd : r2.drop (r2.takeWhile (fun c => decide (c ≠ ')'))).length = [')']
    · rw [if_pos hd] at h
      rw [Option.some.injEq, Prod.mk.injEq] at h
      obtain ⟨h1, h2⟩ := h
      subst h1
      refine ⟨⟨fun hemp => hn (by rw [hemp]; rfl), fun c hc => memTakeWhile hc⟩, ?_⟩
      intro v hv2
      rw [← h2] at hv2
      rw [Option.some.injEq] at hv2
      subst hv2
      exact ⟨fun hemp => hv (by rw [hemp]; rfl),
        fun c hc => by simpa using memTakeWhile hc⟩
    · rw [if_neg hd] at h; cases h

/-- Every piece produced by `parseConstraints` is nonempty, trimmed, and free
of commas; it is also free of `)` whenever the input is. -/
theorem parseConstraints_wf {c : Str} (hc : ∀ ch ∈ c, ch ≠ ')') :
    ∀ x ∈ parseConstraints c, wfConstraint x := by
  intro x hx
  unfold parseConstraints at hx
  rw [List.mem_filter] at hx
  obtain ⟨hx1, hx2⟩ := hx
  rw [List.mem_map] at hx1
  obtain ⟨y, hy, rfl⟩ := hx1
  refine ⟨by simpa using hx2, trimSpace_trimSpace y, ?_⟩
  intro ch hch
  have hchy : ch ∈ y := mem_trimSpace hch
  obtain ⟨hns, hmem⟩ := mem_splitOnChar hy
  exact ⟨hns ch hchy, hc ch (hmem ch hchy)⟩

/-- The dependency recorded from a `depRegex` match is well formed. -/
theorem wfDep_of_caps {n : Str} {copt : Option Str}
    (h : (n ≠ [] ∧ ∀ c ∈ n, isNameChar c) ∧
      ∀ v, copt = some v → v ≠ [] ∧ ∀ c ∈ v, c ≠ ')') :
    wfDep ⟨n, match copt with | some c => parseConstraints c | none => []⟩ := by
  refine ⟨h.1, ?_⟩
  rcases copt with _ | v
  · intro x hx; simp at hx
  · exact parseConstraints_wf (h.2 v rfl).2

/-- Splitting a version string and re-joining the split with `-` restores it. -/
theorem joinVP_of_parseVersionPlatform {vp v p : Str}
    (h : parseVersionPlatform vp = (v, p)) : joinVP v p = vp := by
  unfold parseVersionPlatform at h
  rcases hs : splitOnChar '-' vp with _ | ⟨q, qs⟩
  · exact absurd hs (splitOnChar_ne_nil '-' vp)
  rw [hs] at h
  dsimp only at h
  by_cases hcond : (decide ((q :: qs).length ≥ 3) && hasPlatformIndicator vp) = true
  · rw [if_pos hcond] at h
    rw [Prod.mk.injEq] at h
    obtain ⟨h1, h2⟩ := h
    subst h1
    subst h2
    have hlen : qs.length ≥ 2 := by
      have h3 : (q :: qs).length ≥ 3 := by
        simp only [Bool.and_eq_true, decide_eq_true_eq] at hcond
        exact hcond.1
      simpa using h3
    match qs, hlen with
    | q1 :: q2 :: qs2, _ =>
      have hpne : joinChar '-' (q1 :: q2 :: qs2) ≠ [] := by
        show q1 ++ '-' :: joinChar '-' (q2 :: qs2) ≠ []
        cases q1 <;> simp
      unfold joinVP
      rw [if_neg (by simpa using hpne)]
      have hj : joinChar '-' (splitOnChar '-' vp) = vp := joinChar_splitOnChar '-' vp
      rw [hs] at hj
      rw [← hj]
      rfl
  · rw [if_neg hcond] at h
    rw [Prod.mk.injEq] at h
    obtain ⟨h1, h2⟩ := h
    subst h1
    subst h2
    rfl

theorem wf_git_getD {st : ParseState} (h : wfParseState st) :
    wfGit (st.git.getD emptyGitGem) := by
  rcases hs : st.git with _ | g
  · exact wfGit_empty
  · exact h.2.2.1 g hs

theorem wf_path_getD {st : ParseState} (h : wfParseState st) :
    wfPath (st.path.getD emptyPathGem) := by
  rcases hs : st.path with _ | g
  · exact wfPath_empty
  · exact h.2.2.2 g hs

/-- One parser step preserves well-formedness of the whole parse state. -/
theorem wf_parseStep {st : ParseState} (line : Str) (h : wfParseState st) :
    wfParseState (parseStep st line) := by
  unfold parseStep
  by_cases h1 : line = "GEM".data
  · rw [if_pos h1]
    exact wf_flushPath (wf_flushGit h)
  rw [if_neg h1]
  by_cases h2 : line = "GIT".data
  · rw [if_pos h2]
    exact wf_flushPath (wf_flushGit (wf_flushGem h))
  rw [if_neg h2]
  by_cases h3 : line = "PATH".data
  · rw [if_pos h3]
    exact wf_flushPath (wf_flushGit (wf_flushGem h))
  rw [if_neg h3]
  by_cases h4 : line = "PLATFORMS".data
  · rw [if_pos h4]
    exact wf_flushPath (wf_flushGit (wf_flushGem h))
  rw [if_neg h4]
  by_cases h5 : line = "DEPENDENCIES".data
  · rw [if_pos h5]
    exact wf_flushPath (wf_flushGit (wf_flushGem h))
  rw [if_neg h5]
  by_cases h6 : startsWith "BUNDLED WITH".data line = true
  · rw [if_pos h6]
    exact h
  rw [if_neg h6]
  by_cases h7 : startsWith "  remote:".data line = true
  · rw [if_pos h7]
    by_cases h8 : st.sec = "GIT".data
    · rw [if_pos h8]
      refine ⟨h.1, h.2.1, ?_, h.2.2.2⟩
      intro g hg
      have hg2 := Option.some.inj hg
      subst hg2
      have hw := wf_git_getD h
      exact ⟨hw.1, trimSpace_trimSpace _, hw.2.2.1, hw.2.2.2.1, hw.2.2.2.2.1,
        hw.2.2.2.2.2⟩
    · rw [if_neg h8]
      by_cases h9 : st.sec = "PATH".data
      · rw [if_pos h9]
        refine ⟨h.1, h.2.1, h.2.2.1, ?_⟩
        intro g hg
        have hg2 := Option.some.inj hg
        subst hg2
        have hw := wf_path_getD h
        exact ⟨hw.1, trimSpace_trimSpace _, hw.2.2⟩
      · rw [if_neg h9]
        exact h
  rw [if_neg h7]
  by_cases h10 : (startsWith "  revision:".data line && st.sec = "GIT".data) = true
  · rw [if_pos h10]
    refine ⟨h.1, h.2.1, ?_, h.2.2.2⟩
    intro g hg
    have hg2 := Option.some.inj hg
    subst hg2
    have hw := wf_git_getD h
    exact ⟨hw.1, hw.2.1, trimSpace_trimSpace _, hw.2.2.2.1, hw.2.2.2.2.1,
      hw.2.2.2.2.2⟩
  rw [if_neg h10]
  by_cases h11 : (startsWith "  branch:".data line && st.sec = "GIT".data) = true
  · rw [if_pos h11]
    refine ⟨h.1, h.2.1, ?_, h.2.2.2⟩
    intro g hg
    have hg2 := Option.some.inj hg
    subst hg2
    have hw := wf_git_getD h
    exact ⟨hw.1, hw.2.1, hw.2.2.1, trimSpace_trimSpace _, hw.2.2.2.2.1,
      hw.2.2.2.2.2⟩
  rw [if_neg h11]
  by_cases h12 : (startsWith "  tag:".data line && st.sec = "GIT".data) = true
  · rw [if_pos h12]
    refine ⟨h.1, h.2.1, ?_, h.2.2.2⟩
    intro g hg
    have hg2 := Option.some.inj hg
    subst hg2
    have hw := wf_git_getD h
    exact ⟨hw.1, hw.2.1, hw.2.2.1, hw.2.2.2.1, trimSpace_trimSpace _,
      hw.2.2.2.2.2⟩
  rw [if_neg h12]
  by_cases h13 : startsWith "  specs:".data line = true
  · rw [if_pos h13]
    exact h
  rw [if_neg h13]
  by_cases h14 : st.sec = "GEM".data
  · rw [if_pos h14]
    rcases hgs : parseGemSpecLine line with _ | ⟨n, vp⟩
    · rcases hdl : parseDepLine line with _ | ⟨n, _ | c⟩
      · exact h
      · rcases hgem : st.gem with _ | g
        · exact h
        · obtain ⟨hlock, hgemw, hgitw, hpathw⟩ := h
          refine ⟨hlock, ?_, hgitw, hpathw⟩
          intro g2 hg2
          have hg3 := Option.some.inj hg2
          subst hg3
          have hwfg := hgemw g hgem
          refine ⟨hwfg.1, hwfg.2.1, hwfg.2.2.1, ?_, hwfg.2.2.2.2⟩
          intro d hd
          rcases List.mem_append.mp hd with hd1 | hd2
          · exact hwfg.2.2.2.1 d hd1
          · have hde : d = ⟨n, []⟩ := by simpa using hd2
            subst hde
            exact wfDep_of_caps (parseDepLine_caps hdl)
      · rcases hgem : st.gem with _ | g
        · exact h
        · obtain ⟨hlock, hgemw, hgitw, hpathw⟩ := h
          refine ⟨hlock, ?_, hgitw, hpathw⟩
          intro g2 hg2
          have hg3 := Option.some.inj hg2
          subst hg3
          have hwfg := hgemw g hgem
          refine ⟨hwfg.1, hwfg.2.1, hwfg.2.2.1, ?_, hwfg.2.2.2.2⟩
          intro d hd
          rcases List.mem_append.mp hd with hd1 | hd2
          · exact hwfg.2.2.2.1 d hd1
          · have hde : d = ⟨n, parseConstraints c⟩ := by simpa using hd2
            subst hde
            exact wfDep_of_caps (parseDepLine_caps hdl)
    · dsimp only
      have hwfst := wf_flushGem h
      refine ⟨hwfst.1, ?_, hwfst.2.2.1, hwfst.2.2.2⟩
      intro g hg
      have hg2 := Option.some.inj hg
      subst hg2
      obtain ⟨rest, -, hnp⟩ := parseGemSpecLine_shape hgs
      obtain ⟨-, hn, hnc, hv, hvc⟩ := parseNameParen_shape hnp
      have hpair : parseVersionPlatform vp =
          ((parseVersionPlatform vp).1, (parseVersionPlatform vp).2) := rfl
      have hj := joinVP_of_parseVersionPlatform hpair
      refine ⟨⟨hn, hnc⟩, ?_, ?_, ?_, rfl⟩
      · rw [hj]
        exact ⟨hv, hvc⟩
      · rw [hj]
      · intro d hd
        simp at hd
  rw [if_neg h14]
  by_cases h15 : st.sec = "GIT".data
  · rw [if_pos h15]
    rcases hgs : parseGemSpecLine line with _ | ⟨n, vp⟩
    · rcases hdl : parseDepLine line with _ | ⟨n, _ | c⟩
      · exact h
      · rcases hgit : st.git with _ | g
        · exact h
        · obtain ⟨hlock, hgemw, hgitw, hpathw⟩ := h
          refine ⟨hlock, hgemw, ?_, hpathw⟩
          intro g2 hg2
          have hg3 := Option.some.inj hg2
          subst hg3
          have hwfg := hgitw g hgit
          refine ⟨hwfg.1, hwfg.2.1, hwfg.2.2.1, hwfg.2.2.2.1, hwfg.2.2.2.2.1, ?_⟩
          intro d hd
          rcases List.mem_append.mp hd with hd1 | hd2
          · exact hwfg.2.2.2.2.2 d hd1
          · have hde : d = ⟨n, []⟩ := by simpa using hd2
            subst hde
            exact wfDep_of_caps (parseDepLine_caps hdl)
      · rcases hgit : st.git with _ | g
        · exact h
        · obtain ⟨hlock, hgemw, hgitw, hpathw⟩ := h
          refine ⟨hlock, hgemw, ?_, hpathw⟩
          intro g2 hg2
          have hg3 := Option.some.inj hg2
          subst hg3
          have hwfg := hgitw g hgit
          refine ⟨hwfg.1, hwfg.2.1, hwfg.2.2.1, hwfg.2.2.2.1, hwfg.2.2.2.2.1, ?_⟩
          intro d hd
          rcases List.mem_append.mp hd with hd1 | hd2
          · exact hwfg.2.2.2.2.2 d hd1
          · have hde : d = ⟨n, parseConstraints c⟩ := by simpa using hd2
            subst hde
            exact wfDep_of_caps (parseDepLine_caps hdl)
    · obtain ⟨hlock, hgemw, hgitw, hpathw⟩ := h
      refine ⟨hlock, hgemw, ?_, hpathw⟩
      intro g hg
      have hg2 := Option.some.inj hg
      subst hg2
      obtain ⟨rest, -, hnp⟩ := parseGemSpecLine_shape hgs
      obtain ⟨-, hn, hnc, hv, hvc⟩ := parseNameParen_shape hnp
      have hw := wf_git_getD ⟨hlock, hgemw, hgitw, hpathw⟩
      exact ⟨Or.inr ⟨⟨hn, hnc⟩, ⟨hv, hvc⟩⟩, hw.2.1, hw.2.2.1, hw.2.2.2.1,
        hw.2.2.2.2.1, hw.2.2.2.2.2⟩
  rw [if_neg h15]
  by_cases h16 : st.sec = "PATH".data
  · rw [if_pos h16]
    rcases hgs : parseGemSpecLine line with _ | ⟨n, vp⟩
    · rcases hdl : parseDepLine line with _ | ⟨n, _ | c⟩
      · exact h
      · rcases hpath : st.path with _ | g
        · exact h
        · obtain ⟨hlock, hgemw, hgitw, hpathw⟩ := h
          refine ⟨hlock, hgemw, hgitw, ?_⟩
          intro g2 hg2
          have hg3 := Option.some.inj hg2
          subst hg3
          have hwfg := hpathw g hpath
          refine ⟨hwfg.1, hwfg.2.1, ?_⟩
          intro d hd
          rcases List.mem_append.mp hd with hd1 | hd2
          · exact hwfg.2.2 d hd1
          · have hde : d = ⟨n, []⟩ := by simpa using hd2
            subst hde
            exact wfDep_of_caps (parseDepLine_caps hdl)
      · rcases hpath : st.path with _ | g
        · exact h
        · obtain ⟨hlock, hgemw, hgitw, hpathw⟩ := h
          refine ⟨hlock, hgemw, hgitw, ?_⟩
          intro g2 hg2
          have hg3 := Option.some.inj hg2
          subst hg3
          have hwfg := hpathw g hpath
          refine ⟨hwfg.1, hwfg.2.1, ?_⟩
          intro d hd
          rcases List.mem_append.mp hd with hd1 | hd2
          · exact hwfg.2.2 d hd1
          · have hde : d = ⟨n, parseConstraints c⟩ := by simpa using hd2
            subst hde
            exact wfDep_of_caps (parseDepLine_caps hdl)
    · obtain ⟨hlock, hgemw, hgitw, hpathw⟩ := h
      refine ⟨hlock, hgemw, hgitw, ?_⟩
      intro g hg
      have hg2 := Option.some.inj hg
      subst hg2
      obtain ⟨rest, -, hnp⟩ := parseGemSpecLine_shape hgs
      obtain ⟨-, hn, hnc, hv, hvc⟩ := parseNameParen_shape hnp
      have hw := wf_path_getD ⟨hlock, hgemw, hgitw, hpathw⟩
      exact ⟨Or.inr ⟨⟨hn, hnc⟩, ⟨hv, hvc⟩⟩, hw.2.1, hw.2.2⟩
  rw [if_neg h16]
  by_cases h17 : st.sec = "PLATFORMS".data
  · rw [if_pos h17]
    by_cases h18 : startsWith "  ".data line = true
    · rw [if_pos h18]
      exact h
    · rw [if_neg h18]
      exact h
  rw [if_neg h17]
  by_cases h19 : st.sec = "DEPENDENCIES".data
  · rw [if_pos h19]
    by_cases h20 : startsWith "  ".data line = true
    · rw [if_pos h20]
      dsimp only
      rcases parseNameParen (trimSpace line) with _ | ⟨n, c⟩
      · rcases fields (trimSpace line) with _ | ⟨m, ms⟩
        · exact h
        · exact h
      · exact h
    · rw [if_neg h20]
      exact h
  rw [if_neg h19]
  by_cases h21 : st.sec = "BUNDLED_WITH".data
  · rw [if_pos h21]
    by_cases h22 : startsWith "   ".data line = true
    · rw [if_pos h22]
      exact ⟨⟨h.1.1, h.1.2.1, h.1.2.2.1, trimSpace_trimSpace line⟩, h.2.1,
        h.2.2.1, h.2.2.2⟩
    · rw [if_neg h22]
      exact h
  rw [if_neg h21]
  exact h

/-- The lockfile produced by `Parse` is well formed. -/
theorem wfLockfile_parse (lines : List Str) :
    wfLockfile (parseLockfileLines lines) := by
  have haux : ∀ (ls : List Str) (st : ParseState), wfParseState st →
      wfParseState (ls.foldl parseStep st) := by
    intro ls
    induction ls with
    | nil => intro st h; exact h
    | cons l ls ih => intro st h; exact ih _ (wf_parseStep l h)
  exact (wf_flushPath (wf_flushGit (wf_flushGem
    (haux lines initState wf_initState)))).1

/-! ## Round-trip of single writer-emitted dependency and entry lines -/

theorem takeWhile_all {p : α → Bool} {l : List α} (h : ∀ a ∈ l, p a) :
    l.takeWhile p = l := by
  induction l with
  | nil => rfl
  | cons a l ih =>
    rw [List.takeWhile_cons, if_pos (h a (by simp))]
    rw [ih (fun x hx => h x (by simp [hx]))]

theorem mem_joinSep {sep : Str} {cs : List Str} {ch : Char} :
    ch ∈ joinSep sep cs → ch ∈ sep ∨ ∃ p ∈ cs, ch ∈ p := by
  induction cs with
  | nil => intro h; simp [joinSep] at h
  | cons c rest ih =>
    intro h
    rcases rest with _ | ⟨c2, rest2⟩
    · exact Or.inr ⟨c, by simp, h⟩
    · have h2 : ch ∈ c ++ sep ++ joinSep sep (c2 :: rest2) := h
      rcases List.mem_append.mp h2 with h3 | h4
      · rcases List.mem_append.mp h3 with h5 | h6
        · exact Or.inr ⟨c, by simp, h5⟩
        · exact Or.inl h6
      · rcases ih h4 with h5 | ⟨p, hp, hchp⟩
        · exact Or.inl h5
        · exact Or.inr ⟨p, by simp [hp], hchp⟩

theorem joinSep_ne_nil {sep : Str} {cs : List Str} (hne : cs ≠ [])
    (h : ∀ c ∈ cs, c ≠ []) : joinSep sep cs ≠ [] := by
  match cs, hne with
  | [c], _ => exact h c (by simp)
  | c :: c2 :: rest, _ =>
    show c ++ sep ++ joinSep sep (c2 :: rest) ≠ []
    rcases hc : c with _ | ⟨x, xs⟩
    · exact absurd hc (h c (by simp))
    · simp

theorem parseConstraints_space (x : Str) :
    parseConstraints (' ' :: x) = parseConstraints x := by
  unfold parseConstraints
  rcases hs : splitOnChar ',' x with _ | ⟨p, ps⟩
  · exact absurd hs (splitOnChar_ne_nil ',' x)
  · have h1 : splitOnChar ',' (' ' :: x) = (' ' :: p) :: ps := by
      unfold splitOnChar
      rw [if_neg (by decide), hs]
    rw [h1]
    simp [trimSpace_cons_space]

theorem parseConstraints_joinSep {cs : List Str} (hne : cs ≠ [])
    (h : ∀ c ∈ cs, wfConstraint c) :
    parseConstraints (joinSep ", ".data cs) = cs := by
  induction cs with
  | nil => exact absurd rfl hne
  | cons c rest ih =>
    rcases rest with _ | ⟨c2, rest2⟩
    · show parseConstraints c = [c]
      obtain ⟨hc1, hc2, hc3⟩ := h c (by simp)
      unfold parseConstraints
      rw [splitOnChar_no_sep (fun ch hch => (hc3 ch hch).1)]
      simp [hc2, hc1]
    · have hj : joinSep ", ".data (c :: c2 :: rest2) =
          c ++ ',' :: (' ' :: joinSep ", ".data (c2 :: rest2)) := by
        show c ++ ", ".data ++ joinSep ", ".data (c2 :: rest2) = _
        simp
      rw [hj]
      have hcalc : parseConstraints (c ++ ',' :: (' ' :: joinSep ", ".data (c2 :: rest2)))
          = c :: parseConstraints (' ' :: joinSep ", ".data (c2 :: rest2)) := by
        unfold parseConstraints
        rw [splitOnChar_append_sep (fun ch hch => ((h c (by simp)).2.2 ch hch).1)]
        rw [List.map_cons, List.filter_cons]
        rw [(h c (by simp)).2.1]
        rw [if_pos (by simpa using (h c (by simp)).1)]
      rw [hcalc, parseConstraints_space]
      rw [ih (by simp) (fun x hx => h x (by simp [hx]))]

/-- Parsing back one written dependency line recovers the name and the
joined constraint list. -/
theorem parseDepLine_writeDependency {d : Dependency} (hwf : wfDep d) :
    parseDepLine (writeDependency indent6 d) =
      some (d.name, if d.constraints.isEmpty then none
        else some (joinSep ", ".data d.constraints)) := by
  obtain ⟨⟨hn, hnc⟩, hcs⟩ := hwf
  unfold writeDependency
  by_cases hce : d.constraints.isEmpty = true
  · rw [if_pos hce, if_pos hce]
    unfold parseDepLine
    rw [show expectChars "      ".data (indent6 ++ d.name) = some d.name from
      expectChars_eq_some.mpr rfl]
    dsimp only
    rw [takeWhile_all hnc]
    rw [if_neg (by simpa using hn)]
    rw [List.drop_length]
    simp
  · rw [if_neg hce, if_neg hce]
    have hJc : ∀ ch ∈ joinSep ", ".data d.constraints, decide (ch ≠ ')') = true := by
      intro ch hch
      rcases mem_joinSep hch with h1 | ⟨p, hp, hchp⟩
      · simp at h1
        rcases h1 with rfl | rfl <;> decide
      · simpa using ((hcs p hp).2.2 ch hchp).2
    have hJne : joinSep ", ".data d.constraints ≠ [] :=
      joinSep_ne_nil (by simpa using hce) (fun x hx => (hcs x hx).1)
    have hline : indent6 ++ d.name ++ " (".data ++ joinSep ", ".data d.constraints ++ [')'] =
        "      ".data ++ (d.name ++ (' ' :: '(' ::
          (joinSep ", ".data d.constraints ++ [')']))) := by simp
    rw [hline]
    unfold parseDepLine
    rw [expectChars_eq_some.mpr rfl]
    dsimp only
    obtain ⟨ht, -⟩ := takeWhileAppendCons isNameChar d.name ' '
      ('(' :: (joinSep ", ".data d.constraints ++ [')'])) hnc (by decide)
    rw [ht]
    rw [if_neg (by simpa using hn)]
    rw [List.drop_left]
    rw [if_neg (by simp)]
    rw [show expectChars " (".data (' ' :: '(' ::
        (joinSep ", ".data d.constraints ++ [')'])) =
      some (joinSep ", ".data d.constraints ++ [')']) from expectChars_eq_some.mpr rfl]
    dsimp only
    obtain ⟨ht2, -⟩ := takeWhileAppendCons (fun c => decide (c ≠ ')'))
      (joinSep ", ".data d.constraints) ')' [] hJc (by simp)
    rw [ht2]
    rw [if_neg (by simpa using hJne)]
    rw [List.drop_left]
    simp

theorem parseStep_write_dep_gem {st : ParseState} {g : GemSpec} {d : Dependency}
    (hsec : st.sec = "GEM".data) (hgem : st.gem = some g) (hwf : wfDep d) :
    parseStep st (writeDependency indent6 d) =
      { st with gem := some { g with dependencies := g.dependencies ++ [d] } } := by
  obtain ⟨dn, dcs⟩ := d
  by_cases hce : dcs.isEmpty = true
  · have hnil : dcs = [] := by simpa using hce
    subst hnil
    have hpd : parseDepLine (writeDependency indent6 ⟨dn, []⟩) = some (dn, none) := by
      rw [parseDepLine_writeDependency hwf]
      simp
    exact parseStep_gem_dep hsec hgem hpd
  · have hpd : parseDepLine (writeDependency indent6 ⟨dn, dcs⟩) =
        some (dn, some (joinSep ", ".data dcs)) := by
      rw [parseDepLine_writeDependency hwf]
      rw [if_neg hce]
    have h1 := parseStep_gem_dep hsec hgem hpd
    rw [h1]
    show ({ st with gem := some { g with dependencies := g.dependencies ++
      [⟨dn, parseConstraints (joinSep ", ".data dcs)⟩] } } : ParseState) = _
    rw [parseConstraints_joinSep (by simpa using hce) hwf.2]

theorem parseStep_write_dep_git {st : ParseState} {g : GitGemSpec} {d : Dependency}
    (hsec : st.sec = "GIT".data) (hgit : st.git = some g) (hwf : wfDep d) :
    parseStep st (writeDependency indent6 d) =
      { st with git := some { g with dependencies := g.dependencies ++ [d] } } := by
  obtain ⟨dn, dcs⟩ := d
  by_cases hce : dcs.isEmpty = true
  · have hnil : dcs = [] := by simpa using hce
    subst hnil
    have hpd : parseDepLine (writeDependency indent6 ⟨dn, []⟩) = some (dn, none) := by
      rw [parseDepLine_writeDependency hwf]
      simp
    exact parseStep_git_dep hsec hgit hpd
  · have hpd : parseDepLine (writeDependency indent6 ⟨dn, dcs⟩) =
        some (dn, some (joinSep ", ".data dcs)) := by
      rw [parseDepLine_writeDependency hwf]
      rw [if_neg hce]
    have h1 := parseStep_git_dep hsec hgit hpd
    rw [h1]
    show ({ st with git := some { g with dependencies := g.dependencies ++
      [⟨dn, parseConstraints (joinSep ", ".data dcs)⟩] } } : ParseState) = _
    rw [parseConstraints_joinSep (by simpa using hce) hwf.2]

theorem parseStep_write_dep_path {st : ParseState} {g : PathGemSpec} {d : Dependency}
    (hsec : st.sec = "PATH".data) (hpath : st.path = some g) (hwf : wfDep d) :
    parseStep st (writeDependency indent6 d) =
      { st with path := some { g with dependencies := g.dependencies ++ [d] } } := by
  obtain ⟨dn, dcs⟩ := d
  by_cases hce : dcs.isEmpty = true
  · have hnil : dcs = [] := by simpa using hce
    subst hnil
    have hpd : parseDepLine (writeDependency indent6 ⟨dn, []⟩) = some (dn, none) := by
      rw [parseDepLine_writeDependency hwf]
      simp
    exact parseStep_path_dep hsec hpath hpd
  · have hpd : parseDepLine (writeDependency indent6 ⟨dn, dcs⟩) =
        some (dn, some (joinSep ", ".data dcs)) := by
      rw [parseDepLine_writeDependency hwf]
      rw [if_neg hce]
    have h1 := parseStep_path_dep hsec hpath hpd
    rw [h1]
    show ({ st with path := some { g with dependencies := g.dependencies ++
      [⟨dn, parseConstraints (joinSep ", ".data dcs)⟩] } } : ParseState) = _
    rw [parseConstraints_joinSep (by simpa using hce) hwf.2]

theorem foldl_write_deps_gem (ds : List Dependency) (hwf : ∀ d ∈ ds, wfDep d) :
    ∀ (st : ParseState) (g : GemSpec), st.sec = "GEM".data → st.gem = some g →
      (ds.map (writeDependency indent6)).foldl parseStep st =
        { st with gem := some { g with dependencies := g.dependencies ++ ds } } := by
  induction ds with
  | nil =>
    intro st g hsec hgem
    rw [List.map_nil, List.foldl_nil, List.append_nil]
    rw [show ({ g with dependencies := g.dependencies } : GemSpec) = g from rfl]
    rw [← hgem]
  | cons d ds ih =>
    intro st g hsec hgem
    rw [List.map_cons, List.foldl_cons]
    rw [parseStep_write_dep_gem hsec hgem (hwf d (by simp))]
    have hres := ih (fun x hx => hwf x (by simp [hx]))
      ({ st with gem := some { g with dependencies := g.dependencies ++ [d] } })
      ({ g with dependencies := g.dependencies ++ [d] }) hsec rfl
    rw [hres]
    have hap : (g.dependencies ++ [d]) ++ ds = g.dependencies ++ d :: ds := by simp
    rw [hap]

theorem foldl_write_deps_git (ds : List Dependency) (hwf : ∀ d ∈ ds, wfDep d) :
    ∀ (st : ParseState) (g : GitGemSpec), st.sec = "GIT".data → st.git = some g →
      (ds.map (writeDependency indent6)).foldl parseStep st =
        { st with git := some { g with dependencies := g.dependencies ++ ds } } := by
  induction ds with
  | nil =>
    intro st g hsec hgit
    rw [List.map_nil, List.foldl_nil, List.append_nil]
    rw [show ({ g with dependencies := g.dependencies } : GitGemSpec) = g from rfl]
    rw [← hgit]
  | cons d ds ih =>
    intro st g hsec hgit
    rw [List.map_cons, List.foldl_cons]
    rw [parseStep_write_dep_git hsec hgit (hwf d (by simp))]
    have hres := ih (fun x hx => hwf x (by simp [hx]))
      ({ st with git := some { g with dependencies := g.dependencies ++ [d] } })
      ({ g with dependencies := g.dependencies ++ [d] }) hsec rfl
    rw [hres]
    have hap : (g.dependencies ++ [d]) ++ ds = g.dependencies ++ d :: ds := by simp
    rw [hap]

theorem foldl_write_deps_path (ds : List Dependency) (hwf : ∀ d ∈ ds, wfDep d) :
    ∀ (st : ParseState) (g : PathGemSpec), st.sec = "PATH".data → st.path = some g →
      (ds.map (writeDependency indent6)).foldl parseStep st =
        { st with path := some { g with dependencies := g.dependencies ++ ds } } := by
  induction ds with
  | nil =>
    intro st g hsec hpath
    rw [List.map_nil, List.foldl_nil, List.append_nil]
    rw [show ({ g with dependencies := g.dependencies } : PathGemSpec) = g from rfl]
    rw [← hpath]
  | cons d ds ih =>
    intro st g hsec hpath
    rw [List.map_cons, List.foldl_cons]
    rw [parseStep_write_dep_path hsec hpath (hwf d (by simp))]
    have hres := ih (fun x hx => hwf x (by simp [hx]))
      ({ st with path := some { g with dependencies := g.dependencies ++ [d] } })
      ({ g with dependencies := g.dependencies ++ [d] }) hsec rfl
    rw [hres]
    have hap : (g.dependencies ++ [d]) ++ ds = g.dependencies ++ d :: ds := by simp
    rw [hap]

/-- The reparse image of one written registry entry: the same entry with its
dependency list re-ordered by the writer (sorted by name); the source URL is
never written, so it comes back empty. -/
def normGem (g : GemSpec) : GemSpec :=
  ⟨g.name, g.version, g.platform, sortLe depLe g.dependencies, []⟩

def normGit (g : GitGemSpec) : GitGemSpec :=
  ⟨g.name, g.version, g.remote, g.revision, g.branch, g.tag,
    sortLe depLe g.dependencies⟩

def normPath (g : PathGemSpec) : PathGemSpec :=
  ⟨g.name, g.version, g.remote, sortLe depLe g.dependencies⟩

/-- Scanning the written lines of one registry entry: the previous open entry
is flushed by the entry-start line and the new accumulator collects exactly
the written dependencies. -/
theorem foldl_writeGemSpecLines {st : ParseState} {g : GemSpec}
    (hsec : st.sec = "GEM".data) (hwf : wfGem g) :
    (writeGemSpecLines g).foldl parseStep st =
      { flushGem st with gem := some (normGem g) } := by
  obtain ⟨⟨hn, hnc⟩, ⟨hv, hvc⟩, hpvp, hdw, hsrc⟩ := hwf
  unfold writeGemSpecLines
  rw [List.foldl_cons]
  have hline : indent4 ++ g.name ++ " (".data ++
      (if g.platform.isEmpty then g.version else g.version ++ '-' :: g.platform) ++
        [')'] =
      "    ".data ++ (g.name ++ (' ' :: '(' ::
        (joinVP g.version g.platform ++ [')']))) := by
    unfold joinVP
    by_cases hp : g.platform.isEmpty = true
    · rw [if_pos hp]
      simp
    · rw [if_neg hp]
      simp
  rw [hline]
  have hgs : parseGemSpecLine ("    ".data ++ (g.name ++ (' ' :: '(' ::
      (joinVP g.version g.platform ++ [')'])))) =
      some (g.name, joinVP g.version g.platform) := by
    unfold parseGemSpecLine
    rw [expectChars_eq_some.mpr rfl]
    exact parseNameParen_complete hn hnc hv hvc
  rw [parseStep_gem_entry hsec hgs, hpvp]
  have hres := foldl_write_deps_gem (sortLe depLe g.dependencies)
    (fun x hx => hdw x (mem_sortLe.mp hx))
    ({ flushGem st with gem := some ⟨g.name, (g.version, g.platform).1,
        (g.version, g.platform).2, [], []⟩ })
    (⟨g.name, (g.version, g.platform).1, (g.version, g.platform).2, [], []⟩)
    (by show (flushGem st).sec = "GEM".data
        rw [flushGem_sec]
        exact hsec)
    rfl
  rw [hres]
  rfl

/-- In a GIT section an entry line written for a spec with an empty name
(`    " ()"`) matches neither entry regex and is skipped. -/
theorem parseStep_git_skip_emptyEntry (st : ParseState)
    (hsec : st.sec = "GIT".data) :
    parseStep st (' ' :: ' ' :: ' ' :: ' ' :: ' ' :: '(' :: ')' :: []) = st := by
  simp [parseStep, startsWith, hsec, parseGemSpecLine, parseNameParen, parseDepLine,
    expectChars, isNameChar]

theorem parseStep_path_skip_emptyEntry (st : ParseState)
    (hsec : st.sec = "PATH".data) :
    parseStep st (' ' :: ' ' :: ' ' :: ' ' :: ' ' :: '(' :: ')' :: []) = st := by
  simp [parseStep, startsWith, hsec, parseGemSpecLine, parseNameParen, parseDepLine,
    expectChars, isNameChar]

/-- Scanning the metadata lines of one written GIT block builds the block
accumulator field by field. -/
theorem foldl_gitMeta {s : ParseState} {g : GitGemSpec} (hwf : wfGit g)
    (hsec : s.sec = "GIT".data) (hgit : s.git = none) (rest : List Str) :
    (((indent2 ++ "remote: ".data ++ g.remote) ::
      (indent2 ++ "revision: ".data ++ g.revision) ::
      ((if g.branch.isEmpty then []
          else [indent2 ++ "branch: ".data ++ g.branch]) ++
       (if g.tag.isEmpty then [] else [indent2 ++ "tag: ".data ++ g.tag]) ++
       rest)).foldl parseStep s) =
      rest.foldl parseStep
        { s with git := some ⟨[], [], g.remote, g.revision, g.branch, g.tag, []⟩ } := by
  rw [List.foldl_cons]
  have e1 : parseStep s (indent2 ++ "remote: ".data ++ g.remote) =
      { s with git := some ⟨[], [], g.remote, [], [], [], []⟩ } := by
    rw [show indent2 ++ "remote: ".data ++ g.remote =
      "  remote: ".data ++ g.remote from rfl]
    rw [parseStep_git_remote_line s hsec g.remote, hgit, hwf.2.1]
    rfl
  rw [e1, List.foldl_cons]
  have e2 : parseStep
      { s with git := some (⟨[], [], g.remote, [], [], [], []⟩ : GitGemSpec) }
      (indent2 ++ "revision: ".data ++ g.revision) =
      { s with git := some ⟨[], [], g.remote, g.revision, [], [], []⟩ } := by
    rw [show indent2 ++ "revision: ".data ++ g.revision =
      "  revision: ".data ++ g.revision from rfl]
    rw [parseStep_git_revision_line
      ({ s with git := some (⟨[], [], g.remote, [], [], [], []⟩ : GitGemSpec) })
      hsec g.revision]
    rw [hwf.2.2.1]
    rfl
  rw [e2]
  by_cases hb : g.branch.isEmpty = true
  · have hbeq : g.branch = [] := by simpa using hb
    rw [if_pos hb]
    by_cases htg : g.tag.isEmpty = true
    · have hteq : g.tag = [] := by simpa using htg
      rw [if_pos htg, hbeq, hteq]
      rfl
    · rw [if_neg htg, List.nil_append, List.singleton_append, List.foldl_cons]
      have e3 : parseStep
          { s with git := some (⟨[], [], g.remote, g.revision, [], [], []⟩ : GitGemSpec) }
          (indent2 ++ "tag: ".data ++ g.tag) =
          { s with git := some ⟨[], [], g.remote, g.revision, [], g.tag, []⟩ } := by
        rw [show indent2 ++ "tag: ".data ++ g.tag = "  tag: ".data ++ g.tag from rfl]
        rw [parseStep_git_tag_line
          ({ s with git := some (⟨[], [], g.remote, g.revision, [], [], []⟩ : GitGemSpec) })
          hsec g.tag]
        rw [hwf.2.2.2.2.1]
        rfl
      rw [e3, hbeq]
  · have hbne : ¬ g.branch = [] := fun he => hb (by simp [he])
    rw [if_neg hb, List.cons_append, List.cons_append, List.nil_append,
      List.foldl_cons]
    have e3 : parseStep
        { s with git := some (⟨[], [], g.remote, g.revision, [], [], []⟩ : GitGemSpec) }
        (indent2 ++ "branch: ".data ++ g.branch) =
        { s with git := some ⟨[], [], g.remote, g.revision, g.branch, [], []⟩ } := by
      rw [show indent2 ++ "branch: ".data ++ g.branch =
        "  branch: ".data ++ g.branch from rfl]
      rw [parseStep_git_branch_line
        ({ s with git := some (⟨[], [], g.remote, g.revision, [], [], []⟩ : GitGemSpec) })
        hsec g.branch]
      rw [hwf.2.2.2.1]
      rfl
    rw [e3]
    by_cases htg : g.tag.isEmpty = true
    · have hteq : g.tag = [] := by simpa using htg
      rw [if_pos htg, List.nil_append, hteq]
    · rw [if_neg htg, List.singleton_append, List.foldl_cons]
      have e4 : parseStep
          { s with git := some (⟨[], [], g.remote, g.revision, g.branch, [], []⟩ : GitGemSpec) }
          (indent2 ++ "tag: ".data ++ g.tag) =
          { s with git := some ⟨[], [], g.remote, g.revision, g.branch, g.tag, []⟩ } := by
        rw [show indent2 ++ "tag: ".data ++ g.tag = "  tag: ".data ++ g.tag from rfl]
        rw [parseStep_git_tag_line
          ({ s with git := some (⟨[], [], g.remote, g.revision, g.branch, [], []⟩ : GitGemSpec) })
          hsec g.tag]
        rw [hwf.2.2.2.2.1]
        rfl
      rw [e4]

/-- Scanning the `specs:` sub-block of one written GIT block: the single
entry-start line (skipped when the name is empty) and the sorted dependency
lines rebuild exactly the block accumulator. -/
theorem foldl_gitSpecsLines {s2 : ParseState} {g : GitGemSpec} (hwf : wfGit g)
    (hsec : s2.sec = "GIT".data)
    (hgit : s2.git = some ⟨[], [], g.remote, g.revision, g.branch, g.tag, []⟩) :
    (((indent2 ++ "specs:".data) ::
      (sortLe (fun a b : GitGemSpec => leStr a.name b.name) [g]).flatMap
        (fun x => writeVcsSpecLines x.name x.version x.dependencies)).foldl
          parseStep s2) =
      { s2 with git := some (normGit g) } := by
  rw [List.foldl_cons]
  rw [show indent2 ++ "specs:".data = "  specs:".data from rfl]
  rw [parseStep_specs_line]
  rw [sortLe_singleton]
  simp only [List.flatMap_cons, List.flatMap_nil, List.append_nil]
  unfold writeVcsSpecLines
  rw [List.foldl_cons]
  rcases hwf.1 with ⟨hne, hve⟩ | ⟨⟨hn, hnc⟩, ⟨hv, hvc⟩⟩
  · rw [hne, hve]
    rw [show indent4 ++ ([] : Str) ++ " (".data ++ ([] : Str) ++ [')'] =
      (' ' :: ' ' :: ' ' :: ' ' :: ' ' :: '(' :: ')' :: []) from rfl]
    rw [parseStep_git_skip_emptyEntry _ hsec]
    have hres := foldl_write_deps_git (sortLe depLe g.dependencies)
      (fun x hx => hwf.2.2.2.2.2 x (mem_sortLe.mp hx)) s2
      (⟨[], [], g.remote, g.revision, g.branch, g.tag, []⟩) hsec hgit
    rw [hres]
    rw [show normGit g = ⟨[], [], g.remote, g.revision, g.branch, g.tag,
      sortLe depLe g.dependencies⟩ from by unfold normGit; rw [hne, hve]]
    rfl
  · have hline : indent4 ++ g.name ++ " (".data ++ g.version ++ [')'] =
        "    ".data ++ (g.name ++ (' ' :: '(' :: (g.version ++ [')']))) := by simp
    rw [hline]
    have hgs : parseGemSpecLine ("    ".data ++ (g.name ++ (' ' :: '(' ::
        (g.version ++ [')'])))) = some (g.name, g.version) := by
      unfold parseGemSpecLine
      rw [expectChars_eq_some.mpr rfl]
      exact parseNameParen_complete hn hnc hv hvc
    rw [parseStep_git_entry hsec hgs, hgit]
    exact foldl_write_deps_git (sortLe depLe g.dependencies)
      (fun x hx => hwf.2.2.2.2.2 x (mem_sortLe.mp hx))
      ({ s2 with git := some ⟨g.name, g.version, g.remote, g.revision, g.branch,
          g.tag, []⟩ })
      (⟨g.name, g.version, g.remote, g.revision, g.branch, g.tag, []⟩) hsec rfl

/-- Scanning one whole written GIT block from any state: the leading blank
line is ignored, the header flushes all three accumulators, and the block
lines rebuild the block's single entry as the open accumulator. -/
theorem foldl_writeGitBlock (st : ParseState) {g : GitGemSpec} (hwf : wfGit g) :
    (writeGitBlock g [g]).foldl parseStep st =
      { flushPath (flushGit (flushGem st)) with
          sec := "GIT".data
          git := some (normGit g) } := by
  unfold writeGitBlock
  rw [List.foldl_cons, parseStep_blank, List.foldl_cons, parseStep_hdr_GIT]
  rw [foldl_gitMeta hwf rfl (by simp) _]
  rw [foldl_gitSpecsLines hwf rfl rfl]

theorem foldl_pathSpecsLines {s2 : ParseState} {g : PathGemSpec} (hwf : wfPath g)
    (hsec : s2.sec = "PATH".data)
    (hpath : s2.path = some ⟨[], [], g.remote, []⟩) :
    (((indent2 ++ "specs:".data) ::
      (sortLe (fun a b : PathGemSpec => leStr a.name b.name) [g]).flatMap
        (fun x => writeVcsSpecLines x.name x.version x.dependencies)).foldl
          parseStep s2) =
      { s2 with path := some (normPath g) } := by
  rw [List.foldl_cons]
  rw [show indent2 ++ "specs:".data = "  specs:".data from rfl]
  rw [parseStep_specs_line]
  rw [sortLe_singleton]
  simp only [List.flatMap_cons, List.flatMap_nil, List.append_nil]
  unfold writeVcsSpecLines
  rw [List.foldl_cons]
  rcases hwf.1 with ⟨hne, hve⟩ | ⟨⟨hn, hnc⟩, ⟨hv, hvc⟩⟩
  · rw [hne, hve]
    rw [show indent4 ++ ([] : Str) ++ " (".data ++ ([] : Str) ++ [')'] =
      (' ' :: ' ' :: ' ' :: ' ' :: ' ' :: '(' :: ')' :: []) from rfl]
    rw [parseStep_path_skip_emptyEntry _ hsec]
    have hres := foldl_write_deps_path (sortLe depLe g.dependencies)
      (fun x hx => hwf.2.2 x (mem_sortLe.mp hx)) s2
      (⟨[], [], g.remote, []⟩) hsec hpath
    rw [hres]
    rw [show normPath g = ⟨[], [], g.remote, sortLe depLe g.dependencies⟩ from by
      unfold normPath; rw [hne, hve]]
    rfl
  · have hline : indent4 ++ g.name ++ " (".data ++ g.version ++ [')'] =
        "    ".data ++ (g.name ++ (' ' :: '(' :: (g.version ++ [')']))) := by simp
    rw [hline]
    have hgs : parseGemSpecLine ("    ".data ++ (g.name ++ (' ' :: '(' ::
        (g.version ++ [')'])))) = some (g.name, g.version) := by
      unfold parseGemSpecLine
      rw [expectChars_eq_some.mpr rfl]
      exact parseNameParen_complete hn hnc hv hvc
    rw [parseStep_path_entry hsec hgs, hpath]
    exact foldl_write_deps_path (sortLe depLe g.dependencies)
      (fun x hx => hwf.2.2 x (mem_sortLe.mp hx))
      ({ s2 with path := some ⟨g.name, g.version, g.remote, []⟩ })
      (⟨g.name, g.version, g.remote, []⟩) hsec rfl

/-- Scanning one whole written PATH block from any state. -/
theorem foldl_writePathBlock (st : ParseState) {g : PathGemSpec}
    (hwf : wfPath g) :
    (writePathBlock g.remote [g]).foldl parseStep st =
      { flushPath (flushGit (flushGem st)) with
          sec := "PATH".data
          path := some (normPath g) } := by
  unfold writePathBlock
  rw [List.foldl_cons, parseStep_blank, List.foldl_cons, parseStep_hdr_PATH]
  rw [List.foldl_cons]
  have e1 : parseStep
      { flushPath (flushGit (flushGem st)) with sec := "PATH".data }
      (indent2 ++ "remote: ".data ++ g.remote) =
      { flushPath (flushGit (flushGem st)) with
          sec := "PATH".data
          path := some ⟨[], [], g.remote, []⟩ } := by
    rw [show indent2 ++ "remote: ".data ++ g.remote =
      "  remote: ".data ++ g.remote from rfl]
    rw [parseStep_path_remote_line
      ({ flushPath (flushGit (flushGem st)) with sec := "PATH".data }) rfl g.remote]
    rw [show ({ flushPath (flushGit (flushGem st)) with
        sec := "PATH".data } : ParseState).path = none from by simp]
    rw [hwf.2.1]
    rfl
  rw [e1]
  rw [foldl_pathSpecsLines hwf rfl rfl]

theorem flushGem_of_none {st : ParseState} (h : st.gem = none) :
    flushGem st = st := by
  unfold flushGem
  rw [h]

theorem flushGit_of_none {st : ParseState} (h : st.git = none) :
    flushGit st = st := by
  unfold flushGit
  rw [h]

theorem flushPath_of_none {st : ParseState} (h : st.path = none) :
    flushPath st = st := by
  unfold flushPath
  rw [h]

/-- Scanning the written lines of a list of registry entries inside a GEM
section: the flushed-plus-open registry entries grow by exactly the re-parse
images of the written entries, and nothing else moves. -/
theorem foldl_gemList (gs : List GemSpec) (hwf : ∀ g ∈ gs, wfGem g) :
    ∀ st : ParseState, st.sec = "GEM".data →
      ((gs.flatMap writeGemSpecLines).foldl parseStep st).sec = st.sec ∧
      ((gs.flatMap writeGemSpecLines).foldl parseStep st).git = st.git ∧
      ((gs.flatMap writeGemSpecLines).foldl parseStep st).path = st.path ∧
      ((gs.flatMap writeGemSpecLines).foldl parseStep st).lock.gitSpecs =
        st.lock.gitSpecs ∧
      ((gs.flatMap writeGemSpecLines).foldl parseStep st).lock.pathSpecs =
        st.lock.pathSpecs ∧
      ((gs.flatMap writeGemSpecLines).foldl parseStep st).lock.platforms =
        st.lock.platforms ∧
      ((gs.flatMap writeGemSpecLines).foldl parseStep st).lock.dependencies =
        st.lock.dependencies ∧
      ((gs.flatMap writeGemSpecLines).foldl parseStep st).lock.bundledWith =
        st.lock.bundledWith ∧
      ((gs.flatMap writeGemSpecLines).foldl parseStep st).lock.gemSpecs ++
          ((gs.flatMap writeGemSpecLines).foldl parseStep st).gem.toList =
        st.lock.gemSpecs ++ st.gem.toList ++ gs.map normGem := by
  induction gs with
  | nil =>
    intro st hsec
    simp
  | cons g gs ih =>
    intro st hsec
    rw [List.flatMap_cons, List.foldl_append]
    rw [foldl_writeGemSpecLines hsec (hwf g (by simp))]
    obtain ⟨i1, i2, i3, i4, i5, i6, i7, i8, i9⟩ :=
      ih (fun x hx => hwf x (by simp [hx]))
        ({ flushGem st with gem := some (normGem g) })
        (by show (flushGem st).sec = "GEM".data
            rw [flushGem_sec]
            exact hsec)
    refine ⟨?_, ?_, ?_, ?_, ?_, ?_, ?_, ?_, ?_⟩
    · rw [i1]
      simp
    · rw [i2]
      simp
    · rw [i3]
      simp
    · rw [i4]
      simp
    · rw [i5]
      simp
    · rw [i6]
      simp
    · rw [i7]
      simp
    · rw [i8]
      simp
    · rw [i9]
      simp [List.append_assoc]

/-- Scanning the whole written GEM section. -/
theorem foldl_writeGemSection (lf : Lockfile) (hwf : ∀ g ∈ lf.gemSpecs, wfGem g)
    (st : ParseState) (hgit : st.git = none) (hpath : st.path = none) :
    ((writeGemSection lf).foldl parseStep st).git = none ∧
    ((writeGemSection lf).foldl parseStep st).path = none ∧
    ((writeGemSection lf).foldl parseStep st).lock.gitSpecs = st.lock.gitSpecs ∧
    ((writeGemSection lf).foldl parseStep st).lock.pathSpecs = st.lock.pathSpecs ∧
    ((writeGemSection lf).foldl parseStep st).lock.platforms = st.lock.platforms ∧
    ((writeGemSection lf).foldl parseStep st).lock.dependencies =
      st.lock.dependencies ∧
    ((writeGemSection lf).foldl parseStep st).lock.bundledWith =
      st.lock.bundledWith ∧
    ((writeGemSection lf).foldl parseStep st).lock.gemSpecs ++
        ((writeGemSection lf).foldl parseStep st).gem.toList =
      st.lock.gemSpecs ++ st.gem.toList ++
        ((sortLe (fun a b : GemSpec => leStr a.name b.name) lf.gemSpecs).map
          normGem) := by
  unfold writeGemSection
  by_cases hempty : lf.gemSpecs.isEmpty = true
  · rw [if_pos hempty]
    have he : lf.gemSpecs = [] := by simpa using hempty
    rw [List.foldl_nil, he]
    exact ⟨hgit, hpath, rfl, rfl, rfl, rfl, rfl, by simp [sortLe]⟩
  · rw [if_neg hempty]
    have hne : lf.gemSpecs ≠ [] := by simpa using hempty
    have hkey : groupByKey
        (fun s : GemSpec => if s.sourceURL.isEmpty then defaultGemRemote
          else s.sourceURL) lf.gemSpecs = [(defaultGemRemote, lf.gemSpecs)] :=
      groupByKey_const _ defaultGemRemote lf.gemSpecs hne
        (fun x hx => by rw [(hwf x hx).2.2.2.2]; rfl)
    dsimp only
    rw [hkey, sortLe_singleton, List.map_cons, List.map_nil, joinBlocksBlank_single]
    rw [List.foldl_cons, parseStep_hdr_GEM, flushGit_of_none hgit,
      flushPath_of_none hpath]
    rw [List.foldl_cons]
    rw [show indent2 ++ "remote: ".data ++ defaultGemRemote =
      "  remote: ".data ++ defaultGemRemote from rfl]
    rw [parseStep_remote_other ({ st with sec := "GEM".data })
      (by intro hc; cases hc) (by intro hc; cases hc) defaultGemRemote]
    rw [List.foldl_cons]
    rw [show indent2 ++ "specs:".data = "  specs:".data from rfl]
    rw [parseStep_specs_line]
    obtain ⟨i1, i2, i3, i4, i5, i6, i7, i8, i9⟩ := foldl_gemList
      (sortLe (fun a b : GemSpec => leStr a.name b.name) lf.gemSpecs)
      (fun x hx => hwf x (mem_sortLe.mp hx))
      ({ st with sec := "GEM".data }) rfl
    refine ⟨?_, ?_, ?_, ?_, ?_, ?_, ?_, ?_⟩
    · rw [i2]
      exact hgit
    · rw [i3]
      exact hpath
    · exact i4
    · exact i5
    · exact i6
    · exact i7
    · exact i8
    · rw [i9]

/-- Scanning a concatenation of written GIT blocks, one per singleton group. -/
theorem foldl_gitBlocks (prs : List (Str × List GitGemSpec))
    (hshape : ∀ pr ∈ prs, ∃ g, pr.2 = [g] ∧ wfGit g) :
    ∀ st : ParseState,
      let st2 := ((prs.map (fun pr =>
        writeGitBlock (pr.2.headD emptyGitGem) pr.2)).flatten).foldl parseStep st
      st2.lock.platforms = st.lock.platforms ∧
      st2.lock.dependencies = st.lock.dependencies ∧
      st2.lock.bundledWith = st.lock.bundledWith ∧
      st2.lock.gemSpecs ++ st2.gem.toList =
        st.lock.gemSpecs ++ st.gem.toList ∧
      st2.lock.pathSpecs ++ st2.path.toList =
        st.lock.pathSpecs ++ st.path.toList ∧
      st2.lock.gitSpecs ++ st2.git.toList =
        st.lock.gitSpecs ++ st.git.toList ++
          prs.map (fun pr => normGit (pr.2.headD emptyGitGem)) := by
  induction prs with
  | nil =>
    intro st
    simp
  | cons pr prs ih =>
    intro st
    obtain ⟨g, hg2, hwfg⟩ := hshape pr (by simp)
    rw [List.map_cons, List.flatten_cons, List.foldl_append]
    rw [hg2]
    rw [show ([g] : List GitGemSpec).headD emptyGitGem = g from rfl]
    rw [foldl_writeGitBlock st hwfg]
    obtain ⟨i1, i2, i3, i4, i5, i6⟩ := ih (fun x hx => hshape x (by simp [hx]))
      ({ flushPath (flushGit (flushGem st)) with
          sec := "GIT".data
          git := some (normGit g) })
    refine ⟨?_, ?_, ?_, ?_, ?_, ?_⟩
    · rw [i1]
      simp
    · rw [i2]
      simp
    · rw [i3]
      simp
    · rw [i4]
      simp
    · rw [i5]
      simp
    · rw [i6]
      simp [hg2, List.append_assoc]

/-- Scanning the whole written GIT section, under the amended hypothesis that
the composite source keys are pairwise distinct. -/
theorem foldl_writeGitSection (lf : Lockfile) (hwf : ∀ g ∈ lf.gitSpecs, wfGit g)
    (hnd : (lf.gitSpecs.map gitSourceKey).Nodup) (st : ParseState) :
    ∃ gits : List GitGemSpec, List.Perm gits lf.gitSpecs ∧
      (((writeGitSection lf).foldl parseStep st).lock.platforms =
        st.lock.platforms ∧
      ((writeGitSection lf).foldl parseStep st).lock.dependencies =
        st.lock.dependencies ∧
      ((writeGitSection lf).foldl parseStep st).lock.bundledWith =
        st.lock.bundledWith ∧
      ((writeGitSection lf).foldl parseStep st).lock.gemSpecs ++
          ((writeGitSection lf).foldl parseStep st).gem.toList =
        st.lock.gemSpecs ++ st.gem.toList ∧
      ((writeGitSection lf).foldl parseStep st).lock.pathSpecs ++
          ((writeGitSection lf).foldl parseStep st).path.toList =
        st.lock.pathSpecs ++ st.path.toList ∧
      ((writeGitSection lf).foldl parseStep st).lock.gitSpecs ++
          ((writeGitSection lf).foldl parseStep st).git.toList =
        st.lock.gitSpecs ++ st.git.toList ++ gits.map normGit) := by
  unfold writeGitSection
  by_cases hempty : lf.gitSpecs.isEmpty = true
  · rw [if_pos hempty]
    refine ⟨[], by simpa using hempty, ?_⟩
    rw [List.foldl_nil]
    exact ⟨rfl, rfl, rfl, rfl, rfl, by simp⟩
  · rw [if_neg hempty]
    dsimp only
    rw [groupByKey_nodup gitSourceKey lf.gitSpecs hnd]
    set prs := sortLe
      (fun a b : Str × List GitGemSpec =>
        leStr ((a.2.headD emptyGitGem).remote) ((b.2.headD emptyGitGem).remote))
      (lf.gitSpecs.map (fun g => (gitSourceKey g, [g]))) with hprs
    have hperm : List.Perm prs (lf.gitSpecs.map (fun g => (gitSourceKey g, [g]))) :=
      sortLe_perm _ _
    have hshape : ∀ pr ∈ prs, ∃ g, pr.2 = [g] ∧ wfGit g := by
      intro pr hpr
      have hpr2 := hperm.mem_iff.mp hpr
      rw [List.mem_map] at hpr2
      obtain ⟨g, hg, rfl⟩ := hpr2
      exact ⟨g, rfl, hwf g hg⟩
    obtain ⟨i1, i2, i3, i4, i5, i6⟩ := foldl_gitBlocks prs hshape st
    refine ⟨prs.map (fun pr => pr.2.headD emptyGitGem), ?_, i1, i2, i3, i4, i5, ?_⟩
    · have h1 := hperm.map (fun pr : Str × List GitGemSpec => pr.2.headD emptyGitGem)
      rw [List.map_map] at h1
      have h2 : lf.gitSpecs.map ((fun pr : Str × List GitGemSpec =>
          pr.2.headD emptyGitGem) ∘ (fun g => (gitSourceKey g, [g]))) =
          lf.gitSpecs := by
        induction lf.gitSpecs with
        | nil => rfl
        | cons x xs ihx => rw [List.map_cons, ihx]; rfl
      rw [h2] at h1
      exact h1
    · rw [i6, List.map_map]
      rfl

/-- Scanning a concatenation of written PATH blocks. -/
theorem foldl_pathBlocks (prs : List (Str × List PathGemSpec))
    (hshape : ∀ pr ∈ prs, ∃ g, pr.1 = g.remote ∧ pr.2 = [g] ∧ wfPath g) :
    ∀ st : ParseState,
      let st2 := ((prs.map (fun pr =>
        writePathBlock pr.1 pr.2)).flatten).foldl parseStep st
      st2.lock.platforms = st.lock.platforms ∧
      st2.lock.dependencies = st.lock.dependencies ∧
      st2.lock.bundledWith = st.lock.bundledWith ∧
      st2.lock.gemSpecs ++ st2.gem.toList =
        st.lock.gemSpecs ++ st.gem.toList ∧
      st2.lock.gitSpecs ++ st2.git.toList =
        st.lock.gitSpecs ++ st.git.toList ∧
      st2.lock.pathSpecs ++ st2.path.toList =
        st.lock.pathSpecs ++ st.path.toList ++
          prs.map (fun pr => normPath (pr.2.headD emptyPathGem)) := by
  induction prs with
  | nil =>
    intro st
    simp
  | cons pr prs ih =>
    intro st
    obtain ⟨g, hg1, hg2, hwfg⟩ := hshape pr (by simp)
    rw [List.map_cons, List.flatten_cons, List.foldl_append]
    rw [hg1, hg2]
    rw [foldl_writePathBlock st hwfg]
    obtain ⟨i1, i2, i3, i4, i5, i6⟩ := ih (fun x hx => hshape x (by simp [hx]))
      ({ flushPath (flushGit (flushGem st)) with
          sec := "PATH".data
          path := some (normPath g) })
    refine ⟨?_, ?_, ?_, ?_, ?_, ?_⟩
    · rw [i1]
      simp
    · rw [i2]
      simp
    · rw [i3]
      simp
    · rw [i4]
      simp
    · rw [i5]
      simp
    · rw [i6]
      simp [hg2, List.append_assoc]

/-- Scanning the whole written PATH section, under the amended hypothesis that
the remote paths are pairwise distinct. -/
theorem foldl_writePathSection (lf : Lockfile)
    (hwf : ∀ g ∈ lf.pathSpecs, wfPath g)
    (hnd : (lf.pathSpecs.map (fun g => g.remote)).Nodup) (st : ParseState) :
    ∃ paths : List PathGemSpec, List.Perm paths lf.pathSpecs ∧
      (((writePathSection lf).foldl parseStep st).lock.platforms =
        st.lock.platforms ∧
      ((writePathSection lf).foldl parseStep st).lock.dependencies =
        st.lock.dependencies ∧
      ((writePathSection lf).foldl parseStep st).lock.bundledWith =
        st.lock.bundledWith ∧
      ((writePathSection lf).foldl parseStep st).lock.gemSpecs ++
          ((writePathSection lf).foldl parseStep st).gem.toList =
        st.lock.gemSpecs ++ st.gem.toList ∧
      ((writePathSection lf).foldl parseStep st).lock.gitSpecs ++
          ((writePathSection lf).foldl parseStep st).git.toList =
        st.lock.gitSpecs ++ st.git.toList ∧
      ((writePathSection lf).foldl parseStep st).lock.pathSpecs ++
          ((writePathSection lf).foldl parseStep st).path.toList =
        st.lock.pathSpecs ++ st.path.toList ++ paths.map normPath) := by
  unfold writePathSection
  by_cases hempty : lf.pathSpecs.isEmpty = true
  · rw [if_pos hempty]
    refine ⟨[], by simpa using hempty, ?_⟩
    rw [List.foldl_nil]
    exact ⟨rfl, rfl, rfl, rfl, rfl, by simp⟩
  · rw [if_neg hempty]
    dsimp only
    rw [groupByKey_nodup (fun g : PathGemSpec => g.remote) lf.pathSpecs hnd]
    set prs := sortLe (fun a b : Str × List PathGemSpec => leStr a.1 b.1)
      (lf.pathSpecs.map (fun g => (g.remote, [g]))) with hprs
    have hperm : List.Perm prs (lf.pathSpecs.map (fun g => (g.remote, [g]))) :=
      sortLe_perm _ _
    have hshape : ∀ pr ∈ prs, ∃ g, pr.1 = g.remote ∧ pr.2 = [g] ∧ wfPath g := by
      intro pr hpr
      have hpr2 := hperm.mem_iff.mp hpr
      rw [List.mem_map] at hpr2
      obtain ⟨g, hg, rfl⟩ := hpr2
      exact ⟨g, rfl, rfl, hwf g hg⟩
    obtain ⟨i1, i2, i3, i4, i5, i6⟩ := foldl_pathBlocks prs hshape st
    refine ⟨prs.map (fun pr => pr.2.headD emptyPathGem), ?_, i1, i2, i3, i4, i5, ?_⟩
    · have h1 := hperm.map (fun pr : Str × List PathGemSpec => pr.2.headD emptyPathGem)
      rw [List.map_map] at h1
      have h2 : lf.pathSpecs.map ((fun pr : Str × List PathGemSpec =>
          pr.2.headD emptyPathGem) ∘ (fun g => (g.remote, [g]))) =
          lf.pathSpecs := by
        induction lf.pathSpecs with
        | nil => rfl
        | cons x xs ihx => rw [List.map_cons, ihx]; rfl
      rw [h2] at h1
      exact h1
    · rw [i6, List.map_map]
      rfl

theorem foldl_platformLines (ls : List Str) :
    ∀ st : ParseState, st.sec = "PLATFORMS".data →
      ((ls.map (fun p => indent2 ++ p)).foldl parseStep st).sec = st.sec ∧
      ((ls.map (fun p => indent2 ++ p)).foldl parseStep st).gem = st.gem ∧
      ((ls.map (fun p => indent2 ++ p)).foldl parseStep st).git = st.git ∧
      ((ls.map (fun p => indent2 ++ p)).foldl parseStep st).path = st.path ∧
      ((ls.map (fun p => indent2 ++ p)).foldl parseStep st).lock.gemSpecs =
        st.lock.gemSpecs ∧
      ((ls.map (fun p => indent2 ++ p)).foldl parseStep st).lock.gitSpecs =
        st.lock.gitSpecs ∧
      ((ls.map (fun p => indent2 ++ p)).foldl parseStep st).lock.pathSpecs =
        st.lock.pathSpecs ∧
      ((ls.map (fun p => indent2 ++ p)).foldl parseStep st).lock.dependencies =
        st.lock.dependencies ∧
      ((ls.map (fun p => indent2 ++ p)).foldl parseStep st).lock.bundledWith =
        st.lock.bundledWith := by
  induction ls with
  | nil =>
    intro st hsec
    exact ⟨rfl, rfl, rfl, rfl, rfl, rfl, rfl, rfl, rfl⟩
  | cons p ls ih =>
    intro st hsec
    rw [List.map_cons, List.foldl_cons]
    rw [show indent2 ++ p = ' ' :: ' ' :: p from rfl]
    obtain ⟨pl, hpl⟩ := parseStep_platforms_line st hsec p
    rw [hpl]
    exact ih ({ st with lock := { st.lock with platforms := pl } }) hsec

theorem foldl_writePlatformsSection (lf : Lockfile) (st : ParseState) :
    ((writePlatformsSection lf).foldl parseStep st).lock.dependencies =
      st.lock.dependencies ∧
    ((writePlatformsSection lf).foldl parseStep st).lock.bundledWith =
      st.lock.bundledWith ∧
    ((writePlatformsSection lf).foldl parseStep st).lock.gemSpecs ++
        ((writePlatformsSection lf).foldl parseStep st).gem.toList =
      st.lock.gemSpecs ++ st.gem.toList ∧
    ((writePlatformsSection lf).foldl parseStep st).lock.gitSpecs ++
        ((writePlatformsSection lf).foldl parseStep st).git.toList =
      st.lock.gitSpecs ++ st.git.toList ∧
    ((writePlatformsSection lf).foldl parseStep st).lock.pathSpecs ++
        ((writePlatformsSection lf).foldl parseStep st).path.toList =
      st.lock.pathSpecs ++ st.path.toList := by
  unfold writePlatformsSection
  by_cases hempty : lf.platforms.isEmpty = true
  · rw [if_pos hempty, List.foldl_nil]
    exact ⟨rfl, rfl, rfl, rfl, rfl⟩
  · rw [if_neg hempty]
    rw [List.foldl_cons, parseStep_blank, List.foldl_cons, parseStep_hdr_PLATFORMS]
    obtain ⟨i1, i2, i3, i4, i5, i6, i7, i8, i9⟩ := foldl_platformLines
      (sortLe leStr (dedupStr lf.platforms))
      ({ flushPath (flushGit (flushGem st)) with sec := "PLATFORMS".data }) rfl
    refine ⟨?_, ?_, ?_, ?_, ?_⟩
    · rw [i8]
      simp
    · rw [i9]
      simp
    · rw [i5, i2]
      simp
    · rw [i6, i3]
      simp
    · rw [i7, i4]
      simp

theorem foldl_depLines (ds : List Dependency) :
    ∀ st : ParseState, st.sec = "DEPENDENCIES".data →
      ((ds.map (writeDependency indent2)).foldl parseStep st).sec = st.sec ∧
      ((ds.map (writeDependency indent2)).foldl parseStep st).gem = st.gem ∧
      ((ds.map (writeDependency indent2)).foldl parseStep st).git = st.git ∧
      ((ds.map (writeDependency indent2)).foldl parseStep st).path = st.path ∧
      ((ds.map (writeDependency indent2)).foldl parseStep st).lock.gemSpecs =
        st.lock.gemSpecs ∧
      ((ds.map (writeDependency indent2)).foldl parseStep st).lock.gitSpecs =
        st.lock.gitSpecs ∧
      ((ds.map (writeDependency indent2)).foldl parseStep st).lock.pathSpecs =
        st.lock.pathSpecs ∧
      ((ds.map (writeDependency indent2)).foldl parseStep st).lock.platforms =
        st.lock.platforms ∧
      ((ds.map (writeDependency indent2)).foldl parseStep st).lock.bundledWith =
        st.lock.bundledWith := by
  induction ds with
  | nil =>
    intro st hsec
    exact ⟨rfl, rfl, rfl, rfl, rfl, rfl, rfl, rfl, rfl⟩
  | cons d ds ih =>
    intro st hsec
    rw [List.map_cons, List.foldl_cons]
    obtain ⟨r, hr⟩ : ∃ r, writeDependency indent2 d = ' ' :: ' ' :: r := by
      unfold writeDependency
      by_cases hce : d.constraints.isEmpty = true
      · rw [if_pos hce]
        exact ⟨d.name, rfl⟩
      · rw [if_neg hce]
        exact ⟨d.name ++ (" (".data ++ (joinSep ", ".data d.constraints ++ [')'])),
          by simp⟩
    rw [hr]
    obtain ⟨dl, hdl⟩ := parseStep_dependencies_line st hsec r
    rw [hdl]
    exact ih ({ st with lock := { st.lock with dependencies := dl } }) hsec

theorem foldl_writeDependenciesSection (lf : Lockfile) (st : ParseState) :
    ((writeDependenciesSection lf).foldl parseStep st).lock.bundledWith =
      st.lock.bundledWith ∧
    ((writeDependenciesSection lf).foldl parseStep st).lock.gemSpecs ++
        ((writeDependenciesSection lf).foldl parseStep st).gem.toList =
      st.lock.gemSpecs ++ st.gem.toList ∧
    ((writeDependenciesSection lf).foldl parseStep st).lock.gitSpecs ++
        ((writeDependenciesSection lf).foldl parseStep st).git.toList =
      st.lock.gitSpecs ++ st.git.toList ∧
    ((writeDependenciesSection lf).foldl parseStep st).lock.pathSpecs ++
        ((writeDependenciesSection lf).foldl parseStep st).path.toList =
      st.lock.pathSpecs ++ st.path.toList := by
  unfold writeDependenciesSection
  by_cases hempty : lf.dependencies.isEmpty = true
  · rw [if_pos hempty, List.foldl_nil]
    exact ⟨rfl, rfl, rfl, rfl⟩
  · rw [if_neg hempty]
    rw [List.foldl_cons, parseStep_blank, List.foldl_cons,
      parseStep_hdr_DEPENDENCIES]
    obtain ⟨i1, i2, i3, i4, i5, i6, i7, i8, i9⟩ := foldl_depLines
      (sortLe depLe lf.dependencies)
      ({ flushPath (flushGit (flushGem st)) with sec := "DEPENDENCIES".data }) rfl
    refine ⟨?_, ?_, ?_, ?_⟩
    · rw [i9]
      simp
    · rw [i5, i2]
      simp
    · rw [i6, i3]
      simp
    · rw [i7, i4]
      simp

theorem foldl_writeBundledWithSection (lf : Lockfile)
    (hbw : trimSpace lf.bundledWith = lf.bundledWith) (st : ParseState) :
    ((writeBundledWithSection lf).foldl parseStep st).gem = st.gem ∧
    ((writeBundledWithSection lf).foldl parseStep st).git = st.git ∧
    ((writeBundledWithSection lf).foldl parseStep st).path = st.path ∧
    ((writeBundledWithSection lf).foldl parseStep st).lock.gemSpecs =
      st.lock.gemSpecs ∧
    ((writeBundledWithSection lf).foldl parseStep st).lock.gitSpecs =
      st.lock.gitSpecs ∧
    ((writeBundledWithSection lf).foldl parseStep st).lock.pathSpecs =
      st.lock.pathSpecs ∧
    ((writeBundledWithSection lf).foldl parseStep st).lock.bundledWith =
      (if lf.bundledWith.isEmpty then st.lock.bundledWith else lf.bundledWith) := by
  unfold writeBundledWithSection
  by_cases hempty : lf.bundledWith.isEmpty = true
  · rw [if_pos hempty, if_pos hempty, List.foldl_nil]
    exact ⟨rfl, rfl, rfl, rfl, rfl, rfl, rfl⟩
  · rw [if_neg hempty, if_neg hempty]
    rw [List.foldl_cons, parseStep_blank, List.foldl_cons, parseStep_hdr_BUNDLED,
      List.foldl_cons]
    rw [show "   ".data ++ lf.bundledWith =
      ' ' :: ' ' :: ' ' :: lf.bundledWith from rfl]
    rw [parseStep_bundled_val ({ st with sec := "BUNDLED_WITH".data }) rfl
      lf.bundledWith]
    rw [hbw, List.foldl_nil]
    exact ⟨rfl, rfl, rfl, rfl, rfl, rfl, rfl⟩

/-- Per-entry signature of a registry entry: name, version, platform and the
number of dependency edges. -/
def gemSig (g : GemSpec) : Str × Str × Str × Nat :=
  (g.name, g.version, g.platform, g.dependencies.length)

/-- Per-entry signature of a version-control entry: identity and source
metadata plus the number of dependency edges. -/
def gitSig (g : GitGemSpec) : Str × Str × Str × Str × Str × Str × Nat :=
  (g.name, g.version, g.remote, g.revision, g.branch, g.tag,
    g.dependencies.length)

/-- Per-entry signature of a local-path entry. -/
def pathSig (g : PathGemSpec) : Str × Str × Str × Nat :=
  (g.name, g.version, g.remote, g.dependencies.length)

theorem foldl_writeLockfileLines (M : Lockfile) :
    List.foldl parseStep initState (writeLockfileLines M) =
      (writeBundledWithSection M).foldl parseStep
        ((writeDependenciesSection M).foldl parseStep
          ((writePlatformsSection M).foldl parseStep
            ((writePathSection M).foldl parseStep
              ((writeGitSection M).foldl parseStep
                ((writeGemSection M).foldl parseStep initState))))) := by
  have hblank : ∀ s : ParseState, List.foldl parseStep s [[]] = s := fun s => by
    rw [List.foldl_cons, parseStep_blank, List.foldl_nil]
  unfold writeLockfileLines
  simp only [List.foldl_append]
  rw [hblank, hblank, hblank, hblank, hblank]

theorem mapCongr {f g : α → β} : ∀ {l : List α},
    (∀ a ∈ l, f a = g a) → l.map f = l.map g := by
  intro l
  induction l with
  | nil => intro _; rfl
  | cons x xs ih =>
    intro h
    rw [List.map_cons, List.map_cons, h x (by simp), ih (fun a ha => h a (by simp [ha]))]

/-- C1 (amended): round-trip stability of `Parse` after `Write`, under the
hypotheses that the version-control entries of the parsed model have pairwise
distinct composite source keys (`remote|revision|branch|tag`) and that the
local-path entries have pairwise distinct remote paths — without them the
writer merges same-source blocks and entries are lost (see the
counterexample).  Then re-parsing the written lockfile yields the same number
of registry, version-control and local-path entries, and — up to the writer's
sort order, i.e. as a permutation — each entry keeps its name, version,
platform, source metadata, and number of dependency edges; the tool-version
string also survives. -/
theorem c1_roundtrip_amended (lines : List Str)
    (hgitnd : ((parseLockfileLines lines).gitSpecs.map gitSourceKey).Nodup)
    (hpathnd : ((parseLockfileLines lines).pathSpecs.map
      (fun g => g.remote)).Nodup) :
    (parseLockfileLines (writeLockfileLines
        (parseLockfileLines lines))).gemSpecs.length =
      (parseLockfileLines lines).gemSpecs.length ∧
    (parseLockfileLines (writeLockfileLines
        (parseLockfileLines lines))).gitSpecs.length =
      (parseLockfileLines lines).gitSpecs.length ∧
    (parseLockfileLines (writeLockfileLines
        (parseLockfileLines lines))).pathSpecs.length =
      (parseLockfileLines lines).pathSpecs.length ∧
    List.Perm
      ((parseLockfileLines (writeLockfileLines
        (parseLockfileLines lines))).gemSpecs.map gemSig)
      ((parseLockfileLines lines).gemSpecs.map gemSig) ∧
    List.Perm
      ((parseLockfileLines (writeLockfileLines
        (parseLockfileLines lines))).gitSpecs.map gitSig)
      ((parseLockfileLines lines).gitSpecs.map gitSig) ∧
    List.Perm
      ((parseLockfileLines (writeLockfileLines
        (parseLockfileLines lines))).pathSpecs.map pathSig)
      ((parseLockfileLines lines).pathSpecs.map pathSig) ∧
    (parseLockfileLines (writeLockfileLines
        (parseLockfileLines lines))).bundledWith =
      (parseLockfileLines lines).bundledWith := by
  suffices h : ∀ M : Lockfile, wfLockfile M →
      (M.gitSpecs.map gitSourceKey).Nodup →
      (M.pathSpecs.map (fun g => g.remote)).Nodup →
      (parseLockfileLines (writeLockfileLines M)).gemSpecs.length =
        M.gemSpecs.length ∧
      (parseLockfileLines (writeLockfileLines M)).gitSpecs.length =
        M.gitSpecs.length ∧
      (parseLockfileLines (writeLockfileLines M)).pathSpecs.length =
        M.pathSpecs.length ∧
      List.Perm ((parseLockfileLines (writeLockfileLines M)).gemSpecs.map gemSig)
        (M.gemSpecs.map gemSig) ∧
      List.Perm ((parseLockfileLines (writeLockfileLines M)).gitSpecs.map gitSig)
        (M.gitSpecs.map gitSig) ∧
      List.Perm ((parseLockfileLines (writeLockfileLines M)).pathSpecs.map pathSig)
        (M.pathSpecs.map pathSig) ∧
      (parseLockfileLines (writeLockfileLines M)).bundledWith = M.bundledWith by
    exact h (parseLockfileLines lines) (wfLockfile_parse lines) hgitnd hpathnd
  intro M hwfM hnd1 hnd2
  obtain ⟨hwfgem, hwfgit, hwfpath, hwfbw⟩ := hwfM
  obtain ⟨a1, a2, a3, a4, a5, a6, a7, a8⟩ :=
    foldl_writeGemSection M hwfgem initState rfl rfl
  obtain ⟨gits, hgits, b1, b2, b3, b4, b5, b6⟩ :=
    foldl_writeGitSection M hwfgit hnd1
      ((writeGemSection M).foldl parseStep initState)
  obtain ⟨paths, hpaths, p1, p2, p3, p4, p5, p6⟩ :=
    foldl_writePathSection M hwfpath hnd2
      ((writeGitSection M).foldl parseStep
        ((writeGemSection M).foldl parseStep initState))
  obtain ⟨q1, q2, q3, q4, q5⟩ :=
    foldl_writePlatformsSection M
      ((writePathSection M).foldl parseStep
        ((writeGitSection M).foldl parseStep
          ((writeGemSection M).foldl parseStep initState)))
  obtain ⟨r1, r2, r3, r4⟩ :=
    foldl_writeDependenciesSection M
      ((writePlatformsSection M).foldl parseStep
        ((writePathSection M).foldl parseStep
          ((writeGitSection M).foldl parseStep
            ((writeGemSection M).foldl parseStep initState))))
  obtain ⟨s1, s2, s3, s4, s5, s6, s7⟩ :=
    foldl_writeBundledWithSection M hwfbw
      ((writeDependenciesSection M).foldl parseStep
        ((writePlatformsSection M).foldl parseStep
          ((writePathSection M).foldl parseStep
            ((writeGitSection M).foldl parseStep
              ((writeGemSection M).foldl parseStep initState)))))
  have hZ : parseLockfileLines (writeLockfileLines M) =
      (flushPath (flushGit (flushGem
        ((writeBundledWithSection M).foldl parseStep
          ((writeDependenciesSection M).foldl parseStep
            ((writePlatformsSection M).foldl parseStep
              ((writePathSection M).foldl parseStep
                ((writeGitSection M).foldl parseStep
                  ((writeGemSection M).foldl parseStep initState))))))))).lock := by
    unfold parseLockfileLines
    rw [foldl_writeLockfileLines M]
  have hgem2 : (parseLockfileLines (writeLockfileLines M)).gemSpecs =
      (sortLe (fun a b : GemSpec => leStr a.name b.name) M.gemSpecs).map
        normGem := by
    rw [hZ]
    rw [show ∀ Z : ParseState, (flushPath (flushGit (flushGem Z))).lock.gemSpecs =
      Z.lock.gemSpecs ++ Z.gem.toList from fun Z => by simp]
    rw [s4, s1, r2, q3, p4, b4, a8]
    simp [initState, emptyLockfile]
  have hgit2 : (parseLockfileLines (writeLockfileLines M)).gitSpecs =
      gits.map normGit := by
    rw [hZ]
    rw [show ∀ Z : ParseState, (flushPath (flushGit (flushGem Z))).lock.gitSpecs =
      Z.lock.gitSpecs ++ Z.git.toList from fun Z => by simp]
    rw [s5, s2, r3, q4, p5, b6, a3, a1]
    simp [initState, emptyLockfile]
  have hpath2 : (parseLockfileLines (writeLockfileLines M)).pathSpecs =
      paths.map normPath := by
    rw [hZ]
    rw [show ∀ Z : ParseState, (flushPath (flushGit (flushGem Z))).lock.pathSpecs =
      Z.lock.pathSpecs ++ Z.path.toList from fun Z => by simp]
    rw [s6, s3, r4, q5, p6, b5, a4, a2]
    simp [initState, emptyLockfile]
  have hbw2 : (parseLockfileLines (writeLockfileLines M)).bundledWith =
      M.bundledWith := by
    rw [hZ]
    rw [show ∀ Z : ParseState, (flushPath (flushGit (flushGem Z))).lock.bundledWith =
      Z.lock.bundledWith from fun Z => by simp]
    rw [s7]
    by_cases hbe : M.bundledWith.isEmpty = true
    · rw [if_pos hbe, r1, q2, p3, b3, a7]
      have hmb : M.bundledWith = [] := by simpa using hbe
      rw [hmb]
      rfl
    · rw [if_neg hbe]
  refine ⟨?_, ?_, ?_, ?_, ?_, ?_, hbw2⟩
  · rw [hgem2, List.length_map, sortLe_length]
  · rw [hgit2, List.length_map, hgits.length_eq]
  · rw [hpath2, List.length_map, hpaths.length_eq]
  · rw [hgem2, List.map_map]
    rw [show (sortLe (fun a b : GemSpec => leStr a.name b.name) M.gemSpecs).map
        (gemSig ∘ normGem) =
      (sortLe (fun a b : GemSpec => leStr a.name b.name) M.gemSpecs).map gemSig
      from mapCongr (fun x hx => by simp [gemSig, normGem, sortLe_length])]
    exact (sortLe_perm _ _).map gemSig
  · rw [hgit2, List.map_map]
    rw [show gits.map (gitSig ∘ normGit) = gits.map gitSig
      from mapCongr (fun x hx => by simp [gitSig, normGit, sortLe_length])]
    exact hgits.map gitSig
  · rw [hpath2, List.map_map]
    rw [show paths.map (pathSig ∘ normPath) = paths.map pathSig
      from mapCongr (fun x hx => by simp [pathSig, normPath, sortLe_length])]
    exact hpaths.map pathSig

/-- A concrete lockfile exercising every section for the round-trip witness. -/
def c1Lines : List Str :=
  ["GEM", "  remote: https://rubygems.org/", "  specs:", "    rake (13.0.6)",
   "    rails (7.0.4-x86_64-linux)", "      rake (>= 12, < 14)", "",
   "GIT", "  remote: https://github.com/a/b.git", "  revision: abc123",
   "  branch: main", "  specs:", "    mygem (0.1.0)", "      rake", "",
   "PATH", "  remote: ../local", "  specs:", "    loc (1.0)", "",
   "PLATFORMS", "  ruby", "",
   "DEPENDENCIES", "  rails (= 7.0.4)", "  rake", "",
   "BUNDLED WITH", "   2.4.10"].map String.data

theorem c1_witness :
    (((parseLockfileLines c1Lines).gitSpecs.map gitSourceKey).Nodup ∧
     ((parseLockfileLines c1Lines).pathSpecs.map (fun g => g.remote)).Nodup) ∧
    ((parseLockfileLines (writeLockfileLines
        (parseLockfileLines c1Lines))).gemSpecs.length =
      (parseLockfileLines c1Lines).gemSpecs.length ∧
    (parseLockfileLines (writeLockfileLines
        (parseLockfileLines c1Lines))).gitSpecs.length =
      (parseLockfileLines c1Lines).gitSpecs.length ∧
    (parseLockfileLines (writeLockfileLines
        (parseLockfileLines c1Lines))).pathSpecs.length =
      (parseLockfileLines c1Lines).pathSpecs.length ∧
    List.Perm
      ((parseLockfileLines (writeLockfileLines
        (parseLockfileLines c1Lines))).gemSpecs.map gemSig)
      ((parseLockfileLines c1Lines).gemSpecs.map gemSig) ∧
    List.Perm
      ((parseLockfileLines (writeLockfileLines
        (parseLockfileLines c1Lines))).gitSpecs.map gitSig)
      ((parseLockfileLines c1Lines).gitSpecs.map gitSig) ∧
    List.Perm
      ((parseLockfileLines (writeLockfileLines
        (parseLockfileLines c1Lines))).pathSpecs.map pathSig)
      ((parseLockfileLines c1Lines).pathSpecs.map pathSig) ∧
    (parseLockfileLines (writeLockfileLines
        (parseLockfileLines c1Lines))).bundledWith =
      (parseLockfileLines c1Lines).bundledWith) :=
  ⟨⟨by decide, by decide⟩, c1_roundtrip_amended c1Lines (by decide) (by decide)⟩

end GemfileGo
